import Mathlib

/-!
# Echo room: state store, log tailer, asset lister, handlers and stand scale

A shallow embedding of `room/echo-room/main.js`: the state normalisation
`compactState`, the safe state store (`readStateSafe`, `writeStateSafe`,
`rotateState`) over a model of the files they touch, the outbox tailer
`readNewLines`, the asset lister `listStand` over a directory tree, and the
handlers of `ipcMain.handle` over file-system calls that can throw; and of the
stand scale of `renderer/renderer.js`: the slider handler, the `onAppend` callback
and the merge of a state snapshot.

Conventions of the embedding.

* A JavaScript string is the list of its UTF-16 code units (`JSString`), so that
  `.length`, `.slice` and `.charCodeAt` are the list operations.
* A JavaScript value is a JSON value (`JSValue`); an array also carries the named
  properties that `compactState` can hang on it when the state is an array.
  Numbers are integers, as the number fields of the room state are; a number with
  a fraction or an exponent is outside the embedding.
* An object is the list of its own properties in property order (array-index keys
  first, in ascending order, then the other keys in creation order).
* The result `undefined` of a property read is `none`.
* A call that throws returns `none` (or `false` with the state reached); the
  `try`/`catch` around it picks the handler's branch.
* A file is the list of its bytes; `'utf8'` reads and writes go through
  `utf8Decode` and `utf8Encode`. File-system calls throw for a missing file only.
* For the handlers, where any file-system call can throw, the code is a function
  `Run` from the files and the outcomes of the coming calls to a value or a thrown
  error and the files after it; `attempt` is `try`/`catch`.

The definitions come first, the theorems after them.
-/

namespace Echo

/-- A JavaScript string: its UTF-16 code units. -/
abbrev JSString := List Nat

/-- The code units of a literal whose characters all lie in the basic plane. -/
def lit (s : String) : JSString := s.toList.map Char.toNat

/-- JavaScript values that `JSON.parse` can return, arrays extended with named
properties. -/
inductive JSValue where
  | null
  | bool (b : Bool)
  | num (n : Int)
  | str (s : JSString)
  | arr (items : List JSValue) (props : List (JSString × JSValue))
  | obj (props : List (JSString × JSValue))
  deriving Repr, Inhabited

/-- The own properties of an object, in property order. -/
abbrev Props := List (JSString × JSValue)

namespace JSValue

mutual
/-- Decidable equality of values. -/
def decEqValue : (a b : JSValue) → Decidable (a = b)
  | null, null => isTrue rfl
  | bool a, bool b =>
    if h : a = b then isTrue (by rw [h]) else isFalse (by intro e; cases e; exact h rfl)
  | num a, num b =>
    if h : a = b then isTrue (by rw [h]) else isFalse (by intro e; cases e; exact h rfl)
  | str a, str b =>
    if h : a = b then isTrue (by rw [h]) else isFalse (by intro e; cases e; exact h rfl)
  | arr a p, arr b q =>
    match decEqItems a b, decEqProps p q with
    | isTrue h, isTrue k => isTrue (by rw [h, k])
    | isFalse h, _ => isFalse (by intro e; cases e; exact h rfl)
    | _, isFalse k => isFalse (by intro e; cases e; exact k rfl)
  | obj p, obj q =>
    match decEqProps p q with
    | isTrue k => isTrue (by rw [k])
    | isFalse k => isFalse (by intro e; cases e; exact k rfl)
  | null, bool _ | null, num _ | null, str _ | null, arr _ _ | null, obj _ =>
    isFalse (by intro e; cases e)
  | bool _, null | bool _, num _ | bool _, str _ | bool _, arr _ _ | bool _, obj _ =>
    isFalse (by intro e; cases e)
  | num _, null | num _, bool _ | num _, str _ | num _, arr _ _ | num _, obj _ =>
    isFalse (by intro e; cases e)
  | str _, null | str _, bool _ | str _, num _ | str _, arr _ _ | str _, obj _ =>
    isFalse (by intro e; cases e)
  | arr _ _, null | arr _ _, bool _ | arr _ _, num _ | arr _ _, str _ | arr _ _, obj _ =>
    isFalse (by intro e; cases e)
  | obj _, null | obj _, bool _ | obj _, num _ | obj _, str _ | obj _, arr _ _ =>
    isFalse (by intro e; cases e)
/-- Decidable equality of lists of values. -/
def decEqItems : (a b : List JSValue) → Decidable (a = b)
  | [], [] => isTrue rfl
  | [], _ :: _ => isFalse (by intro e; cases e)
  | _ :: _, [] => isFalse (by intro e; cases e)
  | x :: xs, y :: ys =>
    match decEqValue x y, decEqItems xs ys with
    | isTrue h, isTrue k => isTrue (by rw [h, k])
    | isFalse h, _ => isFalse (by intro e; cases e; exact h rfl)
    | _, isFalse k => isFalse (by intro e; cases e; exact k rfl)
/-- Decidable equality of property lists. -/
def decEqProps : (a b : Props) → Decidable (a = b)
  | [], [] => isTrue rfl
  | [], _ :: _ => isFalse (by intro e; cases e)
  | _ :: _, [] => isFalse (by intro e; cases e)
  | (kx, x) :: xs, (ky, y) :: ys =>
    if hk : kx = ky then
      match decEqValue x y, decEqProps xs ys with
      | isTrue h, isTrue k => isTrue (by rw [hk, h, k])
      | isFalse h, _ => isFalse (by intro e; cases e; exact h rfl)
      | _, isFalse k => isFalse (by intro e; cases e; exact k rfl)
    else isFalse (by intro e; cases e; exact hk rfl)
end

instance : DecidableEq JSValue := decEqValue

end JSValue

open JSValue

/-! ## Property keys and property order -/

/-- Decimal digit code units. -/
def isDigit (c : Nat) : Bool := decide (48 ≤ c) && decide (c ≤ 57)

/-- The decimal digits of `n`, most significant first, with `fuel` bounding their
number. -/
def natDigits : Nat → Nat → JSString
  | 0, _ => []
  | fuel + 1, n => if n < 10 then [n + 48] else natDigits fuel (n / 10) ++ [n % 10 + 48]

/-- The decimal text of a natural number, as `String(n)` gives it. -/
def natToStr (n : Nat) : JSString := natDigits (n + 1) n

/-- The value of a run of decimal digits. -/
def digitsVal (s : JSString) : Nat := s.foldl (fun acc c => acc * 10 + (c - 48)) 0

/-- The array index a property key stands for: a canonical decimal numeral below
`2^32 - 1`. Such keys come first in property order, in ascending order. -/
def arrayIndex (k : JSString) : Option Nat :=
  if k.all isDigit && decide (natToStr (digitsVal k) = k) && decide (digitsVal k < 4294967295)
  then some (digitsVal k) else none

/-- Whether a new key `k` is ordered before the existing key `x`. -/
def goesBefore (k x : JSString) : Bool :=
  match arrayIndex k, arrayIndex x with
  | some n, some m => decide (n < m)
  | some _, none => true
  | none, _ => false

/-- Reading an own property; `none` is `undefined`. -/
def lookupProp (k : JSString) : Props → Option JSValue
  | [] => none
  | (x, v) :: rest => if x = k then some v else lookupProp k rest

/-- Overwriting the value of an existing key, in place. -/
def replaceProp (k : JSString) (v : JSValue) : Props → Props
  | [] => []
  | (x, w) :: rest => if x = k then (k, v) :: rest else (x, w) :: replaceProp k v rest

/-- Adding a key that is not there yet, at its place in property order. -/
def insertProp (k : JSString) (v : JSValue) : Props → Props
  | [] => [(k, v)]
  | (x, w) :: rest =>
    if goesBefore k x then (k, v) :: (x, w) :: rest else (x, w) :: insertProp k v rest

/-- Defining or assigning an own data property (`o[k] = v`). -/
def setProp (ps : Props) (k : JSString) (v : JSValue) : Props :=
  if (lookupProp k ps).isSome then replaceProp k v ps else insertProp k v ps

/-- Removing a property (`delete o[k]`). -/
def deleteProp (ps : Props) (k : JSString) : Props := ps.filter (fun p => !decide (p.1 = k))

/-- Property read `o[k]` on a value, for a key that is neither an array index nor
`length` (the keys `main.js` uses are `stickies`, `notes`, `version`, `body`,
`image`). -/
def getNamed (o : JSValue) (k : JSString) : Option JSValue :=
  match o with
  | obj ps => lookupProp k ps
  | arr _ ps => lookupProp k ps
  | _ => none

/-- Property write `o[k] = v` on an object or array, for such a key. -/
def setNamed (o : JSValue) (k : JSString) (v : JSValue) : JSValue :=
  match o with
  | obj ps => obj (setProp ps k v)
  | arr items ps => arr items (setProp ps k v)
  | other => other

/-! ## `compactState` -/

/-- Guard constant `MAX_STATE_BYTES`. -/
def MAX_STATE_BYTES : Nat := 5 * 1024 * 1024

/-- Guard constant `MAX_ITEMS`. -/
def MAX_ITEMS : Nat := 100

/-- The helper `arr` of `compactState`: `Array.isArray(x) ? x : []`, as the list
of the array's elements. -/
def arrOf : Option JSValue → List JSValue
  | some (arr items _) => items
  | _ => []

/-- The call `xs.slice(-n)` for `n > 0`: the last `n` elements. -/
def sliceLast (n : Nat) (xs : List JSValue) : List JSValue := xs.drop (xs.length - n)

/-- The call `s.startsWith(p)`. -/
def startsWith (s p : JSString) : Bool := decide (s.take p.length = p)

/-- The properties `0`, `1`, ... of an array-like, from index `i` on. -/
def indexed : Nat → List JSValue → Props
  | _, [] => []
  | i, v :: vs => (natToStr i, v) :: indexed (i + 1) vs

/-- Object spread `{ ...s }`: the own enumerable properties of `s`. -/
def spread : JSValue → Props
  | obj ps => ps
  | arr items ps => indexed 0 items ++ ps
  | str s => indexed 0 (s.map fun c => str [c])
  | _ => []

/-- The callback of `state.stickies.map` in `compactState`. -/
def compactSticky (s : JSValue) : JSValue :=
  let t := spread s
  let t := match lookupProp (lit "body") t with
    | some (str b) => if b.length > 4000 then setProp t (lit "body") (str (b.take 4000)) else t
    | _ => t
  let t := match lookupProp (lit "image") t with
    | some (str i) => if startsWith i (lit "data:image/") then deleteProp t (lit "image") else t
    | _ => t
  obj t

/-- The test `state && typeof state === 'object'`. -/
def isObjectValue : JSValue → Bool
  | obj _ => true
  | arr _ _ => true
  | _ => false

/-- The function `compactState(state)` of `main.js`. -/
def compactState (state : JSValue) : JSValue :=
  let state := if isObjectValue state then state else obj []
  let stickies := sliceLast MAX_ITEMS (arrOf (getNamed state (lit "stickies")))
  let state := setNamed state (lit "stickies") (arr stickies [])
  let notes := sliceLast MAX_ITEMS (arrOf (getNamed state (lit "notes")))
  let state := setNamed state (lit "notes") (arr notes [])
  let state := setNamed state (lit "stickies") (arr (stickies.map compactSticky) [])
  match getNamed state (lit "version") with
  | none => setNamed state (lit "version") (num 1)
  | some null => setNamed state (lit "version") (num 1)
  | some _ => state

/-- The properties of `compactSticky s`. -/
def stickyProps (s : JSValue) : Props :=
  match compactSticky s with
  | obj t => t
  | _ => []

/-- The state `compactState` has built before `state.version ??= 1`. -/
def beforeVersion (state : JSValue) : JSValue :=
  let state := if isObjectValue state then state else obj []
  let stickies := sliceLast MAX_ITEMS (arrOf (getNamed state (lit "stickies")))
  let state := setNamed state (lit "stickies") (arr stickies [])
  let notes := sliceLast MAX_ITEMS (arrOf (getNamed state (lit "notes")))
  let state := setNamed state (lit "notes") (arr notes [])
  setNamed state (lit "stickies") (arr (stickies.map compactSticky) [])

/-- The value `defaultState()`. -/
def defaultState : JSValue :=
  obj [
    (lit "background", str (lit "file:///D:/Echo/decor/wallpaper.jpg")),
    (lit "theme", str (lit "dark")),
    (lit "alwaysOnTop", bool false),
    (lit "clickThrough", bool false),
    (lit "width", num 1100),
    (lit "height", num 700),
    (lit "widgets", arr [] []),
    (lit "stickies", arr [] []),
    (lit "notes", arr [] []),
    (lit "stand", obj [
      (lit "visible", bool true),
      (lit "current", str []),
      (lit "x", num 480),
      (lit "y", num 280),
      (lit "scale", num 100),
      (lit "mirror", bool false)]),
    (lit "version", num 1)]

/-- The state `compactState` works on: its argument when an object, else `{}`. -/
def stateObject (state : JSValue) : JSValue := if isObjectValue state then state else obj []


/-! ## Concrete states -/

/-- A state whose `widgets` array has 101 entries. -/
def manyWidgets : JSValue := obj [(lit "widgets", arr (List.replicate 101 null) [])]

/-- A state with one sticky whose `text` has 5000 characters. -/
def longTextState : JSValue :=
  obj [(lit "stickies", arr [obj [(lit "text", str (List.replicate 5000 97))]] [])]

/-- The state of the scenario: one sticky whose `body` has 5000 characters. -/
def longBodyState : JSValue :=
  obj [(lit "stickies", arr [obj [(lit "body", str (List.replicate 5000 97))]] [])]

/-- A list `0, 1, ..., n-1` of numbers, as notes. -/
def numbered (n : Nat) : List JSValue := (List.range n).map fun i => num i

/-- A state with 101 notes. -/
def manyNotes : JSValue := obj [(lit "notes", arr (numbered 101) [])]

/-! ## JSON text -/

/-- Lower-case hexadecimal digit of a value below 16. -/
def hexDigit (n : Nat) : Nat := if n < 10 then 48 + n else 87 + n

/-- The escape `\uXXXX` of a code unit. -/
def unicodeEscape (c : Nat) : JSString :=
  [92, 117, hexDigit (c / 4096 % 16), hexDigit (c / 256 % 16), hexDigit (c / 16 % 16),
    hexDigit (c % 16)]

/-- High (leading) surrogate code units. -/
def isHighSurrogate (c : Nat) : Bool := decide (0xD800 ≤ c) && decide (c ≤ 0xDBFF)

/-- Low (trailing) surrogate code units. -/
def isLowSurrogate (c : Nat) : Bool := decide (0xDC00 ≤ c) && decide (c ≤ 0xDFFF)

/-- How `JSON.stringify` writes one code unit that is not part of a surrogate
pair. -/
def escapeUnit (c : Nat) : JSString :=
  if c = 8 then [92, 98]
  else if c = 9 then [92, 116]
  else if c = 10 then [92, 110]
  else if c = 12 then [92, 102]
  else if c = 13 then [92, 114]
  else if c = 34 then [92, 34]
  else if c = 92 then [92, 92]
  else if c < 32 || isHighSurrogate c || isLowSurrogate c then unicodeEscape c
  else [c]

/-- Whether a text begins with a low surrogate. -/
def nextIsLow : JSString → Bool
  | d :: _ => isLowSurrogate d
  | [] => false

/-- The characters of a quoted string, between the quotes; `paired` tells that the
code unit before was the high half of a surrogate pair, written as it is. -/
def quoteFrom : Bool → JSString → JSString
  | _, [] => []
  | paired, c :: rest =>
    if paired && isLowSurrogate c then c :: quoteFrom false rest
    else if isHighSurrogate c && nextIsLow rest then c :: quoteFrom true rest
    else escapeUnit c ++ quoteFrom false rest

/-- The JSON text of a string (`QuoteJSONString`). -/
def quote (s : JSString) : JSString := 34 :: quoteFrom false s ++ [34]

/-- The decimal text of an integer. -/
def intToStr : Int → JSString
  | Int.ofNat n => natToStr n
  | Int.negSucc n => 45 :: natToStr (n + 1)

/-- A line break followed by the indentation of nesting level `level` (two blanks
a level). -/
def newline (level : Nat) : JSString := 10 :: List.replicate (2 * level) 32

mutual
/-- The text of a value at nesting level `level`, as `JSON.stringify(v, null, 2)`
lays it out. -/
def stringifyValue (level : Nat) : JSValue → JSString
  | null => lit "null"
  | JSValue.bool true => lit "true"
  | JSValue.bool false => lit "false"
  | num n => intToStr n
  | str s => quote s
  | arr [] _ => lit "[]"
  | arr (v :: vs) _ =>
    91 :: newline (level + 1) ++ stringifyValue (level + 1) v ++ stringifyItems (level + 1) vs
      ++ newline level ++ [93]
  | obj [] => lit "\x7b\x7d"
  | obj ((k, v) :: ps) =>
    123 :: newline (level + 1) ++ quote k ++ [58, 32] ++ stringifyValue (level + 1) v
      ++ stringifyMembers (level + 1) ps ++ newline level ++ [125]
/-- The text of the elements of an array after the first. -/
def stringifyItems (level : Nat) : List JSValue → JSString
  | [] => []
  | v :: vs => 44 :: newline level ++ stringifyValue level v ++ stringifyItems level vs
/-- The text of the members of an object after the first. -/
def stringifyMembers (level : Nat) : Props → JSString
  | [] => []
  | (k, v) :: ps =>
    44 :: newline level ++ quote k ++ [58, 32] ++ stringifyValue level v
      ++ stringifyMembers level ps
end

/-- JSON white space. -/
def isWs (c : Nat) : Bool := c = 32 || c = 9 || c = 10 || c = 13

/-- Skipping white space. -/
def skipWs : JSString → JSString
  | [] => []
  | c :: cs => if isWs c then skipWs cs else c :: cs

/-- The value of a hexadecimal digit. -/
def hexVal (c : Nat) : Option Nat :=
  if 48 ≤ c ∧ c ≤ 57 then some (c - 48)
  else if 97 ≤ c ∧ c ≤ 102 then some (c - 87)
  else if 65 ≤ c ∧ c ≤ 70 then some (c - 55)
  else none

/-- The code unit of a `\uXXXX` escape. -/
def hex4 (a b c d : Nat) : Option Nat :=
  match hexVal a, hexVal b, hexVal c, hexVal d with
  | some x, some y, some z, some w => some (x * 4096 + y * 256 + z * 16 + w)
  | _, _, _, _ => none

/-- The code unit of a one-character escape. -/
def escapeChar (e : Nat) : Option Nat :=
  if e = 34 then some 34
  else if e = 92 then some 92
  else if e = 47 then some 47
  else if e = 98 then some 8
  else if e = 102 then some 12
  else if e = 110 then some 10
  else if e = 114 then some 13
  else if e = 116 then some 9
  else none

/-- Reading a string after its opening quote: the string and the text after the
closing quote. -/
def parseStringBody : JSString → Option (JSString × JSString)
  | [] => none
  | c :: rest =>
    if c = 34 then some ([], rest)
    else if c = 92 then
      match rest with
      | [] => none
      | e :: rest2 =>
        if e = 117 then
          match rest2 with
          | a :: b :: c2 :: d :: rest3 =>
            match hex4 a b c2 d, parseStringBody rest3 with
            | some u, some (s, r) => some (u :: s, r)
            | _, _ => none
          | _ => none
        else
          match escapeChar e, parseStringBody rest2 with
          | some u, some (s, r) => some (u :: s, r)
          | _, _ => none
    else if c < 32 then none
    else
      match parseStringBody rest with
      | some (s, r) => some (c :: s, r)
      | none => none

/-- The leading decimal digits of a text, and the rest. -/
def spanDigits : JSString → JSString × JSString
  | [] => ([], [])
  | c :: cs => if isDigit c then ((spanDigits cs).1.cons c, (spanDigits cs).2) else ([], c :: cs)

/-- Reading an unsigned integer literal. A literal with a fraction or an exponent
is outside the embedding (numbers are integers) and is rejected, like a literal
with a leading zero. -/
def parseNat (cs : JSString) : Option (Nat × JSString) :=
  match spanDigits cs with
  | ([], _) => none
  | (d :: ds, rest) =>
    if d = 48 ∧ ds ≠ [] then none
    else
      match rest with
      | c :: _ => if c = 46 ∨ c = 101 ∨ c = 69 then none else some (digitsVal (d :: ds), rest)
      | [] => some (digitsVal (d :: ds), rest)

/-- Whether a text begins with the given word. -/
def dropWord (w : JSString) (cs : JSString) : Option JSString :=
  if cs.take w.length = w then some (cs.drop w.length) else none

mutual
/-- Reading one JSON value, white space before it skipped; `fuel` bounds the
nesting and the number of elements. -/
def parseValue : Nat → JSString → Option (JSValue × JSString)
  | 0, _ => none
  | fuel + 1, cs =>
    match skipWs cs with
    | [] => none
    | c :: rest =>
      if c = 123 then
        match skipWs rest with
        | 125 :: r => some (obj [], r)
        | r => parseMembers fuel r []
      else if c = 91 then
        match skipWs rest with
        | 93 :: r => some (arr [] [], r)
        | r => parseElements fuel r []
      else if c = 34 then
        match parseStringBody rest with
        | some (s, r) => some (str s, r)
        | none => none
      else if c = 45 then
        match parseNat rest with
        | some (n, r) => some (num (- (n : Int)), r)
        | none => none
      else if isDigit c then
        match parseNat (c :: rest) with
        | some (n, r) => some (num n, r)
        | none => none
      else if c = 116 then (dropWord (lit "rue") rest).map fun r => (bool true, r)
      else if c = 102 then (dropWord (lit "alse") rest).map fun r => (bool false, r)
      else if c = 110 then (dropWord (lit "ull") rest).map fun r => (null, r)
      else none
/-- Reading the elements of an array, from an element on; `acc` holds the
elements read so far. -/
def parseElements : Nat → JSString → List JSValue → Option (JSValue × JSString)
  | 0, _, _ => none
  | fuel + 1, cs, acc =>
    match parseValue fuel cs with
    | none => none
    | some (v, r) =>
      match skipWs r with
      | 44 :: r2 => parseElements fuel r2 (acc ++ [v])
      | 93 :: r2 => some (arr (acc ++ [v]) [], r2)
      | _ => none
/-- Reading the members of an object, from a key on; `acc` holds the properties
defined so far. -/
def parseMembers : Nat → JSString → Props → Option (JSValue × JSString)
  | 0, _, _ => none
  | fuel + 1, cs, acc =>
    match skipWs cs with
    | 34 :: r =>
      match parseStringBody r with
      | none => none
      | some (k, r1) =>
        match skipWs r1 with
        | 58 :: r2 =>
          match parseValue fuel r2 with
          | none => none
          | some (v, r3) =>
            match skipWs r3 with
            | 44 :: r4 => parseMembers fuel r4 (setProp acc k v)
            | 125 :: r4 => some (obj (setProp acc k v), r4)
            | _ => none
        | _ => none
    | _ => none
end

namespace JSON

/-- The call `JSON.stringify(value, null, 2)`. -/
def stringify (value : JSValue) : JSString := stringifyValue 0 value

/-- The call `JSON.parse(text)`; `none` is a thrown `SyntaxError`. -/
def parse (text : JSString) : Option JSValue :=
  match parseValue (text.length + 1) text with
  | some (v, rest) => if skipWs rest = [] then some v else none
  | none => none

end JSON

/-! ## UTF-8 -/

/-- The replacement character U+FFFD. -/
def REPLACEMENT : Nat := 0xFFFD

/-- The bytes of a text written with encoding `'utf8'`: a surrogate pair is one
four-byte character, a lone surrogate is written as U+FFFD; `paired` tells that
the code unit before was the high half of a pair, already written. -/
def utf8EncodeFrom : Bool → JSString → List Nat
  | _, [] => []
  | paired, c :: rest =>
    if paired && isLowSurrogate c then utf8EncodeFrom false rest
    else if isHighSurrogate c && nextIsLow rest then
      match rest with
      | d :: _ =>
        let cp := 0x10000 + (c - 0xD800) * 1024 + (d - 0xDC00)
        [0xF0 + cp / 262144, 0x80 + cp / 4096 % 64, 0x80 + cp / 64 % 64, 0x80 + cp % 64]
          ++ utf8EncodeFrom true rest
      | [] => utf8EncodeFrom false rest
    else if isHighSurrogate c || isLowSurrogate c then
      [0xEF, 0xBF, 0xBD] ++ utf8EncodeFrom false rest
    else if c < 0x80 then c :: utf8EncodeFrom false rest
    else if c < 0x800 then [0xC0 + c / 64, 0x80 + c % 64] ++ utf8EncodeFrom false rest
    else [0xE0 + c / 4096, 0x80 + c / 64 % 64, 0x80 + c % 64] ++ utf8EncodeFrom false rest

/-- The bytes of a text in UTF-8 (`Buffer.from(text, 'utf8')`). -/
def utf8Encode (text : JSString) : List Nat := utf8EncodeFrom false text

/-- The state of the UTF-8 decoder: continuation bytes still needed, the code point
so far, and the bounds for the next continuation byte. -/
structure DecoderState where
  needed : Nat
  codePoint : Nat
  lower : Nat
  upper : Nat
  deriving Repr, DecidableEq

/-- The decoder between characters. -/
def DecoderState.start : DecoderState := ⟨0, 0, 0x80, 0xBF⟩

/-- The UTF-16 code units of a code point. -/
def codeUnits (cp : Nat) : JSString :=
  if cp < 0x10000 then [cp]
  else [0xD800 + (cp - 0x10000) / 1024, 0xDC00 + (cp - 0x10000) % 1024]

/-- A byte met between characters: what is emitted and the next state. -/
def leadByte (b : Nat) : JSString × DecoderState :=
  if b < 0x80 then ([b], DecoderState.start)
  else if 0xC2 ≤ b ∧ b ≤ 0xDF then ([], ⟨1, b - 0xC0, 0x80, 0xBF⟩)
  else if 0xE0 ≤ b ∧ b ≤ 0xEF then
    ([], ⟨2, b - 0xE0, if b = 0xE0 then 0xA0 else 0x80, if b = 0xED then 0x9F else 0xBF⟩)
  else if 0xF0 ≤ b ∧ b ≤ 0xF4 then
    ([], ⟨3, b - 0xF0, if b = 0xF0 then 0x90 else 0x80, if b = 0xF4 then 0x8F else 0xBF⟩)
  else ([REPLACEMENT], DecoderState.start)

/-- One step of the decoder. -/
def decodeStep (st : DecoderState) (b : Nat) : JSString × DecoderState :=
  if st.needed = 0 then leadByte b
  else if st.lower ≤ b ∧ b ≤ st.upper then
    if st.needed = 1 then (codeUnits (st.codePoint * 64 + (b - 0x80)), DecoderState.start)
    else ([], ⟨st.needed - 1, st.codePoint * 64 + (b - 0x80), 0x80, 0xBF⟩)
  else (REPLACEMENT :: (leadByte b).1, (leadByte b).2)

/-- Decoding from a decoder state; a character cut short by the end of the bytes
is U+FFFD. -/
def utf8DecodeFrom : DecoderState → List Nat → JSString
  | st, [] => if st.needed = 0 then [] else [REPLACEMENT]
  | st, b :: rest => (decodeStep st b).1 ++ utf8DecodeFrom (decodeStep st b).2 rest

/-- The text of bytes read with encoding `'utf8'` (`buffer.toString('utf8')`): a
byte-order mark is kept, an ill-formed sequence is U+FFFD. -/
def utf8Decode (bytes : List Nat) : JSString := utf8DecodeFrom DecoderState.start bytes

/-! ## The files of the state store -/

/-- The function `stripBOM(s)` of `main.js`. -/
def stripBOM (s : JSString) : JSString :=
  match s with
  | c :: rest => if c = 0xFEFF then rest else s
  | [] => s

/-- The path `STATE_PATH`, for the default `HOME` on Windows. -/
def STATE_PATH : JSString := lit "D:\\Echo\\ui\\state.json"

/-- The files the store sees: the bytes of each regular file, by path, and the
clock `Date.now()`. Directories are not modelled: `HOME/ui` exists, as `main.js`
creates it when it starts. -/
structure World where
  files : JSString → Option (List Nat)
  now : Nat

/-- The call `fs.existsSync(p)`. -/
def existsSync (w : World) (p : JSString) : Bool := (w.files p).isSome

/-- The size `fs.statSync(p).size`; `none` when the call throws. -/
def statSize (w : World) (p : JSString) : Option Nat := (w.files p).map List.length

/-- The call `fs.readFileSync(p, 'utf8')`; `none` when it throws. -/
def readFileSync (w : World) (p : JSString) : Option JSString := (w.files p).map utf8Decode

/-- The call `fs.writeFileSync(p, text, 'utf8')`. -/
def writeFileSync (w : World) (p : JSString) (text : JSString) : World :=
  { w with files := fun q => if q = p then some (utf8Encode text) else w.files q }

/-- The call `fs.renameSync(a, b)`: whether it returned, and the files after it; it
throws when `a` does not exist. -/
def renameSync (w : World) (a b : JSString) : Bool × World :=
  match w.files a with
  | none => (false, w)
  | some bytes =>
    (true, { w with files := fun q => if q = a then none else if q = b then some bytes
                                      else w.files q })

/-- The backup path of `rotateState(reason)`. -/
def rotatedPath (reason : JSString) (now : Nat) : JSString :=
  STATE_PATH ++ lit "." ++ reason ++ lit "." ++ natToStr now ++ lit ".bak"

/-- The procedure `rotateState(reason)`: the files after it. -/
def rotateState (reason : JSString) (w : World) : World :=
  let rotated := rotatedPath reason w.now
  let moved := if existsSync w STATE_PATH then renameSync w STATE_PATH rotated else (true, w)
  match moved with
  | (false, w1) => w1
  | (true, w1) =>
    let fresh := defaultState
    let tmp := STATE_PATH ++ lit ".tmp"
    let w2 := writeFileSync w1 tmp (JSON.stringify fresh)
    (renameSync w2 tmp STATE_PATH).2

/-- JavaScript truthiness of a value. -/
def truthy : JSValue → Bool
  | null => false
  | JSValue.bool b => b
  | num n => decide (n ≠ 0)
  | str s => decide (s ≠ [])
  | arr _ _ => true
  | obj _ => true

/-- The expression `v || {}`. -/
def orEmptyObject (v : JSValue) : JSValue := if truthy v then v else obj []

/-- The expression `s || 'null'`. -/
def orNullText (s : JSString) : JSString := if s = [] then lit "null" else s

/-- The procedure `writeStateSafe(st)`: the files after it. -/
def writeStateSafe (st : JSValue) (w : World) : World :=
  let clean := compactState (orEmptyObject st)
  let tmp := STATE_PATH ++ lit ".tmp"
  let w1 := writeFileSync w tmp (JSON.stringify clean)
  match renameSync w1 tmp STATE_PATH with
  | (true, w2) => w2
  | (false, w2) => rotateState (lit "writefail") w2

/-- The function `readStateSafe()`: the state returned and the files after it. -/
def readStateSafe (w : World) : JSValue × World :=
  if existsSync w STATE_PATH then
    match statSize w STATE_PATH with
    | none => (defaultState, rotateState (lit "parsefail") w)
    | some size =>
      if size > MAX_STATE_BYTES then (defaultState, rotateState (lit "oversize") w)
      else
        match readFileSync w STATE_PATH with
        | none => (defaultState, rotateState (lit "parsefail") w)
        | some raw =>
          match JSON.parse (orNullText (stripBOM raw)) with
          | none => (defaultState, rotateState (lit "parsefail") w)
          | some parsed => (compactState (orEmptyObject parsed), w)
  else (defaultState, writeStateSafe defaultState w)

/-- What `readStateSafe` does from `JSON.parse` on, as a function of the text read;
`none` when it throws. This is the decoding of a state document. -/
def decodeState (raw : JSString) : Option JSValue :=
  (JSON.parse (orNullText (stripBOM raw))).map fun parsed => compactState (orEmptyObject parsed)

/-- The text `writeStateSafe` writes for a state. This is the encoding of a state
document. -/
def encodeState (st : JSValue) : JSString := JSON.stringify (compactState (orEmptyObject st))

/-! ## The outbox tailer -/

/-- White space as `String.prototype.trim` sees it. -/
def isTrimSpace (c : Nat) : Bool :=
  c = 9 || c = 10 || c = 11 || c = 12 || c = 13 || c = 32 || c = 0xA0 || c = 0x1680
    || (decide (0x2000 ≤ c) && decide (c ≤ 0x200A)) || c = 0x2028 || c = 0x2029 || c = 0x202F
    || c = 0x205F || c = 0x3000 || c = 0xFEFF

/-- The call `s.trim()`. -/
def trim (s : JSString) : JSString :=
  ((s.dropWhile isTrimSpace).reverse.dropWhile isTrimSpace).reverse

/-- The filter `l => l.trim().length > 0`. -/
def nonBlank (l : JSString) : Bool := decide ((trim l).length > 0)

/-- The call `text.split(/\r?\n/)`: a line ends at each `\n`, and a `\r` right
before that `\n` belongs to the separator. -/
def splitLines : JSString → List JSString
  | [] => [[]]
  | c :: rest =>
    if c = 10 then [] :: splitLines rest
    else if c = 13 ∧ rest.head? = some 10 then splitLines rest
    else
      match splitLines rest with
      | l :: ls => (c :: l) :: ls
      | [] => [[c]]

/-- The loop over the lines in `readNewLines`: each line that `JSON.parse` accepts
is sent, a line on which it throws is skipped. -/
def sendLines (lines : List JSString) : List JSValue :=
  lines.foldl (fun sent l =>
    match JSON.parse (stripBOM l) with
    | some o => sent ++ [o]
    | none => sent) []

/-- The records `readNewLines` sends for the bytes it has read. -/
def chunkRecords (buffer : List Nat) : List JSValue :=
  let text := stripBOM (utf8Decode buffer)
  let lines := (splitLines text).filter nonBlank
  sendLines lines

/-- The bytes one call of `readNewLines` reads: `length = size - start` bytes from
position `start`; nothing when the outbox is missing or has nothing new. -/
def bytesRead (outbox : Option (List Nat)) (tailPos : Nat) : List Nat :=
  match outbox with
  | none => []
  | some bytes =>
    let size := bytes.length
    let start := if size < tailPos then 0 else tailPos
    if size = start then [] else (bytes.drop start).take (size - start)

/-- One call of `readNewLines()`, for the outbox as it is at the call (`none` when
the file is missing, so that `statSync` throws) and the offset `tailPos`: the
records sent on `chat:append`, in order, and the offset after the call. -/
def readNewLines (outbox : Option (List Nat)) (tailPos : Nat) : List JSValue × Nat :=
  match outbox with
  | none => ([], tailPos)
  | some bytes =>
    let size := bytes.length
    let start := if size < tailPos then 0 else tailPos
    if size = start then ([], tailPos)
    else
      let length := size - start
      let buffer := (bytes.drop start).take length
      (chunkRecords buffer, size)

/-- Successive calls of `readNewLines`, one for each observed outbox: the records
sent by each call, and the offset after the last. -/
def pollAll : Nat → List (Option (List Nat)) → List (List JSValue) × Nat
  | tailPos, [] => ([], tailPos)
  | tailPos, outbox :: later =>
    let r := readNewLines outbox tailPos
    let rs := pollAll r.2 later
    (r.1 :: rs.1, rs.2)

/-- The bytes read by successive calls of `readNewLines`. -/
def pollReads : Nat → List (Option (List Nat)) → List (List Nat)
  | _, [] => []
  | tailPos, outbox :: later =>
    bytesRead outbox tailPos :: pollReads (readNewLines outbox tailPos).2 later

/-! ## Concrete outboxes and files -/

/-- The outbox of the scenario: a user record, a malformed line, an assistant
record. -/
def outbox3 : List Nat :=
  lit "\x7b\"kind\":\"user\",\"text\":\"hi\"\x7d\n\x7bnot json\x7d\n\x7b\"kind\":\"assistant\",\"text\":\"yo\"\x7d\n"

/-- The records of the scenario. -/
def userHi : JSValue := obj [(lit "kind", str (lit "user")), (lit "text", str (lit "hi"))]

/-- The second record of the scenario. -/
def assistantYo : JSValue :=
  obj [(lit "kind", str (lit "assistant")), (lit "text", str (lit "yo"))]

/-- An outbox whose second line starts with a byte-order mark: `1\n<BOM>2\n`. -/
def bomLineOutbox : List Nat := [49, 10, 0xEF, 0xBB, 0xBF, 50, 10]

/-- A world whose state file is one byte over `MAX_STATE_BYTES`. -/
def oversizeWorld : World :=
  { files := fun p => if p = STATE_PATH then some (List.replicate (MAX_STATE_BYTES + 1) 32)
                      else none,
    now := 1700000000000 }

/-! ## Polling an append-only outbox -/

/-- Bytes `a` up to `b` (excluded) of a file. -/
def fileRange (file : List Nat) (a b : Nat) : List Nat := (file.take b).drop a

/-- The ranges `[p, n₁)`, `[n₁, n₂)`, ... of a file, for a starting position and a
list of sizes. -/
def chunksAt (file : List Nat) : Nat → List Nat → List (List Nat)
  | _, [] => []
  | p, n :: ns => fileRange file p n :: chunksAt file n ns

/-- The outboxes that successive polls observe when the file only grows: its
first `n` bytes, for each observed size `n`. -/
def snapshots (file : List Nat) (sizes : List Nat) : List (Option (List Nat)) :=
  sizes.map fun n => some (file.take n)

/-- The non-blank lines of a file, as they stand in it. -/
def fileLines (file : List Nat) : List JSString :=
  (splitLines (utf8Decode file)).filter nonBlank

/-- The non-blank lines `readNewLines` parses for the bytes it has read. -/
def chunkLines (buffer : List Nat) : List JSString :=
  (splitLines (stripBOM (utf8Decode buffer))).filter nonBlank

/-- A chunk that is empty or ends with a line feed. -/
def Closed (c : List Nat) : Prop := c = [] ∨ ∃ a, c = a ++ [10]

/-- What `readNewLines` makes of a line of the file: `d` is what is sent for the
line `l` (`none` when nothing is); a line that is valid JSON yields its record. -/
def Delivers (l : JSString) (d : Option JSValue) : Prop :=
  ∀ v, JSON.parse l = some v → d = some v

/-- An outbox with one record line. -/
def oneRecord : List Nat := lit "\x7b\"a\":1\x7d\n"

/-- An outbox with two record lines. -/
def twoRecords : List Nat := lit "1\n2\n"

/-! ## Predicates of the proofs -/

/-- A text that does not go on with a digit, a fraction or an exponent. -/
def EndsNumber (rest : JSString) : Prop :=
  ∀ c r, rest = c :: r → isDigit c = false ∧ c ≠ 46 ∧ c ≠ 101 ∧ c ≠ 69

/-- A string of UTF-16 code units. -/
def validString (s : JSString) : Bool := s.all fun c => decide (c < 65536)

/-- Keys in property order: no key twice, and no key that should have gone before
an earlier one. -/
def OrderedKeys (ks : List JSString) : Prop :=
  ks.Pairwise fun a b => a ≠ b ∧ goesBefore b a = false

instance (ks : List JSString) : Decidable (OrderedKeys ks) := by
  unfold OrderedKeys
  infer_instance

mutual
/-- The values `JSON.parse` can return: arrays without named properties, objects
with their keys in property order, strings of code units. -/
def isJSON : JSValue → Bool
  | null => true
  | JSValue.bool _ => true
  | num _ => true
  | str s => validString s
  | arr items props => props.isEmpty && allJSON items
  | obj ps => decide (OrderedKeys (ps.map Prod.fst)) && propsJSON ps
/-- All elements are such values. -/
def allJSON : List JSValue → Bool
  | [] => true
  | v :: vs => isJSON v && allJSON vs
/-- All keys are strings of code units and all values are such values. -/
def propsJSON : Props → Bool
  | [] => true
  | (k, v) :: ps => validString k && isJSON v && propsJSON ps
end

mutual
/-- Fuel that suffices for `parseValue` to read the text of a value. -/
def need : JSValue → Nat
  | arr items _ => 1 + needItems items
  | obj ps => 1 + needProps ps
  | _ => 1
/-- Fuel that suffices for `parseElements`. -/
def needItems : List JSValue → Nat
  | [] => 0
  | v :: vs => 1 + need v + needItems vs
/-- Fuel that suffices for `parseMembers`. -/
def needProps : Props → Nat
  | [] => 0
  | (_, v) :: ps => 1 + need v + needProps ps
end

/-- The parser `parseValue` reads the text of `v` back, whatever the nesting level and the
text after it, given enough fuel. -/
def ReadsBack (v : JSValue) : Prop :=
  ∀ level rest fuel, need v ≤ fuel → EndsNumber rest →
    parseValue fuel (stringifyValue level v ++ rest) = some (v, rest)


/-- A small room state: one sticky with an inline image, `notes` not an array, no
`version`. -/
def sampleState : JSValue :=
  obj [
    (lit "width", num 800),
    (lit "stickies", arr [obj [
      (lit "id", str (lit "s1")),
      (lit "body", str (lit "hi")),
      (lit "image", str (lit "data:image/png;base64,AAAA"))]] []),
    (lit "notes", str (lit "none"))]

/-- What `compactState` makes of `sampleState`. -/
def sampleCompact : JSValue :=
  obj [
    (lit "width", num 800),
    (lit "stickies", arr [obj [
      (lit "id", str (lit "s1")),
      (lit "body", str (lit "hi"))]] []),
    (lit "notes", arr [] []),
    (lit "version", num 1)]

/-- Well-formed UTF-16: code units below `2^16`, every surrogate in a pair. -/
inductive WellFormed : JSString → Prop
  | nil : WellFormed []
  | unit (c : Nat) (s : JSString) : c < 65536 → isHighSurrogate c = false →
      isLowSurrogate c = false → WellFormed s → WellFormed (c :: s)
  | pair (h l : Nat) (s : JSString) : isHighSurrogate h = true → isLowSurrogate l = true →
      WellFormed s → WellFormed (h :: l :: s)

/-- A world without files. -/
def emptyWorld : World := { files := fun _ => none, now := 1700000000000 }

/-- A state whose `background` has `MAX_STATE_BYTES + 1` characters. -/
def bigState : JSValue := obj [(lit "background", str (List.replicate (MAX_STATE_BYTES + 1) 97))]

/-! ## The asset lister `listStand` -/

/-- The path `STAND_DIR`, for the default `HOME` on Windows. -/
def STAND_DIR : JSString := lit "D:\\Echo\\stand"

/-- An entry of a directory, as `readdirSync(dir, { withFileTypes: true })` gives
it: a file (an entry whose `isDirectory()` is false), or a directory with its own
entries in the order of the listing. -/
inductive Entry where
  | file (name : JSString)
  | dir (name : JSString) (entries : List Entry)
  deriving Repr, Inhabited

/-- An item of the listing: `{ name, path, url, rel }`. -/
structure StandItem where
  name : JSString
  path : JSString
  url : JSString
  rel : JSString
  deriving Repr, DecidableEq, Inhabited

/-- A path separator of `path.win32`. -/
def isPathSeparator (c : Nat) : Bool := c = 47 || c = 92

/-- A drive letter. -/
def isWindowsDeviceRoot (c : Nat) : Bool :=
  (decide (65 ≤ c) && decide (c ≤ 90)) || (decide (97 ≤ c) && decide (c ≤ 122))

/-- The variables of the loop of `path.extname`. -/
structure ExtScan where
  startDot : Option Nat
  startPart : Nat
  stop : Option Nat
  matchedSlash : Bool
  preDotState : Int
  finished : Bool
  deriving Repr, DecidableEq

/-- One turn of the loop of `path.extname`, at index `i` holding `code`. -/
def extStep (st : ExtScan) (i code : Nat) : ExtScan :=
  if st.finished then st
  else if isPathSeparator code then
    if !st.matchedSlash then { st with startPart := i + 1, finished := true } else st
  else
    let st := if st.stop.isNone then { st with matchedSlash := false, stop := some (i + 1) }
      else st
    if code = 46 then
      if st.startDot.isNone then { st with startDot := some i }
      else if st.preDotState ≠ 1 then { st with preDotState := 1 } else st
    else if st.startDot.isSome then { st with preDotState := -1 }
    else st

/-- The loop of `path.extname` over the indices `start .. start + n - 1`, from the
last to the first; `chars` holds the code units from `start` on. -/
def extLoop (st : ExtScan) (start : Nat) : List Nat → ExtScan
  | [] => st
  | c :: cs => extStep (extLoop st (start + 1) cs) start c

/-- The call `path.extname(p)` of `path.win32`. -/
def extname (p : JSString) : JSString :=
  let start :=
    match p with
    | c0 :: c1 :: _ => if c1 = 58 ∧ isWindowsDeviceRoot c0 then 2 else 0
    | _ => 0
  let st := extLoop ⟨none, start, none, true, 0, false⟩ start (p.drop start)
  match st.startDot, st.stop with
  | some startDot, some stop =>
    if st.preDotState = 0
        ∨ (st.preDotState = 1 ∧ startDot = stop - 1 ∧ startDot = st.startPart + 1) then []
    else (p.take stop).drop startDot
  | _, _ => []

/-- Lower-casing of the letters `A` to `Z`. The other characters are kept: none of
them lower-cases to a text of the allow-list of `listStand`. -/
def toLowerCase (s : JSString) : JSString :=
  s.map fun c => if 65 ≤ c ∧ c ≤ 90 then c + 32 else c

/-- The allow-list `exts` of `listStand`. -/
def exts : List JSString := [lit ".png", lit ".jpg", lit ".jpeg", lit ".gif", lit ".webp"]

/-- The test `exts.has(path.extname(name).toLowerCase())`. -/
def isImageName (name : JSString) : Bool := decide (toLowerCase (extname name) ∈ exts)

/-- The call `path.join(a, name)` of `path.win32`, for a file name `name` (not
empty, without separator, neither `.` nor `..`) and a path `a` in normal form. -/
def joinPath (a name : JSString) : JSString := a ++ lit "\\" ++ name

mutual
/-- The loop `for (const ent of entries)` of `walk(dir, rel)`: the items pushed,
in order; `fileUrl` is `pathToFileURL(p).toString()`. -/
def walkEntries (fileUrl : JSString → JSString) (dir rel : JSString) :
    List Entry → List StandItem
  | [] => []
  | ent :: rest => walkEntry fileUrl dir rel ent ++ walkEntries fileUrl dir rel rest
/-- The body of that loop for one entry. -/
def walkEntry (fileUrl : JSString → JSString) (dir rel : JSString) : Entry → List StandItem
  | Entry.dir name entries =>
    let abs := joinPath dir name
    let relPath := if rel ≠ [] then joinPath rel name else name
    walkEntries fileUrl abs relPath entries
  | Entry.file name =>
    let abs := joinPath dir name
    if isImageName name then [{ name := name, path := abs, url := fileUrl abs, rel := rel }]
    else []
end

/-- The function `listStand()`, for the asset directory as it is: `none` when
`STAND_DIR` does not exist, else its entries. -/
def listStand (fileUrl : JSString → JSString) (root : Option (List Entry)) : List StandItem :=
  match root with
  | none => []
  | some entries => walkEntries fileUrl STAND_DIR [] entries

/-- A file name as a directory listing can hold it: not empty, without `/`, `\`
or `:`, neither `.` nor `..`. -/
def properName (name : JSString) : Bool :=
  decide (name ≠ []) && name.all (fun c => !isPathSeparator c && decide (c ≠ 58))
    && decide (name ≠ lit ".") && decide (name ≠ lit "..")

mutual
/-- All names of a tree are file names. -/
def properEntries : List Entry → Bool
  | [] => true
  | ent :: rest => properEntry ent && properEntries rest
/-- All names of an entry are file names. -/
def properEntry : Entry → Bool
  | Entry.file name => properName name
  | Entry.dir name entries => properName name && properEntries entries
end

mutual
/-- The files of a tree at any depth, in the order of the walk, each with the
names of the directories above it, from `above` on. -/
def filesOf (above : List JSString) : List Entry → List (List JSString × JSString)
  | [] => []
  | ent :: rest => filesOfEntry above ent ++ filesOf above rest
/-- The files of one entry. -/
def filesOfEntry (above : List JSString) : Entry → List (List JSString × JSString)
  | Entry.file name => [(above, name)]
  | Entry.dir name entries => filesOf (above ++ [name]) entries
end

/-- The directory names of a path joined by `\`: the path relative to the root,
`''` for the root itself. -/
def relOf : List JSString → JSString
  | [] => []
  | [d] => d
  | d :: ds => d ++ lit "\\" ++ relOf ds

/-- The asset directory of the scenario: `a.png`, `sub/b.jpg`, `c.txt`. -/
def scenarioStand : List Entry :=
  [Entry.file (lit "a.png"), Entry.dir (lit "sub") [Entry.file (lit "b.jpg")],
    Entry.file (lit "c.txt")]

/-- A stand-in for `pathToFileURL(p).toString()` on paths of plain characters. -/
def plainFileUrl (p : JSString) : JSString :=
  lit "file:///" ++ p.map fun c => if c = 92 then 47 else c

/-- The item of the listing for a file `name` below the directories `above`. -/
def itemOf (fileUrl : JSString → JSString) (f : List JSString × JSString) : StandItem :=
  { name := f.2
    path := joinPath STAND_DIR (relOf (f.1 ++ [f.2]))
    url := fileUrl (joinPath STAND_DIR (relOf (f.1 ++ [f.2])))
    rel := relOf f.1 }

/-- The directory `walk` is in below the directories `above`. -/
def dirOf (above : List JSString) : JSString :=
  if above = [] then STAND_DIR else joinPath STAND_DIR (relOf above)

/-! ## The renderer: `roomState` and the stand scale -/

/-- The initial value of `roomState` in `renderer.js`. -/
def initialRoomState : JSValue :=
  obj [
    (lit "background", str (lit "file:///D:/Echo/decor/wallpaper.jpg")),
    (lit "theme", str (lit "dark")),
    (lit "alwaysOnTop", bool false),
    (lit "clickThrough", bool false),
    (lit "width", num 1100),
    (lit "height", num 700),
    (lit "widgets", arr [] []),
    (lit "stand", obj [
      (lit "visible", bool true),
      (lit "current", str []),
      (lit "x", num 480),
      (lit "y", num 280),
      (lit "scale", num 100),
      (lit "mirror", bool false)])]

/-- The value `roomState.stand.scale`, when there is one. -/
def standScale (roomState : JSValue) : Option JSValue :=
  (getNamed roomState (lit "stand")).bind fun st => getNamed st (lit "scale")

/-- The call `parseInt(s, 10)`: leading white space, an optional sign, then the
longest run of decimal digits; `none` is `NaN` (no digit). The value is the exact
integer; the rounding of long numerals to a double is not modelled. -/
def parseInt10 (s : JSString) : Option Int :=
  let t := s.dropWhile isTrimSpace
  let (negative, t) :=
    match t with
    | 45 :: rest => (true, rest)
    | 43 :: rest => (false, rest)
    | _ => (false, t)
  let digits := t.takeWhile isDigit
  if digits = [] then none
  else some (if negative then -(digitsVal digits : Int) else (digitsVal digits : Int))

/-- The expression `Math.max(40, Math.min(200, parseInt(value, 10) || 100))`. -/
def clampScale (value : JSString) : Int :=
  let n := match parseInt10 value with
    | none => 100
    | some n => if n = 0 then 100 else n
  max 40 (min 200 n)

/-- The statements `roomState.stand.k = v` for the pairs `(k, v)` of `sets`, in
order: `roomState` after them. When `roomState.stand` is `null` or missing the first
assignment throws and nothing is set; on a primitive the assignments have no
effect. -/
def assignStand (roomState : JSValue) (sets : Props) : JSValue :=
  match getNamed roomState (lit "stand") with
  | none => roomState
  | some null => roomState
  | some st =>
    setNamed roomState (lit "stand") (sets.foldl (fun acc p => setNamed acc p.1 p.2) st)

/-- The `input` handler of the scale slider, for the text `value` of the slider:
`roomState` after it. -/
def standScaleInput (value : JSString) (roomState : JSValue) : JSValue :=
  assignStand roomState [(lit "scale", num (clampScale value))]

mutual
/-- The text of a value in a string concatenation (`ToString`); `none` when the
conversion throws. -/
def jsToString : JSValue → Option JSString
  | null => some (lit "null")
  | JSValue.bool b => some (if b then lit "true" else lit "false")
  | num n => some (intToStr n)
  | str s => some s
  | arr items props =>
    if (lookupProp (lit "toString") props).isSome then none
    else if (lookupProp (lit "join") props).isSome then some (lit "[object Array]")
    else joinItems items
  | obj props =>
    if (lookupProp (lit "toString") props).isSome then none else some (lit "[object Object]")
/-- The call `items.join(',')`. -/
def joinItems : List JSValue → Option JSString
  | [] => some []
  | [x] => match x with
    | null => some []
    | x => jsToString x
  | x :: y :: rest =>
    match (match x with
      | null => some []
      | x => jsToString x), joinItems (y :: rest) with
    | some a, some b => some (a ++ lit "," ++ b)
    | _, _ => none
end

/-- The function `toFileUrl(p)` of `renderer.js`; `none` when it throws (`p` is
truthy and has no method `startsWith`). -/
def toFileUrl (p : Option JSValue) : Option JSString :=
  match p with
  | none => some []
  | some (str s) =>
    if s = [] then some []
    else if startsWith s (lit "file://") then some s
    else some (lit "file:///" ++ s.map fun c => if c = 92 then 47 else c)
  | some v => if truthy v then none else some []

/-- The value of `x || y` for a property `x` that may be missing: `x` when it is
there and truthy. -/
def truthyProp (x : Option JSValue) : Option JSValue :=
  match x with
  | some v => if truthy v then some v else none
  | none => none

/-- The property value when it is a boolean or a number, as the tests
`typeof obj.k === 'boolean'` and `typeof obj.k === 'number'` ask. -/
def typedProp (o : JSValue) (k : JSString) (isNumber : Bool) : Props :=
  match getNamed o k, isNumber with
  | some (JSValue.bool b), false => [(k, JSValue.bool b)]
  | some (num n), true => [(k, num n)]
  | _, _ => []

/-- The callback given to `api.onAppend` in `renderer.js`, for a record `o` at time
`now`: `roomState` after it, whether it returns or throws (the chat lines and the
picture are not part of `roomState`). -/
def onAppend (o : JSValue) (now : Nat) (roomState : JSValue) : JSValue :=
  if !truthy o || (truthyProp (getNamed o (lit "kind"))).isNone then roomState
  else
    let kind := getNamed o (lit "kind")
    if kind = some (str (lit "system")) ∧ getNamed o (lit "channel") = some (str (lit "stand"))
        ∧ getNamed o (lit "event") = some (str (lit "stand.set")) then
      let base :=
        match truthyProp (getNamed o (lit "url")) with
        | some u => jsToString u
        | none => toFileUrl (getNamed o (lit "path"))
      match base with
      | none => roomState
      | some b =>
        assignStand roomState
          ([(lit "current", str (b ++ lit "?t=" ++ natToStr now))]
            ++ typedProp o (lit "visible") false
            ++ typedProp o (lit "scale") true
            ++ typedProp o (lit "mirror") false)
    else if kind = some (str (lit "tool")) ∧ getNamed o (lit "name") = some (str (lit "stand.set"))
    then
      let a := match truthyProp (getNamed o (lit "args")) with
        | some a => a
        | none => obj []
      let base :=
        match truthyProp (getNamed a (lit "url")) with
        | some u => jsToString u
        | none =>
          match toFileUrl (getNamed a (lit "path")) with
          | none => none
          | some f =>
            if f ≠ [] then some f
            else
              match getNamed roomState (lit "stand") with
              | none => none
              | some null => none
              | some st =>
                match truthyProp (getNamed st (lit "current")) with
                | some c => jsToString c
                | none => some []
      match base with
      | none => roomState
      | some b => assignStand roomState [(lit "current", str (b ++ lit "?t=" ++ natToStr now))]
    else roomState

/-- The statement `roomState = Object.assign(roomState, state || {})` of the boot
code and of the `room:state` subscription, for a snapshot without a key
`__proto__`: `roomState` after it. -/
def mergeState (state : JSValue) (roomState : JSValue) : JSValue :=
  (spread (orEmptyObject state)).foldl (fun acc p => setNamed acc p.1 p.2) roomState

/-- A `stand.set` record of the log that carries the scale 500. -/
def standSet500 : JSValue :=
  obj [(lit "kind", str (lit "system")), (lit "channel", str (lit "stand")),
    (lit "event", str (lit "stand.set")), (lit "path", str (lit "D:\\Echo\\stand\\a.png")),
    (lit "scale", num 500)]

/-- A state snapshot whose stand has the scale 1000. -/
def wideSnapshot : JSValue :=
  setNamed defaultState (lit "stand")
    (obj [(lit "visible", bool true), (lit "current", str []), (lit "x", num 480),
      (lit "y", num 280), (lit "scale", num 1000), (lit "mirror", bool false)])

/-! ## The handlers of `ipcMain.handle`, with file-system calls that can throw -/

/-- A thrown exception: the `name` and the `message` of the error object. -/
structure Thrown where
  name : JSString
  message : JSString
  deriving DecidableEq, Repr, Inhabited

/-- The error of a call on a path that does not exist. -/
def enoent : Thrown := ⟨lit "Error", lit "ENOENT: no such file or directory"⟩

/-- The error of `JSON.parse` on a text that is not JSON. -/
def syntaxError : Thrown := ⟨lit "SyntaxError", lit "Unexpected token in JSON"⟩

/-- The files, and the outcome of each coming file-system call that can throw, in
the order of the calls: `some e` when the call throws `e`, `none` (or no entry left)
when it runs. -/
structure Sys where
  world : World
  faults : List (Option Thrown)

/-- A piece of code of `main.js` that runs on the file system and returns a value
or throws. -/
def Run (α : Type) : Type := Sys → Except Thrown α × Sys

/-- Returning a value. -/
def Run.pure {α : Type} (a : α) : Run α := fun s => (Except.ok a, s)

/-- Sequencing: an exception of the first part skips the second. -/
def Run.bind {α β : Type} (m : Run α) (f : α → Run β) : Run β := fun s =>
  match m s with
  | (Except.ok a, s1) => f a s1
  | (Except.error e, s1) => (Except.error e, s1)

instance : Monad Run where
  pure := Run.pure
  bind := Run.bind

/-- The statement `throw e`. -/
def throwM {α : Type} (e : Thrown) : Run α := fun s => (Except.error e, s)

/-- The statement `try { body } catch (e) { handler }`. -/
def attempt {α : Type} (body : Run α) (handler : Thrown → Run α) : Run α := fun s =>
  match body s with
  | (Except.ok a, s1) => (Except.ok a, s1)
  | (Except.error e, s1) => handler e s1

/-- A file-system call that can throw: it throws the fault that is due, if any,
else it does `op` on the files, which throws on its own conditions. -/
def fsCall {α : Type} (op : World → Except Thrown (α × World)) : Run α := fun s =>
  match s.faults with
  | some e :: rest => (Except.error e, { s with faults := rest })
  | faults =>
    match op s.world with
    | Except.ok (a, w) => (Except.ok a, { world := w, faults := faults.tail })
    | Except.error e => (Except.error e, { s with faults := faults.tail })

/-- The call `fs.existsSync(p)`, which never throws. -/
def existsSyncM (p : JSString) : Run Bool := fun s => (Except.ok (existsSync s.world p), s)

/-- The call `Date.now()`. -/
def nowM : Run Nat := fun s => (Except.ok s.world.now, s)

/-- The size `fs.statSync(p).size`. -/
def statSyncM (p : JSString) : Run Nat :=
  fsCall fun w =>
    match statSize w p with
    | some n => Except.ok (n, w)
    | none => Except.error enoent

/-- The call `fs.readFileSync(p, 'utf8')`. -/
def readFileSyncM (p : JSString) : Run JSString :=
  fsCall fun w =>
    match readFileSync w p with
    | some text => Except.ok (text, w)
    | none => Except.error enoent

/-- The call `fs.writeFileSync(p, text, 'utf8')`. -/
def writeFileSyncM (p text : JSString) : Run Unit :=
  fsCall fun w => Except.ok ((), writeFileSync w p text)

/-- The call `fs.renameSync(a, b)`. -/
def renameSyncM (a b : JSString) : Run Unit :=
  fsCall fun w =>
    match renameSync w a b with
    | (true, w1) => Except.ok ((), w1)
    | (false, _) => Except.error enoent

/-- The call `fs.copyFileSync(src, dest)`. -/
def copyFileSyncM (src dest : JSString) : Run Unit :=
  fsCall fun w =>
    match w.files src with
    | some bytes =>
      Except.ok ((), { w with files := fun q => if q = dest then some bytes else w.files q })
    | none => Except.error enoent

/-- The call `fs.unlinkSync(p)`. -/
def unlinkSyncM (p : JSString) : Run Unit :=
  fsCall fun w =>
    match w.files p with
    | some _ => Except.ok ((), { w with files := fun q => if q = p then none else w.files q })
    | none => Except.error enoent

/-- The call `fs.readdirSync(dir)` on a directory whose listing is `entries`;
`none` when the directory does not exist. -/
def readdirSyncM {α : Type} (entries : Option α) : Run α :=
  fsCall fun w =>
    match entries with
    | some es => Except.ok (es, w)
    | none => Except.error enoent

/-- The function `ensureDir(p)`. Directories are not part of the files: the
directory is there, or `mkdirSync` makes it, unless the call throws. -/
def ensureDirM : Run Unit := fsCall fun w => Except.ok ((), w)

/-- The procedure `rotateState(reason)`. -/
def rotateStateM (reason : JSString) : Run Unit :=
  attempt (do
      let now ← nowM
      let rotated := rotatedPath reason now
      if (← existsSyncM STATE_PATH) then renameSyncM STATE_PATH rotated
      let fresh := defaultState
      let tmp := STATE_PATH ++ lit ".tmp"
      writeFileSyncM tmp (JSON.stringify fresh)
      renameSyncM tmp STATE_PATH)
    (fun _ => pure ())

/-- The procedure `writeStateSafe(st)`. -/
def writeStateSafeM (st : JSValue) : Run Unit :=
  attempt (do
      let clean := compactState (orEmptyObject st)
      let tmp := STATE_PATH ++ lit ".tmp"
      ensureDirM
      writeFileSyncM tmp (JSON.stringify clean)
      renameSyncM tmp STATE_PATH)
    (fun _ => rotateStateM (lit "writefail"))

/-- The function `readStateSafe()`. -/
def readStateSafeM : Run JSValue :=
  attempt (do
      if (← existsSyncM STATE_PATH) then
        let size ← statSyncM STATE_PATH
        if size > MAX_STATE_BYTES then
          rotateStateM (lit "oversize")
          pure defaultState
        else
          let raw ← readFileSyncM STATE_PATH
          match JSON.parse (orNullText (stripBOM raw)) with
          | none => throwM syntaxError
          | some parsed => pure (compactState (orEmptyObject parsed))
      else
        writeStateSafeM defaultState
        pure defaultState)
    (fun _ => do
      rotateStateM (lit "parsefail")
      pure defaultState)

mutual
/-- The loop of `walk(dir, rel)` over the entries read, where each `readdirSync`
of a directory below can throw. -/
def walkEntriesM (fileUrl : JSString → JSString) (dir rel : JSString) :
    List Entry → Run (List StandItem)
  | [] => Run.pure []
  | ent :: rest =>
    Run.bind (walkEntryM fileUrl dir rel ent) fun a =>
      Run.bind (walkEntriesM fileUrl dir rel rest) fun b => Run.pure (a ++ b)
/-- The body of that loop for one entry. -/
def walkEntryM (fileUrl : JSString → JSString) (dir rel : JSString) :
    Entry → Run (List StandItem)
  | Entry.dir name entries =>
    let abs := joinPath dir name
    let relPath := if rel ≠ [] then joinPath rel name else name
    Run.bind (readdirSyncM (some entries)) fun _ => walkEntriesM fileUrl abs relPath entries
  | Entry.file name =>
    let abs := joinPath dir name
    Run.pure (if isImageName name
      then [{ name := name, path := abs, url := fileUrl abs, rel := rel }] else [])
end

/-- The function `listStand()`, where each `readdirSync` can throw; `root` is the
asset directory as the walk finds it, `none` when `STAND_DIR` does not exist. -/
def listStandM (fileUrl : JSString → JSString) (root : Option (List Entry)) :
    Run (List StandItem) :=
  match root with
  | none => Run.pure []
  | some entries =>
    Run.bind (readdirSyncM (some entries)) fun _ => walkEntriesM fileUrl STAND_DIR [] entries

/-- The path `HOME`, by default. -/
def HOME : JSString := lit "D:\\Echo"

/-- The path `DECOR`. -/
def DECOR : JSString := lit "D:\\Echo\\decor"

/-- The path `INBOXQ`. -/
def INBOXQ : JSString := lit "D:\\Echo\\ui\\inboxq"

/-- The text `String(e.message || e)` for a thrown error. -/
def errorText (e : Thrown) : JSString := if e.message ≠ [] then e.message else e.name

/-- The result `{ ok: true }`. -/
def okReply : JSValue := obj [(lit "ok", bool true)]

/-- The result `{ ok: false, error: String(e.message || e) }`. -/
def failReply (e : Thrown) : JSValue :=
  obj [(lit "ok", bool false), (lit "error", str (errorText e))]

/-- An item of the listing as a value. -/
def itemValue (it : StandItem) : JSValue :=
  obj [(lit "name", str it.name), (lit "path", str it.path), (lit "url", str it.url),
    (lit "rel", str it.rel)]

/-- The array of the items of a listing. -/
def itemsValue (items : List StandItem) : JSValue := arr (items.map itemValue) []

/-- The result `{ ok: true, items }`. -/
def okItems (items : List StandItem) : JSValue :=
  obj [(lit "ok", bool true), (lit "items", itemsValue items)]

/-- The result `{ ok: false, items, error: String(e.message || e) }`. -/
def failItems (items : List StandItem) (e : Thrown) : JSValue :=
  obj [(lit "ok", bool false), (lit "items", itemsValue items),
    (lit "error", str (errorText e))]

/-- The handler of `chat:send`, for the text sent (`none` for `null` or
`undefined`) and the five characters `random` of
`Math.random().toString(36).slice(2, 7)`. -/
def chatSend (text : Option JSString) (random : JSString) : Run JSValue :=
  attempt (do
      ensureDirM
      let slug := natToStr (← nowM) ++ lit "-" ++ random
      let file := joinPath INBOXQ (slug ++ lit ".txt")
      writeFileSyncM file (text.getD [])
      pure okReply)
    (fun e => pure (failReply e))

/-- The test `/^wallpaper\./i.test(n)`. -/
def isWallpaperName (n : JSString) : Bool := startsWith (toLowerCase n) (lit "wallpaper.")

/-- The handler of `room:getEnv`; `decor` is the listing of the directory `DECOR`,
`none` when it does not exist. -/
def roomGetEnv (fileUrl : JSString → JSString) (decor : Option (List JSString)) :
    Run JSValue := do
  let names ← readdirSyncM decor
  let wpCandidates := (names.filter isWallpaperName).map fun n => fileUrl (joinPath DECOR n)
  let wallpaper :=
    match wpCandidates with
    | first :: _ => if first ≠ [] then first else lit "file:///D:/Echo/decor/wallpaper.jpg"
    | [] => lit "file:///D:/Echo/decor/wallpaper.jpg"
  pure (obj [(lit "ECHO_HOME", str HOME), (lit "WALLPAPER", str wallpaper),
    (lit "STATE_PATH", str STATE_PATH)])

/-- The handler of `room:getState`. -/
def roomGetState : Run JSValue := readStateSafeM

/-- The handler of `room:saveState`. -/
def roomSaveState (st : JSValue) : Run JSValue :=
  attempt (do
      writeStateSafeM (orEmptyObject st)
      pure okReply)
    (fun e => pure (failReply e))

/-- The handler of `stand:list`. -/
def standList (fileUrl : JSString → JSString) (root : Option (List Entry)) : Run JSValue := do
  let items ← listStandM fileUrl root
  pure (itemsValue items)

/-- The call `path.basename(p)` for the path of a file: what follows the last
separator. -/
def basename (p : JSString) : JSString :=
  (p.reverse.takeWhile fun c => !isPathSeparator c).reverse

/-- The variables of the loop of `normalizeString` in the `path` module. -/
structure NormScan where
  res : JSString
  lastSegmentLength : Nat
  lastSlash : Int
  dots : Int
  code : Nat
  finished : Bool
  deriving Repr, DecidableEq

/-- The call `s.lastIndexOf(c)` for one code unit; `none` is `-1`. -/
def lastIndexOf (c : Nat) (s : JSString) : Option Nat :=
  let after := (s.reverse.takeWhile fun x => decide (x ≠ c)).length
  if after = s.length then none else some (s.length - 1 - after)

/-- The branch `if (allowAboveRoot)` of `normalizeString` and the two assignments
after it, at index `i`. -/
def normAbove (allowAboveRoot : Bool) (st : NormScan) (i : Nat) : NormScan :=
  let st : NormScan :=
    if allowAboveRoot then
      { st with res := st.res ++ (if st.res.length > 0 then lit "\\.." else lit ".."),
                lastSegmentLength := 2 }
    else st
  { st with lastSlash := i, dots := 0 }

/-- One turn of the loop of `normalizeString(path, allowAboveRoot, '\\',
isPathSeparator)`, at index `i`. -/
def normStep (path : JSString) (allowAboveRoot : Bool) (st : NormScan) (i : Nat) : NormScan :=
  if st.finished then st
  else if path.length ≤ i ∧ isPathSeparator st.code then { st with finished := true }
  else
    let st : NormScan := { st with code := if i < path.length then path.getD i 0 else 47 }
    if isPathSeparator st.code then
      if st.lastSlash = (i : Int) - 1 ∨ st.dots = 1 then { st with lastSlash := i, dots := 0 }
      else if st.dots = 2 then
        if st.res.length < 2 ∨ st.lastSegmentLength ≠ 2
            ∨ st.res.getD (st.res.length - 1) 0 ≠ 46 ∨ st.res.getD (st.res.length - 2) 0 ≠ 46 then
          if st.res.length > 2 then
            match lastIndexOf 92 st.res with
            | none => { st with res := [], lastSegmentLength := 0, lastSlash := i, dots := 0 }
            | some k =>
              let res := st.res.take k
              let segment :=
                match lastIndexOf 92 res with
                | none => res.length
                | some j => res.length - 1 - j
              { st with res := res, lastSegmentLength := segment, lastSlash := i, dots := 0 }
          else if st.res.length ≠ 0 then
            { st with res := [], lastSegmentLength := 0, lastSlash := i, dots := 0 }
          else normAbove allowAboveRoot st i
        else normAbove allowAboveRoot st i
      else
        let segment := (path.take i).drop (st.lastSlash + 1).toNat
        { st with res := if st.res.length > 0 then st.res ++ lit "\\" ++ segment else segment,
                  lastSegmentLength := ((i : Int) - st.lastSlash - 1).toNat,
                  lastSlash := i, dots := 0 }
    else if st.code = 46 ∧ st.dots ≠ (-1 : Int) then { st with dots := st.dots + (1 : Int) }
    else { st with dots := (-1 : Int) }

/-- The function `normalizeString(path, allowAboveRoot, '\\', isPathSeparator)` of
the `path` module: the loop runs over the indices `0` to `path.length`. -/
def normalizeString (path : JSString) (allowAboveRoot : Bool) : JSString :=
  ((List.range (path.length + 1)).foldl (normStep path allowAboveRoot)
    ⟨[], 0, -1, 0, 0, false⟩).res

/-- The call `path.win32.normalize(p)` for a path that begins with a drive letter,
a colon and a separator, as the paths below `STAND_DIR` do: the device is kept and
the rest goes through `normalizeString`, which may not go above the root. -/
def normalizeRooted (p : JSString) : JSString :=
  let tail := if 3 < p.length then normalizeString (p.drop 3) false else []
  let tail :=
    if tail.length > 0 ∧ isPathSeparator (p.getD (p.length - 1) 0) then tail ++ lit "\\"
    else tail
  p.take 2 ++ lit "\\" ++ tail

/-- The call `path.join(a, name)` of `path.win32` for a directory `a` that begins
with a drive letter, a colon and a separator, and any text `name`: the parts that
are not empty are joined by `\` and the result is normalised, so `..` in `name`
leaves the directory. -/
def pathJoin (a name : JSString) : JSString :=
  normalizeRooted (if name = [] then a else a ++ lit "\\" ++ name)

/-- The loop `for (const src of res.filePaths)` of `stand:import`. -/
def copyAll : List JSString → Run Unit
  | [] => Run.pure ()
  | src :: rest =>
    Run.bind (copyFileSyncM src (pathJoin STAND_DIR (basename src))) fun _ => copyAll rest

/-- The handler of `stand:import`; `dialog` is the outcome of
`dialog.showOpenDialog`: the pair of `canceled` and `filePaths`, or the error it
rejects with. -/
def standImport (fileUrl : JSString → JSString) (root : Option (List Entry))
    (dialog : Except Thrown (Bool × List JSString)) : Run JSValue :=
  attempt (do
      let res ←
        match dialog with
        | Except.ok res => Run.pure res
        | Except.error e => throwM e
      if res.1 then
        let items ← listStandM fileUrl root
        pure (okItems items)
      else
        copyAll res.2
        let items ← listStandM fileUrl root
        pure (okItems items))
    (fun e => do
      let items ← listStandM fileUrl root
      pure (failItems items e))

/-- The handler of `stand:delete`, for the text `filename` it is called with. -/
def standDelete (fileUrl : JSString → JSString) (root : Option (List Entry))
    (filename : JSString) : Run JSValue :=
  attempt (do
      let p := pathJoin STAND_DIR filename
      if (← existsSyncM p) then unlinkSyncM p
      let items ← listStandM fileUrl root
      pure (okItems items))
    (fun e => do
      let items ← listStandM fileUrl root
      pure (failItems items e))

/-- The error of a call that the operating system refuses. -/
def eperm : Thrown := ⟨lit "Error", lit "EPERM: operation not permitted"⟩

/-- The files of an installation with a state document and one picture. -/
def homeWorld : World :=
  { files := fun p =>
      if p = STATE_PATH then some (utf8Encode (JSON.stringify defaultState))
      else if p = lit "D:\\Echo\\stand\\a.png" then some [137, 80, 78, 71]
      else none
    now := 1700000000000 }

/-- The code returns a value, and throws nothing, from every state of the files and
under every outcome of its file-system calls. -/
def Returns {α : Type} (m : Run α) : Prop := ∀ s : Sys, ∃ a s1, m s = (Except.ok a, s1)

/-- Whenever the code returns, the value returned has the property `P`. -/
def Gives {α : Type} (m : Run α) (P : α → Prop) : Prop :=
  ∀ (s : Sys) (a : α) (s1 : Sys), m s = (Except.ok a, s1) → P a

/-! ## Lemmas on properties -/

theorem lookupProp_replaceProp_self (k : JSString) (v : JSValue) (ps : Props)
    (h : (lookupProp k ps).isSome) : lookupProp k (replaceProp k v ps) = some v := by
  induction ps with
  | nil => simp [lookupProp] at h
  | cons p rest ih =>
    obtain ⟨x, w⟩ := p
    by_cases hx : x = k
    · simp [replaceProp, lookupProp, hx]
    · simp [replaceProp, lookupProp, hx] at h ⊢
      exact ih h

theorem lookupProp_replaceProp_ne (k k' : JSString) (v : JSValue) (ps : Props)
    (hne : k' ≠ k) : lookupProp k' (replaceProp k v ps) = lookupProp k' ps := by
  induction ps with
  | nil => simp [replaceProp]
  | cons p rest ih =>
    obtain ⟨x, w⟩ := p
    by_cases hx : x = k
    · subst hx
      simp [replaceProp, lookupProp, Ne.symm hne]
    · simp [replaceProp, lookupProp, hx, ih]

theorem lookupProp_insertProp_self (k : JSString) (v : JSValue) (ps : Props)
    (h : lookupProp k ps = none) : lookupProp k (insertProp k v ps) = some v := by
  induction ps with
  | nil => simp [insertProp, lookupProp]
  | cons p rest ih =>
    obtain ⟨x, w⟩ := p
    by_cases hx : x = k
    · simp [lookupProp, hx] at h
    · simp only [lookupProp, hx, if_false] at h
      by_cases hg : goesBefore k x = true
      · simp [insertProp, hg, lookupProp]
      · simp [insertProp, hg, lookupProp, hx, ih h]

theorem lookupProp_insertProp_ne (k k' : JSString) (v : JSValue) (ps : Props)
    (hne : k' ≠ k) : lookupProp k' (insertProp k v ps) = lookupProp k' ps := by
  induction ps with
  | nil => simp [insertProp, lookupProp, Ne.symm hne]
  | cons p rest ih =>
    obtain ⟨x, w⟩ := p
    by_cases hg : goesBefore k x = true
    · simp [insertProp, hg, lookupProp, Ne.symm hne]
    · simp [insertProp, hg, lookupProp, ih]

theorem lookupProp_setProp_self (k : JSString) (v : JSValue) (ps : Props) :
    lookupProp k (setProp ps k v) = some v := by
  unfold setProp
  by_cases h : (lookupProp k ps).isSome = true
  · simp [h, lookupProp_replaceProp_self k v ps h]
  · simp only [h]
    simp only [Bool.not_eq_true, Option.not_isSome, Option.isNone_iff_eq_none] at h
    simpa using lookupProp_insertProp_self k v ps h

theorem lookupProp_setProp_ne (k k' : JSString) (v : JSValue) (ps : Props) (hne : k' ≠ k) :
    lookupProp k' (setProp ps k v) = lookupProp k' ps := by
  unfold setProp
  split
  · exact lookupProp_replaceProp_ne k k' v ps hne
  · exact lookupProp_insertProp_ne k k' v ps hne

theorem lookupProp_deleteProp_ne (k k' : JSString) (ps : Props) (hne : k' ≠ k) :
    lookupProp k' (deleteProp ps k) = lookupProp k' ps := by
  induction ps with
  | nil => simp [deleteProp]
  | cons p rest ih =>
    obtain ⟨x, w⟩ := p
    unfold deleteProp at ih ⊢
    by_cases hx : x = k
    · subst hx
      simp [List.filter, lookupProp, Ne.symm hne, ih]
    · simp [List.filter, lookupProp, hx, ih]

theorem getNamed_setNamed_self (o : JSValue) (k : JSString) (v : JSValue)
    (h : isObjectValue o = true) : getNamed (setNamed o k v) k = some v := by
  cases o <;> simp [isObjectValue] at h <;>
    simp [setNamed, getNamed, lookupProp_setProp_self]

theorem getNamed_setNamed_ne (o : JSValue) (k k' : JSString) (v : JSValue) (hne : k' ≠ k) :
    getNamed (setNamed o k v) k' = getNamed o k' := by
  cases o <;> simp [setNamed, getNamed, lookupProp_setProp_ne _ _ _ _ hne]

theorem isObjectValue_setNamed (o : JSValue) (k : JSString) (v : JSValue) :
    isObjectValue (setNamed o k v) = isObjectValue o := by
  cases o <;> simp [setNamed, isObjectValue]

theorem isObjectValue_stateObject (s : JSValue) : isObjectValue (stateObject s) = true := by
  unfold stateObject
  split
  · assumption
  · rfl

theorem getNamed_stateObject (s : JSValue) (k : JSString) :
    getNamed (stateObject s) k = getNamed s k := by
  unfold stateObject
  split
  · rfl
  · cases s <;> simp_all [isObjectValue, getNamed, lookupProp]

theorem getNamed_compactState_stickies (s : JSValue) :
    getNamed (compactState s) (lit "stickies") =
      some (arr ((sliceLast MAX_ITEMS (arrOf (getNamed s (lit "stickies")))).map compactSticky)
        []) := by
  have hv : lit "stickies" ≠ lit "version" := by decide
  have ho := isObjectValue_stateObject s
  have hg := getNamed_stateObject s (lit "stickies")
  unfold stateObject at ho hg
  simp only [compactState]
  split <;>
    simp [getNamed_setNamed_ne _ _ _ _ hv, getNamed_setNamed_self, isObjectValue_setNamed, ho, hg]

theorem getNamed_compactState_notes (s : JSValue) :
    getNamed (compactState s) (lit "notes") =
      some (arr (sliceLast MAX_ITEMS (arrOf (getNamed s (lit "notes")))) []) := by
  have hv : lit "notes" ≠ lit "version" := by decide
  have hs : lit "notes" ≠ lit "stickies" := by decide
  have ho := isObjectValue_stateObject s
  have hg := getNamed_stateObject s (lit "notes")
  unfold stateObject at ho hg
  simp only [compactState]
  split <;>
    simp [getNamed_setNamed_ne _ _ _ _ hv, getNamed_setNamed_ne _ _ _ _ hs,
      getNamed_setNamed_self, isObjectValue_setNamed, ho, hg]

theorem getNamed_compactState_other (s : JSValue) (k : JSString) (h1 : k ≠ lit "stickies")
    (h2 : k ≠ lit "notes") (h3 : k ≠ lit "version") :
    getNamed (compactState s) k = getNamed s k := by
  have hg := getNamed_stateObject s k
  unfold stateObject at hg
  simp only [compactState]
  split <;>
    simp [getNamed_setNamed_ne _ _ _ _ h1, getNamed_setNamed_ne _ _ _ _ h2,
      getNamed_setNamed_ne _ _ _ _ h3, hg]

theorem length_sliceLast_le (n : Nat) (xs : List JSValue) : (sliceLast n xs).length ≤ n := by
  simp [sliceLast]; omega


/-! ## C1, C2, C6: what `compactState` caps -/

/-- C1, as stated, fails: `compactState` leaves a `widgets` array of 101 entries
at 101 entries, so `widgets` is not an array of at most 100 entries. -/
theorem compactState_widgets_uncapped :
    ¬ ∃ items props, getNamed (compactState manyWidgets) (lit "widgets")
        = some (arr items props) ∧ items.length ≤ 100 := by
  rw [getNamed_compactState_other _ _ (by decide) (by decide) (by decide)]
  rintro ⟨items, props, h, hlen⟩
  simp only [manyWidgets, getNamed, lookupProp, if_true, Option.some.injEq, arr.injEq] at h
  rw [← h.1] at hlen
  simp at hlen

/-- C1, amended: for every input state, `compactState` returns a state whose
`stickies` and `notes` are arrays of at most 100 entries, and whose `widgets` is
whatever the input had there. -/
theorem compactState_caps_stickies_notes (s : JSValue) :
    (∃ items, getNamed (compactState s) (lit "stickies") = some (arr items []) ∧
        items.length ≤ 100) ∧
    (∃ items, getNamed (compactState s) (lit "notes") = some (arr items []) ∧
        items.length ≤ 100) ∧
    getNamed (compactState s) (lit "widgets") = getNamed s (lit "widgets") := by
  refine ⟨⟨_, getNamed_compactState_stickies s, ?_⟩, ⟨_, getNamed_compactState_notes s, ?_⟩, ?_⟩
  · rw [List.length_map]
    exact length_sliceLast_le _ _
  · exact length_sliceLast_le _ _
  · exact getNamed_compactState_other _ _ (by decide) (by decide) (by decide)

theorem lookupProp_body_compactSticky (s : JSValue) (b : JSString)
    (h : lookupProp (lit "body") (spread s) = some (str b)) :
    getNamed (compactSticky s) (lit "body") =
      some (str (if b.length > 4000 then b.take 4000 else b)) := by
  have hne : lit "body" ≠ lit "image" := by decide
  simp only [compactSticky, h, getNamed]
  by_cases hb : b.length > 4000
  · simp only [hb, if_true]
    split
    · split
      · rw [lookupProp_deleteProp_ne _ _ _ hne, lookupProp_setProp_self]
      · rw [lookupProp_setProp_self]
    · rw [lookupProp_setProp_self]
  · simp only [hb, if_false]
    split
    · split
      · rw [lookupProp_deleteProp_ne _ _ _ hne, h]
      · exact h
    · exact h

theorem lookupProp_body_compactSticky_none (s : JSValue)
    (h : ∀ b, lookupProp (lit "body") (spread s) ≠ some (str b)) :
    getNamed (compactSticky s) (lit "body") = lookupProp (lit "body") (spread s) := by
  have hne : lit "body" ≠ lit "image" := by decide
  have h1 : (match lookupProp (lit "body") (spread s) with
      | some (str b) =>
        if b.length > 4000 then setProp (spread s) (lit "body") (str (b.take 4000))
        else spread s
      | _ => spread s) = spread s := by
    split
    · rename_i b hb
      exact absurd hb (h b)
    · rfl
  have h2 : compactSticky s = obj (match lookupProp (lit "image") (spread s) with
      | some (str i) =>
        if startsWith i (lit "data:image/") then deleteProp (spread s) (lit "image")
        else spread s
      | _ => spread s) := by
    unfold compactSticky
    simp only [h1]
  rw [h2]
  simp only [getNamed]
  split
  · split
    · rw [lookupProp_deleteProp_ne _ _ _ hne]
    · rfl
  · rfl

theorem body_length_compactSticky (s : JSValue) (b : JSString)
    (h : getNamed (compactSticky s) (lit "body") = some (str b)) : b.length ≤ 4000 := by
  by_cases hs : ∃ b0, lookupProp (lit "body") (spread s) = some (str b0)
  · obtain ⟨b0, hb0⟩ := hs
    rw [lookupProp_body_compactSticky s b0 hb0] at h
    simp only [Option.some.injEq, str.injEq] at h
    rw [← h]
    split
    · simp
    · omega
  · have hs2 : ∀ b0, lookupProp (lit "body") (spread s) ≠ some (str b0) := by
      intro b0 hb0
      exact hs ⟨b0, hb0⟩
    rw [lookupProp_body_compactSticky_none s hs2] at h
    exact absurd h (hs2 b)

/-- C2, as stated, fails: a sticky whose `text` has 5000 characters keeps all 5000
after `compactState`. -/
theorem compactState_text_untruncated :
    getNamed (compactState longTextState) (lit "stickies")
        = some (arr [obj [(lit "text", str (List.replicate 5000 97))]] []) ∧
      ¬ (List.replicate 5000 97).length ≤ 4000 := by
  constructor
  · rw [getNamed_compactState_stickies]
    rfl
  · rw [List.length_replicate]
    omega

/-- C2, amended: after `compactState` every entry of `stickies` whose `body` is a
string has a body of at most 4000 characters; for a sticky that is an object with
a string body `b`, the new body is the first 4000 characters of `b` when `b` is
longer (so it then has length exactly 4000) and `b` itself otherwise. -/
theorem compactState_sticky_body (s : JSValue) :
    (∀ t ∈ arrOf (getNamed (compactState s) (lit "stickies")), ∀ b,
        getNamed t (lit "body") = some (str b) → b.length ≤ 4000) ∧
    (∀ (i : Nat) (ps : Props) (b : JSString),
        (sliceLast MAX_ITEMS (arrOf (getNamed s (lit "stickies"))))[i]? = some (obj ps) →
        lookupProp (lit "body") ps = some (str b) →
        ∃ t : JSValue, (arrOf (getNamed (compactState s) (lit "stickies")))[i]? = some t ∧
          getNamed t (lit "body") = some (str (if b.length > 4000 then b.take 4000 else b)) ∧
          (b.length > 4000 → (b.take 4000).length = 4000)) := by
  rw [getNamed_compactState_stickies]
  constructor
  · intro t ht b hb
    simp only [arrOf, List.mem_map] at ht
    obtain ⟨s0, -, rfl⟩ := ht
    exact body_length_compactSticky s0 b hb
  · intro i ps b hi hb
    refine ⟨compactSticky (obj ps), ?_, ?_, ?_⟩
    · show (List.map compactSticky _)[i]? = _
      simp only [List.getElem?_map, hi, Option.map_some']
    · exact lookupProp_body_compactSticky (obj ps) b hb
    · intro hlen
      rw [List.length_take]
      omega

/-- The scenario of C2: a sticky whose `body` has 5000 characters comes out of
`compactState` with a body of exactly 4000 characters. -/
theorem compactState_longBody :
    ∃ t b, arrOf (getNamed (compactState longBodyState) (lit "stickies")) = [t] ∧
      getNamed t (lit "body") = some (str b) ∧ b.length = 4000 := by
  rw [getNamed_compactState_stickies]
  have h : lookupProp (lit "body") (spread (obj [(lit "body", str (List.replicate 5000 97))]))
      = some (str (List.replicate 5000 97)) := rfl
  have h2 := lookupProp_body_compactSticky _ _ h
  refine ⟨_, _, rfl, h2, ?_⟩
  rw [List.length_replicate, if_pos (by omega), List.length_take, List.length_replicate]
  omega

/-- C6: when `notes` is an array of `n` entries, `compactState` returns as `notes`
the array of its last 100 entries, unchanged and in order (entries `n-100 .. n-1`
when `n > 100`), and all its entries when `n ≤ 100`. -/
theorem compactState_notes_last (s : JSValue) (items : List JSValue) (props : Props)
    (h : getNamed s (lit "notes") = some (arr items props)) :
    ∃ out, getNamed (compactState s) (lit "notes") = some (arr out []) ∧
      out = items.drop (items.length - 100) ∧
      (items.length > 100 → out.length = 100 ∧
        ∀ i, i < 100 → out[i]? = items[items.length - 100 + i]?) ∧
      (items.length ≤ 100 → out = items) := by
  refine ⟨_, getNamed_compactState_notes s, ?_, ?_, ?_⟩
  · rw [h]; rfl
  · intro hn
    rw [h]
    show (items.drop (items.length - 100)).length = 100 ∧
      ∀ i, i < 100 → (items.drop (items.length - 100))[i]? = items[items.length - 100 + i]?
    constructor
    · rw [List.length_drop]; omega
    · intro i _
      rw [List.getElem?_drop]
  · intro hn
    rw [h]
    show items.drop (items.length - 100) = items
    have : items.length - 100 = 0 := by omega
    rw [this]; rfl

/-- C6 at a state with 101 notes: the first is dropped, the other 100 stay. -/
theorem compactState_notes_last_manyNotes :
    ∃ out, getNamed (compactState manyNotes) (lit "notes") = some (arr out []) ∧
      out = (numbered 101).drop ((numbered 101).length - 100) ∧
      ((numbered 101).length > 100 → out.length = 100 ∧
        ∀ i, i < 100 → out[i]? = (numbered 101)[(numbered 101).length - 100 + i]?) ∧
      ((numbered 101).length ≤ 100 → out = numbered 101) :=
  compactState_notes_last manyNotes (numbered 101) [] rfl

/-! ## C10, C7, C9: one call of `readNewLines` -/

theorem readNewLines_nothing (bytes : List Nat) (tailPos : Nat)
    (h : bytes.length = (if bytes.length < tailPos then 0 else tailPos)) :
    readNewLines (some bytes) tailPos = ([], tailPos) := by
  simp only [readNewLines]
  rw [if_pos h]

theorem readNewLines_something (bytes : List Nat) (tailPos : Nat)
    (h : bytes.length ≠ (if bytes.length < tailPos then 0 else tailPos)) :
    readNewLines (some bytes) tailPos
      = (chunkRecords (bytesRead (some bytes) tailPos), bytes.length) := by
  simp only [readNewLines, bytesRead]
  rw [if_neg h, if_neg h]

/-- C10: when `readNewLines` is called twice on an unchanged outbox, from any
offset, the second call sends no record and leaves the offset as the first call
left it. -/
theorem readNewLines_twice (outbox : Option (List Nat)) (tailPos : Nat) :
    readNewLines outbox (readNewLines outbox tailPos).2
      = ([], (readNewLines outbox tailPos).2) := by
  cases outbox with
  | none => rfl
  | some bytes =>
    by_cases h : bytes.length = (if bytes.length < tailPos then 0 else tailPos)
    · rw [readNewLines_nothing bytes tailPos h]
      exact readNewLines_nothing bytes tailPos h
    · rw [readNewLines_something bytes tailPos h]
      apply readNewLines_nothing
      simp

theorem sendLines_eq_filterMap (lines : List JSString) :
    sendLines lines = lines.filterMap fun l => JSON.parse (stripBOM l) := by
  have key : ∀ (ls : List JSString) (acc : List JSValue),
      ls.foldl (fun sent l =>
        match JSON.parse (stripBOM l) with
        | some o => sent ++ [o]
        | none => sent) acc = acc ++ ls.filterMap fun l => JSON.parse (stripBOM l) := by
    intro ls
    induction ls with
    | nil => intro acc; simp
    | cons l ls ih =>
      intro acc
      rw [List.foldl_cons, ih, List.filterMap_cons]
      cases JSON.parse (stripBOM l) <;> simp
  unfold sendLines
  rw [key]
  rfl

/-- C7, as stated, fails: after a poll has brought the offset to 4, the outbox is
truncated and refilled with three records (6 bytes) before the next poll; that
poll sees no size below the offset, reads bytes 4 and 5 only and sends the last
record alone, not the three records of the new content. -/
theorem readNewLines_truncation_unseen :
    readNewLines (some (lit "1\n2\n")) 0 = ([num 1, num 2], 4) ∧
    readNewLines (some (lit "3\n4\n5\n")) 4 = ([num 5], 6) ∧
    chunkRecords (lit "3\n4\n5\n") = [num 3, num 4, num 5] := by
  decide

/-- C7, amended: a poll that observes a non-empty outbox whose size is below the
offset reads it from position 0: it sends exactly the records of the whole current
content and sets the offset to the observed size, and the polls after it go on as
after a first read of that content. -/
theorem readNewLines_truncated (bytes : List Nat) (tailPos : Nat)
    (hpos : 0 < bytes.length) (hlt : bytes.length < tailPos) :
    readNewLines (some bytes) tailPos = (chunkRecords bytes, bytes.length) ∧
    (readNewLines (some bytes) tailPos).2 ≤ bytes.length ∧
    readNewLines (some bytes) tailPos = readNewLines (some bytes) 0 ∧
    ∀ later, pollAll tailPos (some bytes :: later) = pollAll 0 (some bytes :: later) := by
  have h0 : bytes.length ≠ 0 := by omega
  have e1 : readNewLines (some bytes) tailPos = (chunkRecords bytes, bytes.length) := by
    simp [readNewLines, hlt, h0]
  have e2 : readNewLines (some bytes) 0 = (chunkRecords bytes, bytes.length) := by
    simp [readNewLines, h0]
  refine ⟨e1, ?_, ?_, ?_⟩
  · rw [e1]
  · rw [e1, e2]
  · intro later
    simp only [pollAll, e1, e2]

/-- C7 at an outbox cut from 4 bytes down to the 2 bytes of one new record. -/
theorem readNewLines_truncated_example :
    readNewLines (some (lit "7\n")) 4 = ([num 7], 2) ∧
    (readNewLines (some (lit "7\n")) 4).2 ≤ 2 ∧
    readNewLines (some (lit "7\n")) 4 = readNewLines (some (lit "7\n")) 0 ∧
    ∀ later, pollAll 4 (some (lit "7\n") :: later) = pollAll 0 (some (lit "7\n") :: later) :=
  readNewLines_truncated (lit "7\n") 4 (by decide) (by decide)

/-- C9, as stated, fails: in the chunk `1\n<BOM>2\n` the second line is not valid
JSON (it starts with a byte-order mark), yet `readNewLines` sends a record for it,
having stripped the mark. -/
theorem readNewLines_bom_line :
    readNewLines (some bomLineOutbox) 0 = ([num 1, num 2], 7) ∧
    ((splitLines (utf8Decode bomLineOutbox)).filter nonBlank).filterMap JSON.parse
      = [num 1] := by
  decide

/-- C9, amended: for every newly read chunk, `readNewLines` sends exactly the JSON
parses of the non-blank lines (split on `\n` or `\r\n`) of the chunk's text that
are valid JSON once a leading byte-order mark is stripped (from the chunk, then
from each line), in their order; a line that does not parse is skipped and the
lines after it are still sent; the offset becomes the observed size. -/
theorem readNewLines_records (bytes : List Nat) (tailPos : Nat)
    (hnew : bytes.length ≠ (if bytes.length < tailPos then 0 else tailPos)) :
    (readNewLines (some bytes) tailPos).1
      = ((splitLines (stripBOM (utf8Decode (bytesRead (some bytes) tailPos)))).filter
          nonBlank).filterMap (fun l => JSON.parse (stripBOM l)) ∧
    (readNewLines (some bytes) tailPos).2 = bytes.length ∧
    ∀ before bad after, JSON.parse (stripBOM bad) = none →
      sendLines (before ++ bad :: after) = sendLines before ++ sendLines after := by
  rw [readNewLines_something bytes tailPos hnew]
  refine ⟨?_, rfl, ?_⟩
  · simp only [chunkRecords]
    exact sendLines_eq_filterMap _
  · intro before bad after hbad
    simp only [sendLines_eq_filterMap, List.filterMap_append, List.filterMap_cons, hbad]

set_option maxRecDepth 100000 in
theorem readNewLines_outbox3 : readNewLines (some outbox3) 0 = ([userHi, assistantYo], 72) := by
  decide

/-- C9 at the outbox of the scenario: the user record and the assistant record are
sent, the malformed line between them is skipped, the offset is the file size. -/
theorem readNewLines_records_outbox3 :
    readNewLines (some outbox3) 0 = ([userHi, assistantYo], 72) ∧
    ((readNewLines (some outbox3) 0).1
      = ((splitLines (stripBOM (utf8Decode (bytesRead (some outbox3) 0)))).filter
          nonBlank).filterMap (fun l => JSON.parse (stripBOM l)) ∧
    (readNewLines (some outbox3) 0).2 = outbox3.length ∧
    ∀ before bad after, JSON.parse (stripBOM bad) = none →
      sendLines (before ++ bad :: after) = sendLines before ++ sendLines after) :=
  ⟨readNewLines_outbox3, readNewLines_records outbox3 0 (by decide)⟩

/-! ## C5: an oversize state file -/

theorem length_rotatedPath (reason : JSString) (now : Nat) :
    (rotatedPath reason now).length
      = STATE_PATH.length + reason.length + (natToStr now).length + 6 := by
  have h1 : (lit ".").length = 1 := rfl
  have h2 : (lit ".bak").length = 4 := rfl
  simp only [rotatedPath, List.length_append, h1, h2]
  omega

theorem rotatedPath_ne_STATE_PATH (reason : JSString) (now : Nat) :
    rotatedPath reason now ≠ STATE_PATH := by
  intro h
  have := congrArg List.length h
  rw [length_rotatedPath] at this
  omega

theorem rotatedPath_ne_tmp (reason : JSString) (now : Nat) :
    rotatedPath reason now ≠ STATE_PATH ++ lit ".tmp" := by
  intro h
  have := congrArg List.length h
  have h2 : (lit ".tmp").length = 4 := rfl
  rw [length_rotatedPath, List.length_append, h2] at this
  omega

theorem tmp_ne_STATE_PATH : STATE_PATH ++ lit ".tmp" ≠ STATE_PATH := by decide

/-- What `rotateState` leaves when the state file exists: the old bytes under the
backup path, the default state under `STATE_PATH`. -/
theorem rotateState_files (reason : JSString) (w : World) (bytes : List Nat)
    (hf : w.files STATE_PATH = some bytes) :
    (rotateState reason w).files (rotatedPath reason w.now) = some bytes ∧
    (rotateState reason w).files STATE_PATH
      = some (utf8Encode (JSON.stringify defaultState)) ∧
    (rotateState reason w).files (STATE_PATH ++ lit ".tmp") = none := by
  have n1 := rotatedPath_ne_STATE_PATH reason w.now
  have n2 := rotatedPath_ne_tmp reason w.now
  have n3 := tmp_ne_STATE_PATH
  simp [rotateState, existsSync, renameSync, writeFileSync, hf, n1, n2, n3, Ne.symm n3]

/-- C5: when the state file exists with more than `MAX_STATE_BYTES` bytes,
`readStateSafe` returns `defaultState()` whatever the bytes are, the old bytes are
then under `STATE_PATH.oversize.<now>.bak` and `STATE_PATH` holds the serialised
default state; a file of at most `MAX_STATE_BYTES` bytes (so one of exactly that
size) is read and parsed instead. -/
theorem readStateSafe_oversize (w : World) (bytes : List Nat)
    (hf : w.files STATE_PATH = some bytes) :
    (bytes.length > MAX_STATE_BYTES →
      (readStateSafe w).1 = defaultState ∧
      (readStateSafe w).2.files (rotatedPath (lit "oversize") w.now) = some bytes ∧
      (readStateSafe w).2.files STATE_PATH
        = some (utf8Encode (JSON.stringify defaultState))) ∧
    (bytes.length ≤ MAX_STATE_BYTES →
      readStateSafe w =
        match JSON.parse (orNullText (stripBOM (utf8Decode bytes))) with
        | none => (defaultState, rotateState (lit "parsefail") w)
        | some parsed => (compactState (orEmptyObject parsed), w)) := by
  constructor
  · intro hsz
    have hr : readStateSafe w = (defaultState, rotateState (lit "oversize") w) := by
      simp [readStateSafe, existsSync, statSize, hf, hsz]
    rw [hr]
    have h := rotateState_files (lit "oversize") w bytes hf
    exact ⟨rfl, h.1, h.2.1⟩
  · intro hsz
    have hsz2 : ¬ bytes.length > MAX_STATE_BYTES := by omega
    simp [readStateSafe, existsSync, statSize, readFileSync, hf, hsz2]

/-- C5 at a state file of `MAX_STATE_BYTES + 1` blanks. -/
theorem readStateSafe_oversizeWorld :
    (readStateSafe oversizeWorld).1 = defaultState ∧
    (readStateSafe oversizeWorld).2.files (rotatedPath (lit "oversize") oversizeWorld.now)
      = some (List.replicate (MAX_STATE_BYTES + 1) 32) ∧
    (readStateSafe oversizeWorld).2.files STATE_PATH
      = some (utf8Encode (JSON.stringify defaultState)) :=
  (readStateSafe_oversize oversizeWorld (List.replicate (MAX_STATE_BYTES + 1) 32)
    (by simp [oversizeWorld])).1 (by rw [List.length_replicate]; omega)

/-! ## C8: polling an append-only outbox -/

theorem decodeStep_ascii (st : DecoderState) (x : Nat) (hst : 0x80 ≤ st.lower)
    (hx : x < 0x80) : (decodeStep st x).2 = DecoderState.start := by
  unfold decodeStep
  have hl : leadByte x = ([x], DecoderState.start) := by
    unfold leadByte
    rw [if_pos hx]
  by_cases h0 : st.needed = 0
  · rw [if_pos h0, hl]
  · rw [if_neg h0, if_neg (by omega), hl]

theorem lower_leadByte (b : Nat) : 0x80 ≤ (leadByte b).2.lower := by
  unfold leadByte
  split_ifs <;> simp [DecoderState.start]

theorem lower_decodeStep (st : DecoderState) (b : Nat) : 0x80 ≤ (decodeStep st b).2.lower := by
  unfold decodeStep
  split_ifs
  · exact lower_leadByte b
  · simp [DecoderState.start]
  · simp
  · exact lower_leadByte b

theorem utf8DecodeFrom_cons (st : DecoderState) (b : Nat) (rest : List Nat) :
    utf8DecodeFrom st (b :: rest)
      = (decodeStep st b).1 ++ utf8DecodeFrom (decodeStep st b).2 rest := rfl

theorem splitLines_cons (c : Nat) (rest : JSString) :
    splitLines (c :: rest) =
      if c = 10 then [] :: splitLines rest
      else if c = 13 ∧ rest.head? = some 10 then splitLines rest
      else
        match splitLines rest with
        | l :: ls => (c :: l) :: ls
        | [] => [[c]] := rfl

theorem utf8DecodeFrom_append_ascii (a : List Nat) (x : Nat) (b : List Nat) (hx : x < 0x80) :
    ∀ st : DecoderState, 0x80 ≤ st.lower →
      utf8DecodeFrom st (a ++ x :: b)
        = utf8DecodeFrom st (a ++ [x]) ++ utf8DecodeFrom DecoderState.start b := by
  induction a with
  | nil =>
    intro st hst
    simp only [List.nil_append, utf8DecodeFrom, decodeStep_ascii st x hst hx]
    simp [DecoderState.start]
  | cons c a ih =>
    intro st _
    rw [List.cons_append, List.cons_append, utf8DecodeFrom_cons, utf8DecodeFrom_cons,
      ih _ (lower_decodeStep st c), List.append_assoc]

theorem utf8Decode_append_closed (c d : List Nat) (hc : Closed c) :
    utf8Decode (c ++ d) = utf8Decode c ++ utf8Decode d := by
  rcases hc with rfl | ⟨a, rfl⟩
  · simp [utf8Decode, utf8DecodeFrom, DecoderState.start]
  · unfold utf8Decode
    rw [List.append_assoc]
    exact utf8DecodeFrom_append_ascii a 10 d (by decide) _ (by decide)

theorem utf8DecodeFrom_ends_lf (a : List Nat) :
    ∀ st : DecoderState, 0x80 ≤ st.lower →
      ∃ t, utf8DecodeFrom st (a ++ [10]) = t ++ [10] := by
  induction a with
  | nil =>
    intro st hst
    refine ⟨(decodeStep st 10).1.dropLast, ?_⟩
    simp only [List.nil_append, utf8DecodeFrom, decodeStep_ascii st 10 hst (by decide)]
    simp only [DecoderState.start, if_true, List.append_nil]
    unfold decodeStep
    have hl : leadByte 10 = ([10], DecoderState.start) := rfl
    by_cases h0 : st.needed = 0
    · rw [if_pos h0, hl]; rfl
    · rw [if_neg h0, if_neg (by omega), hl]; rfl
  | cons c a ih =>
    intro st _
    obtain ⟨t, ht⟩ := ih _ (lower_decodeStep st c)
    refine ⟨(decodeStep st c).1 ++ t, ?_⟩
    rw [List.cons_append, utf8DecodeFrom_cons, ht, List.append_assoc]

theorem splitLines_ne_nil (s : JSString) : splitLines s ≠ [] := by
  induction s with
  | nil => simp [splitLines]
  | cons c rest ih =>
    rw [splitLines_cons]
    split
    · simp
    · split
      · exact ih
      · split <;> simp

theorem splitLines_append_lf (a : JSString) :
    ∃ ls, ls ≠ [] ∧ splitLines (a ++ [10]) = ls ++ [[]] ∧
      ∀ b, splitLines (a ++ 10 :: b) = ls ++ splitLines b := by
  induction a with
  | nil =>
    refine ⟨[[]], by simp, ?_, ?_⟩
    · simp [splitLines]
    · intro b
      simp [splitLines]
  | cons c rest ih =>
    obtain ⟨ls, hne, h1, h2⟩ := ih
    by_cases hc : c = 10
    · refine ⟨[] :: ls, by simp, ?_, ?_⟩
      · rw [List.cons_append, splitLines_cons, if_pos hc, h1]
        rfl
      · intro b
        rw [List.cons_append, splitLines_cons, if_pos hc, h2]
        rfl
    · have hhead : ∀ b, (rest ++ 10 :: b).head? = (rest ++ [10]).head? := by
        intro b
        cases rest <;> simp
      by_cases hcr : c = 13 ∧ (rest ++ [10]).head? = some 10
      · refine ⟨ls, hne, ?_, ?_⟩
        · rw [List.cons_append, splitLines_cons, if_neg hc, if_pos hcr, h1]
        · intro b
          have hcr2 : c = 13 ∧ (rest ++ 10 :: b).head? = some 10 := by
            rw [hhead]; exact hcr
          rw [List.cons_append, splitLines_cons, if_neg hc, if_pos hcr2, h2]
      · obtain ⟨l, ls2, rfl⟩ := List.exists_cons_of_ne_nil hne
        refine ⟨(c :: l) :: ls2, by simp, ?_, ?_⟩
        · rw [List.cons_append, splitLines_cons, if_neg hc, if_neg hcr, h1]
          rfl
        · intro b
          have hcr2 : ¬ (c = 13 ∧ (rest ++ 10 :: b).head? = some 10) := by
            rw [hhead]; exact hcr
          rw [List.cons_append, splitLines_cons, if_neg hc, if_neg hcr2, h2]
          rfl

theorem nonBlank_nil : nonBlank [] = false := by decide

theorem nonBlank_bom (l : JSString) : nonBlank (0xFEFF :: l) = nonBlank l := by
  have h : isTrimSpace 0xFEFF = true := by decide
  simp [nonBlank, trim, List.dropWhile, h]

theorem filter_nonBlank_splitLines_append (s t : JSString)
    (hs : s = [] ∨ ∃ a, s = a ++ [10]) :
    (splitLines (s ++ t)).filter nonBlank
      = (splitLines s).filter nonBlank ++ (splitLines t).filter nonBlank := by
  rcases hs with rfl | ⟨a, rfl⟩
  · simp [splitLines, nonBlank_nil]
  · obtain ⟨ls, -, h1, h2⟩ := splitLines_append_lf a
    rw [List.append_assoc]
    simp only [List.singleton_append]
    rw [h1, h2 t]
    simp [List.filter_append, nonBlank_nil]

theorem fileLines_append (c d : List Nat) (hc : Closed c) :
    fileLines (c ++ d) = fileLines c ++ fileLines d := by
  unfold fileLines
  rw [utf8Decode_append_closed c d hc]
  apply filter_nonBlank_splitLines_append
  rcases hc with rfl | ⟨a, rfl⟩
  · left; rfl
  · right
    obtain ⟨t, ht⟩ := utf8DecodeFrom_ends_lf a DecoderState.start (by decide)
    exact ⟨t, ht⟩

theorem parse_bom (t : JSString) : JSON.parse (0xFEFF :: t) = none := by
  have h : parseValue (t.length + 1 + 1) (0xFEFF :: t) = none := by
    simp [parseValue, skipWs, isWs, isDigit]
  simp only [JSON.parse, List.length_cons, h]

theorem stripBOM_of_parse (l : JSString) (v : JSValue) (h : JSON.parse l = some v) :
    stripBOM l = l := by
  cases l with
  | nil => rfl
  | cons c rest =>
    by_cases hc : c = 0xFEFF
    · subst hc
      rw [parse_bom] at h
      cases h
    · simp [stripBOM, hc]

theorem delivers_self (l : JSString) : Delivers l (JSON.parse (stripBOM l)) := by
  intro v hv
  rw [stripBOM_of_parse l v hv, hv]

theorem delivers_bom (l : JSString) (d : Option JSValue) : Delivers (0xFEFF :: l) d := by
  intro v hv
  rw [parse_bom] at hv
  cases hv

theorem forall₂_delivers_same (ls : List JSString) :
    List.Forall₂ Delivers ls (ls.map fun l => JSON.parse (stripBOM l)) := by
  rw [List.forall₂_map_right_iff, List.forall₂_same]
  intro l _
  exact delivers_self l

theorem chunk_delivers (c : List Nat) :
    List.Forall₂ Delivers (fileLines c) ((chunkLines c).map fun l => JSON.parse (stripBOM l)) := by
  unfold fileLines chunkLines
  cases h : utf8Decode c with
  | nil => exact forall₂_delivers_same _
  | cons x t =>
    by_cases hx : x = 0xFEFF
    · subst hx
      have hs : stripBOM (0xFEFF :: t) = t := by simp [stripBOM]
      rw [hs, splitLines_cons, if_neg (by decide), if_neg (fun h => absurd h.1 (by decide))]
      obtain ⟨l, ls, hl⟩ := List.exists_cons_of_ne_nil (splitLines_ne_nil t)
      rw [hl]
      simp only [List.filter_cons, nonBlank_bom]
      split
      · rw [List.map_cons]
        exact List.Forall₂.cons (delivers_bom _ _) (forall₂_delivers_same _)
      · exact forall₂_delivers_same _
    · have hs : stripBOM (x :: t) = x :: t := by simp [stripBOM, hx]
      rw [hs]
      exact forall₂_delivers_same _

theorem chunkRecords_eq_reduceOption (c : List Nat) :
    chunkRecords c = ((chunkLines c).map fun l => JSON.parse (stripBOM l)).reduceOption := by
  unfold chunkRecords chunkLines
  simp only [sendLines_eq_filterMap, List.reduceOption, List.filterMap_map]
  rfl

theorem fileLines_nil : fileLines [] = [] := by decide

theorem chunkRecords_nil : chunkRecords [] = [] := by decide

theorem readNewLines_fst (outbox : Option (List Nat)) (tailPos : Nat) :
    (readNewLines outbox tailPos).1 = chunkRecords (bytesRead outbox tailPos) := by
  cases outbox with
  | none => simp [readNewLines, bytesRead, chunkRecords_nil]
  | some bytes =>
    by_cases h : bytes.length = (if bytes.length < tailPos then 0 else tailPos)
    · rw [readNewLines_nothing bytes tailPos h]
      simp only [bytesRead]
      rw [if_pos h, chunkRecords_nil]
    · rw [readNewLines_something bytes tailPos h]

theorem pollAll_fst (tailPos : Nat) (outboxes : List (Option (List Nat))) :
    (pollAll tailPos outboxes).1 = (pollReads tailPos outboxes).map chunkRecords := by
  induction outboxes generalizing tailPos with
  | nil => rfl
  | cons o later ih =>
    simp only [pollAll, pollReads, List.map_cons, readNewLines_fst, ih]

theorem readNewLines_grown (file : List Nat) (p n : Nat) (hpn : p ≤ n) (hn : n ≤ file.length) :
    bytesRead (some (file.take n)) p = fileRange file p n ∧
    (readNewLines (some (file.take n)) p).2 = n := by
  have hlen : (file.take n).length = n := by
    rw [List.length_take]; omega
  have hlt : ¬ n < p := by omega
  by_cases h : n = p
  · subst h
    constructor
    · simp only [bytesRead, hlen, hlt, if_false, if_true, fileRange]
      rw [List.drop_eq_nil_of_le (by omega)]
    · rw [readNewLines_nothing _ _ (by rw [hlen]; simp)]
  · constructor
    · simp only [bytesRead, hlen, hlt, if_false, h, fileRange]
      apply List.take_of_length_le
      rw [List.length_drop, hlen]
    · rw [readNewLines_something _ _ (by rw [hlen]; simp [hlt, h])]
      exact hlen

theorem pollReads_append_only (file : List Nat) (sizes : List Nat) :
    ∀ p, List.Chain (· ≤ ·) p sizes → (∀ n ∈ sizes, n ≤ file.length) →
      pollReads p (snapshots file sizes) = chunksAt file p sizes ∧
      (pollAll p (snapshots file sizes)).2 = (sizes.getLast?).getD p := by
  induction sizes with
  | nil => intro p _ _; exact ⟨rfl, rfl⟩
  | cons n ns ih =>
    intro p hch hle
    rw [List.chain_cons] at hch
    obtain ⟨h1, h2⟩ := readNewLines_grown file p n hch.1 (hle n (by simp))
    obtain ⟨i1, i2⟩ := ih n hch.2 (fun m hm => hle m (by simp [hm]))
    constructor
    · simp only [snapshots, List.map_cons, pollReads, chunksAt]
      rw [h1, h2]
      exact congrArg _ i1
    · simp only [snapshots, List.map_cons, pollAll]
      rw [h2]
      simp only [snapshots] at i2
      rw [i2]
      cases ns with
      | nil => rfl
      | cons m ms =>
        rw [List.getLast?_cons_cons]
        obtain ⟨x, hx⟩ := Option.isSome_iff_exists.mp
          (List.getLast?_isSome.mpr (List.cons_ne_nil m ms))
        rw [hx]
        rfl

theorem fileRange_append (file : List Nat) (p n m : Nat) (hpn : p ≤ n) (hnm : n ≤ m) :
    fileRange file p n ++ fileRange file n m = fileRange file p m := by
  unfold fileRange
  have h1 : file.take n = (file.take m).take n := by
    rw [List.take_take, Nat.min_eq_left hnm]
  rw [h1]
  generalize file.take m = g
  conv_rhs => rw [← List.take_append_drop n g]
  rw [List.drop_append_eq_append_drop]
  congr 1
  by_cases hg : n ≤ g.length
  · have : (List.take n g).length = n := by rw [List.length_take]; omega
    rw [this, Nat.sub_eq_zero_of_le hpn]
    rfl
  · rw [List.drop_eq_nil_of_le (by omega)]
    simp

theorem fileRange_self (file : List Nat) (p : Nat) : fileRange file p p = [] := by
  unfold fileRange
  apply List.drop_eq_nil_of_le
  rw [List.length_take]
  omega

theorem fileRange_beyond (file : List Nat) (p n : Nat) (hp : file.length ≤ p) :
    fileRange file p n = [] := by
  unfold fileRange
  apply List.drop_eq_nil_of_le
  rw [List.length_take]
  omega

theorem fileRange_all (file : List Nat) : fileRange file 0 file.length = file := by
  simp [fileRange]

theorem chain_le_getLast (ns : List Nat) :
    ∀ n, List.Chain (· ≤ ·) n ns → n ≤ ns.getLast?.getD n := by
  induction ns with
  | nil => intro n _; exact Nat.le_refl n
  | cons m ms ih =>
    intro n h
    rw [List.chain_cons] at h
    have := ih m h.2
    cases ms with
    | nil => exact h.1
    | cons k ks =>
      rw [List.getLast?_cons_cons]
      obtain ⟨x, hx⟩ := Option.isSome_iff_exists.mp
        (List.getLast?_isSome.mpr (List.cons_ne_nil k ks))
      rw [hx] at this ⊢
      exact Nat.le_trans h.1 this

theorem getLast?_getD_cons (n p : Nat) (ns : List Nat) :
    (n :: ns).getLast?.getD p = ns.getLast?.getD n := by
  cases ns with
  | nil => rfl
  | cons k ks =>
    rw [List.getLast?_cons_cons]
    obtain ⟨x, hx⟩ := Option.isSome_iff_exists.mp
      (List.getLast?_isSome.mpr (List.cons_ne_nil k ks))
    rw [hx]
    rfl

theorem flatten_chunksAt (file : List Nat) (sizes : List Nat) :
    ∀ p, List.Chain (· ≤ ·) p sizes →
      (chunksAt file p sizes).flatten = fileRange file p (sizes.getLast?.getD p) := by
  induction sizes with
  | nil =>
    intro p _
    simp [chunksAt, fileRange_self]
  | cons n ns ih =>
    intro p h
    rw [List.chain_cons] at h
    simp only [chunksAt, List.flatten_cons]
    rw [ih n h.2, getLast?_getD_cons, fileRange_append file p n _ h.1 (chain_le_getLast ns n h.2)]

theorem chunksAt_beyond (file : List Nat) (sizes : List Nat) :
    ∀ p, file.length ≤ p → List.Chain (· ≤ ·) p sizes →
      ∀ c ∈ chunksAt file p sizes, c = [] := by
  induction sizes with
  | nil => intro p _ _ c hc; simp [chunksAt] at hc
  | cons n ns ih =>
    intro p hp h c hc
    rw [List.chain_cons] at h
    simp only [chunksAt, List.mem_cons] at hc
    rcases hc with rfl | hc
    · exact fileRange_beyond file p n hp
    · exact ih n (Nat.le_trans hp h.1) h.2 c hc

theorem fileRange_closed (file : List Nat) (p n : Nat) (hn : n ≤ file.length)
    (hlf : n = 0 ∨ file[n - 1]? = some 10) : Closed (fileRange file p n) := by
  by_cases hpn : n ≤ p
  · left
    unfold fileRange
    apply List.drop_eq_nil_of_le
    rw [List.length_take]
    omega
  · rcases hlf with h0 | hlf
    · omega
    · right
      refine ⟨fileRange file p (n - 1), ?_⟩
      unfold fileRange
      have hn1 : n = (n - 1) + 1 := by omega
      conv_lhs => rw [hn1, List.take_succ, hlf]
      rw [List.drop_append_of_le_length]
      · rfl
      · rw [List.length_take]
        omega

theorem fileLines_chunksAt (file : List Nat) (sizes : List Nat) :
    ∀ p, List.Chain (· ≤ ·) p sizes → (∀ n ∈ sizes, n ≤ file.length) →
      (∀ n ∈ sizes, n = 0 ∨ n = file.length ∨ file[n - 1]? = some 10) →
      fileLines (chunksAt file p sizes).flatten
        = ((chunksAt file p sizes).map fileLines).flatten := by
  induction sizes with
  | nil => intro p _ _ _; simp [chunksAt, fileLines_nil]
  | cons n ns ih =>
    intro p h hle hal
    rw [List.chain_cons] at h
    have ihn := ih n h.2 (fun m hm => hle m (by simp [hm])) (fun m hm => hal m (by simp [hm]))
    simp only [chunksAt, List.flatten_cons, List.map_cons]
    rcases hal n (by simp) with h0 | hlen | hlf
    · rw [fileLines_append _ _ (fileRange_closed file p n (hle n (by simp)) (Or.inl h0)), ihn]
    · have hnil := chunksAt_beyond file ns n (by omega) h.2
      have h1 : (chunksAt file n ns).flatten = [] := List.flatten_eq_nil_iff.mpr hnil
      have h2 : ((chunksAt file n ns).map fileLines).flatten = [] := by
        rw [List.flatten_eq_nil_iff]
        intro l hl
        rw [List.mem_map] at hl
        obtain ⟨c, hc, rfl⟩ := hl
        rw [hnil c hc, fileLines_nil]
      rw [h1, h2, List.append_nil, List.append_nil]
    · rw [fileLines_append _ _ (fileRange_closed file p n (hle n (by simp)) (Or.inr hlf)), ihn]

theorem chunks_deliver (cs : List (List Nat)) :
    ∃ ds : List (Option JSValue),
      List.Forall₂ Delivers (cs.map fileLines).flatten ds ∧
      (cs.map chunkRecords).flatten = ds.reduceOption := by
  induction cs with
  | nil => exact ⟨[], List.Forall₂.nil, rfl⟩
  | cons c cs ih =>
    obtain ⟨ds, h1, h2⟩ := ih
    refine ⟨((chunkLines c).map fun l => JSON.parse (stripBOM l)) ++ ds, ?_, ?_⟩
    · simp only [List.map_cons, List.flatten_cons]
      exact List.rel_append (chunk_delivers c) h1
    · simp only [List.map_cons, List.flatten_cons]
      rw [List.reduceOption_append, ← h2, chunkRecords_eq_reduceOption]

theorem le_of_chain_getLast (file : List Nat) (sizes : List Nat) :
    ∀ p, List.Chain (· ≤ ·) p sizes → sizes.getLast?.getD p ≤ file.length →
      ∀ n ∈ sizes, n ≤ file.length := by
  induction sizes with
  | nil => intro p _ _ n hn; simp at hn
  | cons m ms ih =>
    intro p h hl n hn
    rw [List.chain_cons] at h
    rw [getLast?_getD_cons] at hl
    rw [List.mem_cons] at hn
    rcases hn with rfl | hn
    · exact Nat.le_trans (chain_le_getLast ms n h.2) hl
    · exact ih m h.2 hl n hn

/-- C8, as stated, fails: the outbox holds the one record line `{"a":1}`; a first
poll observes its first 4 bytes and a second poll the whole file. The two polls
read each byte once, but each parses a fragment of the line and nothing is sent:
the record is never delivered. -/
theorem pollAll_split_line :
    pollReads 0 (snapshots oneRecord [4, 8]) = [lit "\x7b\"a\"", lit ":1\x7d\n"] ∧
    pollAll 0 (snapshots oneRecord [4, 8]) = ([[], []], 8) ∧
    fileLines oneRecord = [lit "\x7b\"a\":1\x7d"] ∧
    JSON.parse (lit "\x7b\"a\":1\x7d") = some (obj [(lit "a", num 1)]) := by
  decide

/-- C8, amended: for an append-only outbox polled from offset 0 at non-decreasing
sizes, the last being the final size, poll `k` reads exactly the bytes between the
size observed before and the size it observes, so each byte is read by exactly one
poll and the offset ends at the final size; and when every observed size is 0, the
final size, or the position right after a `\n`, the records sent are, in file
order, what the non-blank lines of the file yield, one slot a line, where every
line that is valid JSON yields exactly its record. -/
theorem pollAll_append_only (file : List Nat) (sizes : List Nat)
    (hsorted : List.Chain (· ≤ ·) 0 sizes)
    (hlast : sizes.getLast? = some file.length) :
    pollReads 0 (snapshots file sizes) = chunksAt file 0 sizes ∧
    (pollReads 0 (snapshots file sizes)).flatten = file ∧
    (pollAll 0 (snapshots file sizes)).2 = file.length ∧
    ((∀ n ∈ sizes, n = 0 ∨ n = file.length ∨ file[n - 1]? = some 10) →
      ∃ ds : List (Option JSValue),
        List.Forall₂ Delivers (fileLines file) ds ∧
        (pollAll 0 (snapshots file sizes)).1.flatten = ds.reduceOption) := by
  have hl : sizes.getLast?.getD 0 = file.length := by rw [hlast]; rfl
  have hle := le_of_chain_getLast file sizes 0 hsorted (by rw [hl])
  obtain ⟨h1, h2⟩ := pollReads_append_only file sizes 0 hsorted hle
  have hflat : (chunksAt file 0 sizes).flatten = file := by
    rw [flatten_chunksAt file sizes 0 hsorted, hl, fileRange_all]
  refine ⟨h1, ?_, ?_, ?_⟩
  · rw [h1, hflat]
  · rw [h2, hl]
  · intro hal
    obtain ⟨ds, hd1, hd2⟩ := chunks_deliver (chunksAt file 0 sizes)
    refine ⟨ds, ?_, ?_⟩
    · rw [← fileLines_chunksAt file sizes 0 hsorted hle hal, hflat] at hd1
      exact hd1
    · rw [pollAll_fst, h1]
      exact hd2

/-- C8 at an outbox of two lines polled after each line: the first poll sends the
first record, the second poll the second. -/
theorem pollAll_append_only_twoRecords :
    pollAll 0 (snapshots twoRecords [2, 4]) = ([[num 1], [num 2]], 4) ∧
    pollReads 0 (snapshots twoRecords [2, 4]) = chunksAt twoRecords 0 [2, 4] ∧
    (pollReads 0 (snapshots twoRecords [2, 4])).flatten = twoRecords ∧
    (pollAll 0 (snapshots twoRecords [2, 4])).2 = twoRecords.length ∧
    ∃ ds : List (Option JSValue),
      List.Forall₂ Delivers (fileLines twoRecords) ds ∧
      (pollAll 0 (snapshots twoRecords [2, 4])).1.flatten = ds.reduceOption :=
  have h := pollAll_append_only twoRecords [2, 4] (by simp) (by decide)
  ⟨by decide, h.1, h.2.1, h.2.2.1, h.2.2.2 (by decide)⟩

/-! ## C3: `compactState` is idempotent -/

theorem replaceProp_same (k : JSString) (v : JSValue) (ps : Props)
    (h : lookupProp k ps = some v) : replaceProp k v ps = ps := by
  induction ps with
  | nil => rfl
  | cons p rest ih =>
    obtain ⟨x, w⟩ := p
    by_cases hx : x = k
    · simp only [lookupProp, hx, if_true, Option.some.injEq] at h
      simp [replaceProp, hx, h]
    · simp only [lookupProp, hx, if_false] at h
      simp [replaceProp, hx, ih h]

theorem setProp_same (k : JSString) (v : JSValue) (ps : Props)
    (h : lookupProp k ps = some v) : setProp ps k v = ps := by
  unfold setProp
  rw [h]
  simp [replaceProp_same k v ps h]

theorem setNamed_same (o : JSValue) (k : JSString) (v : JSValue)
    (h : getNamed o k = some v) : setNamed o k v = o := by
  cases o <;> simp [getNamed] at h <;> simp [setNamed, setProp_same _ _ _ h]

theorem sliceLast_of_le (xs : List JSValue) (h : xs.length ≤ MAX_ITEMS) :
    sliceLast MAX_ITEMS xs = xs := by
  unfold sliceLast
  rw [Nat.sub_eq_zero_of_le h]
  rfl

theorem lookupProp_deleteProp_self (k : JSString) (ps : Props) :
    lookupProp k (deleteProp ps k) = none := by
  induction ps with
  | nil => rfl
  | cons p rest ih =>
    obtain ⟨x, w⟩ := p
    unfold deleteProp at ih ⊢
    by_cases hx : x = k
    · simp [List.filter, hx, ih]
    · simp [List.filter, hx, lookupProp, ih]

theorem compactSticky_eq (s : JSValue) : compactSticky s = obj (stickyProps s) := by
  unfold stickyProps compactSticky
  rfl

theorem lookupProp_image_compactSticky (s : JSValue) (i : JSString)
    (h : lookupProp (lit "image") (stickyProps s) = some (str i)) :
    startsWith i (lit "data:image/") = false := by
  have hne : lit "image" ≠ lit "body" := by decide
  -- the properties after the `body` step
  have key : ∀ t1 : Props,
      lookupProp (lit "image")
        (match lookupProp (lit "image") t1 with
          | some (str i) =>
            if startsWith i (lit "data:image/") then deleteProp t1 (lit "image") else t1
          | _ => t1) = some (str i) →
      startsWith i (lit "data:image/") = false := by
    intro t1 h1
    split at h1
    · rename_i j hj
      split at h1
      · rw [lookupProp_deleteProp_self] at h1
        cases h1
      · rename_i hs
        rw [hj] at h1
        cases h1
        simpa using hs
    · rename_i hno
      exact absurd h1 (hno i)
  unfold stickyProps compactSticky at h
  exact key _ h

theorem compactSticky_idem (s : JSValue) :
    compactSticky (compactSticky s) = compactSticky s := by
  rw [compactSticky_eq s]
  have hb : ∀ b, lookupProp (lit "body") (stickyProps s) = some (str b) → ¬ b.length > 4000 := by
    intro b hb
    have := body_length_compactSticky s b (by rw [compactSticky_eq]; exact hb)
    omega
  have hi := lookupProp_image_compactSticky s
  generalize stickyProps s = t at hb hi
  have h1 : (match lookupProp (lit "body") t with
      | some (str b) =>
        if b.length > 4000 then setProp t (lit "body") (str (b.take 4000)) else t
      | _ => t) = t := by
    split
    · rename_i b hb'
      rw [if_neg (hb b hb')]
    · rfl
  have h2 : (match lookupProp (lit "image") t with
      | some (str i) =>
        if startsWith i (lit "data:image/") then deleteProp t (lit "image") else t
      | _ => t) = t := by
    split
    · rename_i i hi'
      rw [hi i hi']
      simp
    · rfl
  unfold compactSticky
  simp only [spread]
  rw [h1, h2]

theorem compactState_eq_of_normal (s : JSValue) (hobj : isObjectValue s = true)
    (st nt : List JSValue) (v : JSValue)
    (hs : getNamed s (lit "stickies") = some (arr st []))
    (hn : getNamed s (lit "notes") = some (arr nt []))
    (hsl : st.length ≤ MAX_ITEMS) (hnl : nt.length ≤ MAX_ITEMS)
    (hmap : st.map compactSticky = st)
    (hv : getNamed s (lit "version") = some v) (hvn : v ≠ null) :
    compactState s = s := by
  unfold compactState
  simp only [hobj, if_true]
  have e1 : setNamed s (lit "stickies") (arr (sliceLast MAX_ITEMS (arrOf (getNamed s (lit "stickies")))) []) = s := by
    apply setNamed_same
    rw [hs]
    simp only [arrOf, sliceLast_of_le st hsl]
  rw [e1]
  have e2 : setNamed s (lit "notes") (arr (sliceLast MAX_ITEMS (arrOf (getNamed s (lit "notes")))) []) = s := by
    apply setNamed_same
    rw [hn]
    simp only [arrOf, sliceLast_of_le nt hnl]
  rw [e2]
  have e3 : setNamed s (lit "stickies")
      (arr ((sliceLast MAX_ITEMS (arrOf (getNamed s (lit "stickies")))).map compactSticky) []) = s := by
    apply setNamed_same
    rw [hs]
    simp only [arrOf, sliceLast_of_le st hsl, hmap]
  rw [e3, hv]
  cases v <;> simp at hvn ⊢

theorem compactState_unfold (s : JSValue) :
    compactState s =
      match getNamed (beforeVersion s) (lit "version") with
      | none => setNamed (beforeVersion s) (lit "version") (num 1)
      | some null => setNamed (beforeVersion s) (lit "version") (num 1)
      | some _ => beforeVersion s := rfl

theorem isObjectValue_beforeVersion (s : JSValue) : isObjectValue (beforeVersion s) = true := by
  have ho := isObjectValue_stateObject s
  unfold stateObject at ho
  simp [beforeVersion, isObjectValue_setNamed, ho]

theorem getNamed_compactState_version (s : JSValue) :
    ∃ v, getNamed (compactState s) (lit "version") = some v ∧ v ≠ null := by
  rw [compactState_unfold]
  have ho := isObjectValue_beforeVersion s
  cases h : getNamed (beforeVersion s) (lit "version") with
  | none => exact ⟨num 1, getNamed_setNamed_self _ _ _ ho, by simp⟩
  | some v =>
    cases v with
    | null => exact ⟨num 1, getNamed_setNamed_self _ _ _ ho, by simp⟩
    | bool b => exact ⟨_, h, by simp⟩
    | num n => exact ⟨_, h, by simp⟩
    | str t => exact ⟨_, h, by simp⟩
    | arr a p => exact ⟨_, h, by simp⟩
    | obj p => exact ⟨_, h, by simp⟩

theorem isObjectValue_compactState (s : JSValue) : isObjectValue (compactState s) = true := by
  have ho := isObjectValue_stateObject s
  unfold stateObject at ho
  simp only [compactState]
  split <;> simp [isObjectValue_setNamed, ho]

theorem compactState_idem (s : JSValue) : compactState (compactState s) = compactState s := by
  obtain ⟨v, hv, hvn⟩ := getNamed_compactState_version s
  apply compactState_eq_of_normal (compactState s) (isObjectValue_compactState s) _ _ v
    (getNamed_compactState_stickies s) (getNamed_compactState_notes s) _ _ _ hv hvn
  · rw [List.length_map]
    exact length_sliceLast_le _ _
  · exact length_sliceLast_le _ _
  · rw [List.map_map]
    apply List.map_congr_left
    intro x _
    exact compactSticky_idem x

/-! ## Reading back what `JSON.stringify` writes -/

theorem digitsVal_append (xs : JSString) (d : Nat) :
    digitsVal (xs ++ [d]) = digitsVal xs * 10 + (d - 48) := by
  simp [digitsVal, List.foldl_append]

theorem natDigits_spec (fuel : Nat) :
    ∀ n, n < fuel →
      (natDigits fuel n).all isDigit = true ∧ digitsVal (natDigits fuel n) = n ∧
      natDigits fuel n ≠ [] ∧ (1 ≤ n → (natDigits fuel n).head? ≠ some 48) ∧
      (n = 0 → natDigits fuel n = [48]) := by
  induction fuel with
  | zero => intro n h; omega
  | succ f ih =>
    intro n hn
    unfold natDigits
    by_cases h10 : n < 10
    · rw [if_pos h10]
      refine ⟨?_, ?_, by simp, ?_, ?_⟩
      · simp [isDigit]; omega
      · simp [digitsVal]
      · intro h1; simp; omega
      · intro h0; subst h0; rfl
    · rw [if_neg h10]
      obtain ⟨a1, a2, a3, a4, _⟩ := ih (n / 10) (by omega)
      refine ⟨?_, ?_, by simp, ?_, by omega⟩
      · rw [List.all_append, a1]
        simp [isDigit]; omega
      · rw [digitsVal_append, a2]
        omega
      · intro _
        have h4 := a4 (by omega)
        cases hd : natDigits f (n / 10) with
        | nil => exact absurd hd a3
        | cons d ds =>
          rw [hd] at h4
          simpa using h4

theorem natToStr_spec (n : Nat) :
    (natToStr n).all isDigit = true ∧ digitsVal (natToStr n) = n ∧ natToStr n ≠ [] ∧
      (1 ≤ n → (natToStr n).head? ≠ some 48) ∧ (n = 0 → natToStr n = [48]) :=
  natDigits_spec (n + 1) n (by omega)

theorem spanDigits_append (ds rest : JSString) (hd : ds.all isDigit = true)
    (hr : ∀ c r, rest = c :: r → isDigit c = false) :
    spanDigits (ds ++ rest) = (ds, rest) := by
  induction ds with
  | nil =>
    cases rest with
    | nil => rfl
    | cons c r =>
      have := hr c r rfl
      simp [spanDigits, this]
  | cons d ds ih =>
    simp only [List.all_cons, Bool.and_eq_true] at hd
    simp [spanDigits, hd.1, ih hd.2]

theorem parseNat_natToStr (n : Nat) (rest : JSString) (hr : EndsNumber rest) :
    parseNat (natToStr n ++ rest) = some (n, rest) := by
  obtain ⟨h1, h2, h3, h4, h5⟩ := natToStr_spec n
  unfold parseNat
  rw [spanDigits_append _ _ h1 (fun c r h => (hr c r h).1)]
  cases hd : natToStr n with
  | nil => exact absurd hd h3
  | cons d ds =>
    simp only
    have hz : ¬ (d = 48 ∧ ds ≠ []) := by
      rintro ⟨hd48, hds⟩
      by_cases hn : n = 0
      · rw [h5 hn] at hd
        cases hd
        exact hds rfl
      · have := h4 (by omega)
        rw [hd, hd48] at this
        simp at this
    rw [if_neg hz, ← hd, h2]
    cases rest with
    | nil => rfl
    | cons c r =>
      obtain ⟨_, c1, c2, c3⟩ := hr c r rfl
      simp [c1, c2, c3]

theorem hexVal_hexDigit (d : Nat) (h : d < 16) : hexVal (hexDigit d) = some d := by
  interval_cases d <;> rfl

theorem hex4_unicodeEscape (c : Nat) (h : c < 65536) :
    hex4 (hexDigit (c / 4096 % 16)) (hexDigit (c / 256 % 16)) (hexDigit (c / 16 % 16))
      (hexDigit (c % 16)) = some c := by
  unfold hex4
  rw [hexVal_hexDigit _ (Nat.mod_lt _ (by decide)), hexVal_hexDigit _ (Nat.mod_lt _ (by decide)),
    hexVal_hexDigit _ (Nat.mod_lt _ (by decide)), hexVal_hexDigit _ (Nat.mod_lt _ (by decide))]
  simp only [Option.some.injEq]
  omega

theorem parseStringBody_raw (c : Nat) (rest : JSString) (h1 : c ≠ 34) (h2 : c ≠ 92)
    (h3 : ¬ c < 32) :
    parseStringBody (c :: rest) =
      match parseStringBody rest with
      | some (s, r) => some (c :: s, r)
      | none => none := by
  conv_lhs => unfold parseStringBody
  rw [if_neg h1, if_neg h2, if_neg h3]

theorem parseStringBody_quote (rest : JSString) :
    parseStringBody (34 :: rest) = some ([], rest) := by
  conv_lhs => unfold parseStringBody
  rw [if_pos rfl]

theorem parseStringBody_escape (e u : Nat) (rest : JSString) (h1 : e ≠ 117)
    (h2 : escapeChar e = some u) :
    parseStringBody (92 :: e :: rest) =
      match parseStringBody rest with
      | some (s, r) => some (u :: s, r)
      | none => none := by
  conv_lhs => unfold parseStringBody
  rw [if_neg (by decide), if_pos rfl]
  simp only [if_neg h1, h2]
  cases parseStringBody rest with
  | none => rfl
  | some p => rfl

theorem parseStringBody_unicode (a b c d u : Nat) (rest : JSString)
    (h : hex4 a b c d = some u) :
    parseStringBody (92 :: 117 :: a :: b :: c :: d :: rest) =
      match parseStringBody rest with
      | some (s, r) => some (u :: s, r)
      | none => none := by
  conv_lhs => unfold parseStringBody
  rw [if_neg (by decide), if_pos rfl]
  simp only [if_true, h]
  cases parseStringBody rest with
  | none => rfl
  | some p => rfl

theorem escapeUnit_parse (c : Nat) (rest s r : JSString) (hc : c < 65536)
    (h : parseStringBody rest = some (s, r)) :
    parseStringBody (escapeUnit c ++ rest) = some (c :: s, r) := by
  unfold escapeUnit
  split_ifs with h8 h9 h10 h12 h13 h34 h92 hesc
  · subst h8; rw [List.cons_append, List.cons_append, List.nil_append,
      parseStringBody_escape 98 8 rest (by decide) rfl, h]
  · subst h9; rw [List.cons_append, List.cons_append, List.nil_append,
      parseStringBody_escape 116 9 rest (by decide) rfl, h]
  · subst h10; rw [List.cons_append, List.cons_append, List.nil_append,
      parseStringBody_escape 110 10 rest (by decide) rfl, h]
  · subst h12; rw [List.cons_append, List.cons_append, List.nil_append,
      parseStringBody_escape 102 12 rest (by decide) rfl, h]
  · subst h13; rw [List.cons_append, List.cons_append, List.nil_append,
      parseStringBody_escape 114 13 rest (by decide) rfl, h]
  · subst h34; rw [List.cons_append, List.cons_append, List.nil_append,
      parseStringBody_escape 34 34 rest (by decide) rfl, h]
  · subst h92; rw [List.cons_append, List.cons_append, List.nil_append,
      parseStringBody_escape 92 92 rest (by decide) rfl, h]
  · unfold unicodeEscape
    simp only [List.cons_append, List.nil_append]
    rw [parseStringBody_unicode _ _ _ _ c rest (hex4_unicodeEscape c hc), h]
  · simp only [Bool.or_eq_true, decide_eq_true_eq, not_or, not_lt] at hesc
    rw [List.cons_append, List.nil_append,
      parseStringBody_raw c rest h34 h92 (by omega), h]

theorem parseStringBody_quoteFrom (rest : JSString) :
    ∀ (s : JSString) (paired : Bool), s.all (fun c => decide (c < 65536)) = true →
      (paired = true → nextIsLow s = true) →
      parseStringBody (quoteFrom paired s ++ 34 :: rest) = some (s, rest) := by
  intro s
  induction s with
  | nil =>
    intro paired _ _
    simp only [quoteFrom, List.nil_append]
    exact parseStringBody_quote rest
  | cons c r ih =>
    intro paired hv hp
    simp only [List.all_cons, Bool.and_eq_true, decide_eq_true_eq] at hv
    unfold quoteFrom
    by_cases h1 : (paired && isLowSurrogate c) = true
    · rw [if_pos h1]
      simp only [Bool.and_eq_true] at h1
      have hl := h1.2
      simp only [isLowSurrogate, Bool.and_eq_true, decide_eq_true_eq] at hl
      rw [List.cons_append, parseStringBody_raw c _ (by omega) (by omega) (by omega),
        ih false hv.2 (by simp)]
    · rw [if_neg h1]
      by_cases h2 : (isHighSurrogate c && nextIsLow r) = true
      · rw [if_pos h2]
        simp only [Bool.and_eq_true] at h2
        have hh := h2.1
        simp only [isHighSurrogate, Bool.and_eq_true, decide_eq_true_eq] at hh
        rw [List.cons_append, parseStringBody_raw c _ (by omega) (by omega) (by omega),
          ih true hv.2 (fun _ => h2.2)]
      · rw [if_neg h2, List.append_assoc]
        exact escapeUnit_parse c _ r rest hv.1 (ih false hv.2 (by simp))

theorem parseStringBody_quote_key (s rest : JSString)
    (hv : s.all (fun c => decide (c < 65536)) = true) :
    ∃ body, quote s = 34 :: body ∧ parseStringBody (body ++ rest) = some (s, rest) := by
  refine ⟨quoteFrom false s ++ [34], by simp [quote], ?_⟩
  rw [List.append_assoc]
  exact parseStringBody_quoteFrom rest s false hv (by simp)

theorem skipWs_idem (cs : JSString) : skipWs (skipWs cs) = skipWs cs := by
  induction cs with
  | nil => rfl
  | cons c cs ih =>
    by_cases h : isWs c = true
    · simp [skipWs, h, ih]
    · simp [skipWs, h]

theorem skipWs_cons_of_not_ws (c : Nat) (r : JSString) (h : isWs c = false) :
    skipWs (c :: r) = c :: r := by
  simp [skipWs, h]

theorem skipWs_replicate (n : Nat) (x : JSString) : skipWs (List.replicate n 32 ++ x) = skipWs x := by
  induction n with
  | zero => rfl
  | succ n ih =>
    rw [List.replicate_succ, List.cons_append]
    simp [skipWs, isWs, ih]

theorem skipWs_newline (level : Nat) (x : JSString) : skipWs (newline level ++ x) = skipWs x := by
  unfold newline
  rw [List.cons_append]
  have : skipWs (10 :: (List.replicate (2 * level) 32 ++ x))
      = skipWs (List.replicate (2 * level) 32 ++ x) := by
    simp [skipWs, isWs]
  rw [this, skipWs_replicate]

theorem parseValue_succ (fuel : Nat) (cs : JSString) :
    parseValue (fuel + 1) cs =
    match skipWs cs with
    | [] => none
    | c :: rest =>
      if c = 123 then
        match skipWs rest with
        | 125 :: r => some (obj [], r)
        | r => parseMembers fuel r []
      else if c = 91 then
        match skipWs rest with
        | 93 :: r => some (arr [] [], r)
        | r => parseElements fuel r []
      else if c = 34 then
        match parseStringBody rest with
        | some (s, r) => some (str s, r)
        | none => none
      else if c = 45 then
        match parseNat rest with
        | some (n, r) => some (num (- (n : Int)), r)
        | none => none
      else if isDigit c then
        match parseNat (c :: rest) with
        | some (n, r) => some (num n, r)
        | none => none
      else if c = 116 then (dropWord (lit "rue") rest).map fun r => (JSValue.bool true, r)
      else if c = 102 then (dropWord (lit "alse") rest).map fun r => (JSValue.bool false, r)
      else if c = 110 then (dropWord (lit "ull") rest).map fun r => (null, r)
      else none := by
  rw [parseValue]

theorem parseElements_succ (fuel : Nat) (cs : JSString) (acc : List JSValue) :
    parseElements (fuel + 1) cs acc =
    match parseValue fuel cs with
    | none => none
    | some (v, r) =>
      match skipWs r with
      | 44 :: r2 => parseElements fuel r2 (acc ++ [v])
      | 93 :: r2 => some (arr (acc ++ [v]) [], r2)
      | _ => none := by
  rw [parseElements]

theorem parseMembers_succ (fuel : Nat) (cs : JSString) (acc : Props) :
    parseMembers (fuel + 1) cs acc =
    match skipWs cs with
    | 34 :: r =>
      match parseStringBody r with
      | none => none
      | some (k, r1) =>
        match skipWs r1 with
        | 58 :: r2 =>
          match parseValue fuel r2 with
          | none => none
          | some (v, r3) =>
            match skipWs r3 with
            | 44 :: r4 => parseMembers fuel r4 (setProp acc k v)
            | 125 :: r4 => some (obj (setProp acc k v), r4)
            | _ => none
        | _ => none
    | _ => none := by
  rw [parseMembers]

theorem parseValue_skipWs (fuel : Nat) (cs : JSString) :
    parseValue fuel (skipWs cs) = parseValue fuel cs := by
  cases fuel with
  | zero => simp [parseValue]
  | succ f => rw [parseValue_succ, parseValue_succ, skipWs_idem]

theorem lit_null : lit "null" = [110, 117, 108, 108] := by decide
theorem lit_true : lit "true" = [116, 114, 117, 101] := by decide
theorem lit_false : lit "false" = [102, 97, 108, 115, 101] := by decide
theorem lit_emptyArr : lit "[]" = [91, 93] := by decide
theorem lit_emptyObj : lit "\x7b\x7d" = [123, 125] := by decide

theorem readsBack_null : ReadsBack null := by
  intro level rest fuel hf _
  obtain ⟨f, rfl⟩ : ∃ f, fuel = f + 1 := ⟨fuel - 1, by simp [need] at hf; omega⟩
  rw [parseValue_succ]
  simp [stringifyValue, lit_null, skipWs, isWs, isDigit, dropWord, lit]

theorem readsBack_bool (b : Bool) : ReadsBack (JSValue.bool b) := by
  intro level rest fuel hf _
  obtain ⟨f, rfl⟩ : ∃ f, fuel = f + 1 := ⟨fuel - 1, by simp [need] at hf; omega⟩
  rw [parseValue_succ]
  cases b
  · simp [stringifyValue, lit_false, skipWs, isWs, isDigit, dropWord, lit]
  · simp [stringifyValue, lit_true, skipWs, isWs, isDigit, dropWord, lit]

theorem readsBack_str (s : JSString) (hs : validString s = true) : ReadsBack (str s) := by
  intro level rest fuel hf _
  obtain ⟨f, rfl⟩ : ∃ f, fuel = f + 1 := ⟨fuel - 1, by simp [need] at hf; omega⟩
  obtain ⟨body, hq, hp⟩ := parseStringBody_quote_key s rest hs
  rw [parseValue_succ]
  simp only [stringifyValue, hq, List.cons_append]
  rw [skipWs_cons_of_not_ws 34 _ (by decide)]
  simp [hp]

theorem readsBack_num (n : Int) : ReadsBack (num n) := by
  intro level rest fuel hf hr
  obtain ⟨f, rfl⟩ : ∃ f, fuel = f + 1 := ⟨fuel - 1, by simp [need] at hf; omega⟩
  rw [parseValue_succ]
  cases n with
  | ofNat m =>
    obtain ⟨h1, _, h3, _, _⟩ := natToStr_spec m
    have hp := parseNat_natToStr m rest hr
    simp only [stringifyValue, intToStr]
    cases hd : natToStr m with
    | nil => exact absurd hd h3
    | cons d ds =>
      rw [hd] at h1 hp
      simp only [List.all_cons, Bool.and_eq_true] at h1
      have hdig := h1.1
      have hd2 := hdig
      simp only [isDigit, Bool.and_eq_true, decide_eq_true_eq] at hd2
      have hws : isWs d = false := by
        simp [isWs]; omega
      rw [List.cons_append, skipWs_cons_of_not_ws d _ hws]
      simp only []
      rw [if_neg (by omega), if_neg (by omega), if_neg (by omega), if_neg (by omega), if_pos hdig]
      rw [List.cons_append] at hp
      rw [hp]
      rfl
  | negSucc m =>
    have hp := parseNat_natToStr (m + 1) rest hr
    simp only [stringifyValue, intToStr, List.cons_append]
    rw [skipWs_cons_of_not_ws 45 _ (by decide)]
    simp only [if_true, hp]
    rfl

/-- The first character of the text of a value: no white space, no comma, no
closing bracket. -/
theorem stringifyValue_head (level : Nat) (v : JSValue) :
    ∃ c r, stringifyValue level v = c :: r ∧ isWs c = false ∧ c ≠ 93 ∧ c ≠ 125 ∧ c ≠ 44 := by
  cases v with
  | null => exact ⟨110, [117, 108, 108], by simp [stringifyValue, lit_null], by decide⟩
  | bool b =>
    cases b
    · exact ⟨102, [97, 108, 115, 101], by simp [stringifyValue, lit_false], by decide⟩
    · exact ⟨116, [114, 117, 101], by simp [stringifyValue, lit_true], by decide⟩
  | num n =>
    cases n with
    | ofNat m =>
      obtain ⟨h1, _, h3, _, _⟩ := natToStr_spec m
      cases hd : natToStr m with
      | nil => exact absurd hd h3
      | cons d ds =>
        rw [hd] at h1
        simp only [List.all_cons, Bool.and_eq_true, isDigit, decide_eq_true_eq] at h1
        refine ⟨d, ds, by simp [stringifyValue, intToStr, hd], ?_, ?_, ?_, ?_⟩
        · simp [isWs]; omega
        · omega
        · omega
        · omega
    | negSucc m => exact ⟨45, natToStr (m + 1), by simp [stringifyValue, intToStr], by decide⟩
  | str s => exact ⟨34, quoteFrom false s ++ [34], by simp [stringifyValue, quote], by decide⟩
  | arr items props =>
    cases items with
    | nil => exact ⟨91, [93], by simp [stringifyValue, lit_emptyArr], by decide⟩
    | cons x xs => exact ⟨91, _, by simp only [stringifyValue, List.cons_append]; rfl, by decide⟩
  | obj ps =>
    cases ps with
    | nil => exact ⟨123, [125], by simp [stringifyValue, lit_emptyObj], by decide⟩
    | cons p ps =>
      obtain ⟨k, v⟩ := p
      exact ⟨123, _, by simp only [stringifyValue, List.cons_append]; rfl, by decide⟩

theorem skipWs_stringifyValue (level : Nat) (v : JSValue) (rest : JSString) :
    skipWs (stringifyValue level v ++ rest) = stringifyValue level v ++ rest := by
  obtain ⟨c, r, h, hws, _⟩ := stringifyValue_head level v
  rw [h, List.cons_append, skipWs_cons_of_not_ws c _ hws]

theorem endsNumber_cons (c : Nat) (r : JSString) (h1 : isDigit c = false) (h2 : c ≠ 46)
    (h3 : c ≠ 101) (h4 : c ≠ 69) : EndsNumber (c :: r) := by
  intro c' r' h
  cases h
  exact ⟨h1, h2, h3, h4⟩

theorem endsNumber_nil : EndsNumber [] := by
  intro c r h
  cases h

theorem endsNumber_newline (level : Nat) (x : JSString) : EndsNumber (newline level ++ x) := by
  unfold newline
  rw [List.cons_append]
  exact endsNumber_cons 10 _ (by decide) (by decide) (by decide) (by decide)

theorem parseElements_stringify (level closing : Nat) (rest : JSString) :
    ∀ (xs : List JSValue) (x : JSValue) (acc : List JSValue) (fuel : Nat) (text : JSString),
      (∀ y ∈ x :: xs, ReadsBack y) →
      skipWs text
        = stringifyValue level x ++ (stringifyItems level xs ++ (newline closing ++ 93 :: rest)) →
      needItems (x :: xs) ≤ fuel →
      parseElements fuel text acc = some (arr (acc ++ x :: xs) [], rest) := by
  intro xs
  induction xs with
  | nil =>
    intro x acc fuel text hrb htext hfuel
    obtain ⟨f, rfl⟩ : ∃ f, fuel = f + 1 := ⟨fuel - 1, by simp [needItems] at hfuel; omega⟩
    have hx : need x ≤ f := by simp [needItems] at hfuel; omega
    rw [parseElements_succ, ← parseValue_skipWs, htext]
    simp only [stringifyItems, List.nil_append]
    rw [hrb x (by simp) level _ f hx (endsNumber_newline _ _)]
    simp only [skipWs_newline]
    rw [skipWs_cons_of_not_ws 93 _ (by decide)]
  | cons y ys ih =>
    intro x acc fuel text hrb htext hfuel
    obtain ⟨f, rfl⟩ : ∃ f, fuel = f + 1 := ⟨fuel - 1, by simp [needItems] at hfuel; omega⟩
    have hx : need x ≤ f := by simp [needItems] at hfuel; omega
    have hrest : needItems (y :: ys) ≤ f := by simp [needItems] at hfuel ⊢; omega
    rw [parseElements_succ, ← parseValue_skipWs, htext]
    simp only [stringifyItems, List.cons_append]
    rw [hrb x (by simp) level _ f hx
      (endsNumber_cons 44 _ (by decide) (by decide) (by decide) (by decide))]
    simp only []
    rw [skipWs_cons_of_not_ws 44 _ (by decide)]
    simp only []
    have := ih y (acc ++ [x]) f
      (newline level ++ (stringifyValue level y ++ (stringifyItems level ys
        ++ (newline closing ++ 93 :: rest))))
      (fun z hz => hrb z (by simp at hz ⊢; tauto))
      (by rw [skipWs_newline, skipWs_stringifyValue]) hrest
    simp only [List.append_assoc, List.singleton_append] at this ⊢
    exact this

theorem parseMembers_stringify (level closing : Nat) (rest : JSString) :
    ∀ (ps : Props) (k : JSString) (v : JSValue) (acc : Props) (fuel : Nat) (text : JSString),
      (∀ q ∈ (k, v) :: ps, validString q.1 = true ∧ ReadsBack q.2) →
      skipWs text
        = quote k ++ 58 :: 32 :: (stringifyValue level v
            ++ (stringifyMembers level ps ++ (newline closing ++ 125 :: rest))) →
      needProps ((k, v) :: ps) ≤ fuel →
      parseMembers fuel text acc
        = some (obj (List.foldl (fun a q => setProp a q.1 q.2) acc ((k, v) :: ps)), rest) := by
  intro ps
  induction ps with
  | nil =>
    intro k v acc fuel text hrb htext hfuel
    obtain ⟨f, rfl⟩ : ∃ f, fuel = f + 1 := ⟨fuel - 1, by simp [needProps] at hfuel; omega⟩
    have hv : need v ≤ f := by simp [needProps] at hfuel; omega
    obtain ⟨hk, hrv⟩ := hrb (k, v) (by simp)
    obtain ⟨body, hq, hp⟩ := parseStringBody_quote_key k
      (58 :: 32 :: (stringifyValue level v
        ++ (stringifyMembers level [] ++ (newline closing ++ 125 :: rest)))) hk
    rw [parseMembers_succ, htext, hq, List.cons_append]
    simp only []
    rw [hp]
    simp only []
    rw [skipWs_cons_of_not_ws 58 _ (by decide)]
    simp only []
    have h32 : ∀ x, parseValue f (32 :: x) = parseValue f x := by
      intro x
      rw [← parseValue_skipWs f (32 :: x), ← parseValue_skipWs f x]
      simp [skipWs, isWs]
    rw [h32]
    simp only [stringifyMembers, List.nil_append]
    rw [hrv level _ f hv (endsNumber_newline _ _)]
    simp only [skipWs_newline]
    rw [skipWs_cons_of_not_ws 125 _ (by decide)]
    rfl
  | cons p ps ih =>
    obtain ⟨k2, v2⟩ := p
    intro k v acc fuel text hrb htext hfuel
    obtain ⟨f, rfl⟩ : ∃ f, fuel = f + 1 := ⟨fuel - 1, by simp [needProps] at hfuel; omega⟩
    have hv : need v ≤ f := by simp [needProps] at hfuel; omega
    have hrest : needProps ((k2, v2) :: ps) ≤ f := by simp [needProps] at hfuel ⊢; omega
    obtain ⟨hk, hrv⟩ := hrb (k, v) (by simp)
    obtain ⟨body, hq, hp⟩ := parseStringBody_quote_key k
      (58 :: 32 :: (stringifyValue level v
        ++ (stringifyMembers level ((k2, v2) :: ps) ++ (newline closing ++ 125 :: rest)))) hk
    rw [parseMembers_succ, htext, hq, List.cons_append]
    simp only []
    rw [hp]
    simp only []
    rw [skipWs_cons_of_not_ws 58 _ (by decide)]
    simp only []
    have h32 : ∀ x, parseValue f (32 :: x) = parseValue f x := by
      intro x
      rw [← parseValue_skipWs f (32 :: x), ← parseValue_skipWs f x]
      simp [skipWs, isWs]
    rw [h32]
    simp only [stringifyMembers, List.cons_append]
    rw [hrv level _ f hv
      (endsNumber_cons 44 _ (by decide) (by decide) (by decide) (by decide))]
    simp only []
    rw [skipWs_cons_of_not_ws 44 _ (by decide)]
    simp only []
    have := ih k2 v2 (setProp acc k v) f
      (newline level ++ (quote k2 ++ 58 :: 32 :: (stringifyValue level v2
        ++ (stringifyMembers level ps ++ (newline closing ++ 125 :: rest)))))
      (fun z hz => hrb z (by simp at hz ⊢; tauto))
      (by
        rw [skipWs_newline]
        simp only [quote, List.cons_append]
        exact skipWs_cons_of_not_ws 34 _ (by decide)) hrest
    simp only [List.append_assoc, List.singleton_append, List.cons_append, List.nil_append,
      List.foldl_cons] at this ⊢
    exact this

theorem need_pos (v : JSValue) : 1 ≤ need v := by
  cases v <;> simp [need]

theorem need_lt_of_mem_items (items : List JSValue) (y : JSValue) (h : y ∈ items) :
    need y < 1 + needItems items := by
  induction items with
  | nil => simp at h
  | cons x xs ih =>
    rw [List.mem_cons] at h
    simp only [needItems]
    rcases h with rfl | h
    · omega
    · have := ih h
      omega

theorem need_lt_of_mem_props (ps : Props) (q : JSString × JSValue) (h : q ∈ ps) :
    need q.2 < 1 + needProps ps := by
  induction ps with
  | nil => simp at h
  | cons p ps ih =>
    obtain ⟨k, v⟩ := p
    rw [List.mem_cons] at h
    simp only [needProps]
    rcases h with rfl | h
    · simp only
      omega
    · have := ih h
      omega

theorem isJSON_of_mem_items (items : List JSValue) (h : allJSON items = true) :
    ∀ y ∈ items, isJSON y = true := by
  induction items with
  | nil => intro y hy; simp at hy
  | cons x xs ih =>
    simp only [allJSON, Bool.and_eq_true] at h
    intro y hy
    rw [List.mem_cons] at hy
    rcases hy with rfl | hy
    · exact h.1
    · exact ih h.2 y hy

theorem isJSON_of_mem_props (ps : Props) (h : propsJSON ps = true) :
    ∀ q ∈ ps, validString q.1 = true ∧ isJSON q.2 = true := by
  induction ps with
  | nil => intro q hq; simp at hq
  | cons p ps ih =>
    obtain ⟨k, v⟩ := p
    simp only [propsJSON, Bool.and_eq_true] at h
    intro q hq
    rw [List.mem_cons] at hq
    rcases hq with rfl | hq
    · exact ⟨h.1.1, h.1.2⟩
    · exact ih h.2 q hq

theorem lookupProp_eq_none_of_not_mem (k : JSString) (ps : Props)
    (h : ∀ q ∈ ps, q.1 ≠ k) : lookupProp k ps = none := by
  induction ps with
  | nil => rfl
  | cons p ps ih =>
    obtain ⟨x, w⟩ := p
    have hx : x ≠ k := h (x, w) (by simp)
    simp only [lookupProp, hx, if_false]
    exact ih (fun q hq => h q (by simp [hq]))

theorem insertProp_append (k : JSString) (v : JSValue) (ps : Props)
    (h : ∀ q ∈ ps, goesBefore k q.1 = false) : insertProp k v ps = ps ++ [(k, v)] := by
  induction ps with
  | nil => rfl
  | cons p ps ih =>
    obtain ⟨x, w⟩ := p
    have hx : goesBefore k x = false := h (x, w) (by simp)
    simp only [insertProp, hx, Bool.false_eq_true, if_false, List.cons_append]
    rw [ih (fun q hq => h q (by simp [hq]))]

theorem foldl_setProp_ordered (ps : Props) :
    ∀ acc : Props, OrderedKeys ((acc ++ ps).map Prod.fst) →
      List.foldl (fun a q => setProp a q.1 q.2) acc ps = acc ++ ps := by
  induction ps with
  | nil => intro acc _; simp
  | cons p ps ih =>
    obtain ⟨k, v⟩ := p
    intro acc hord
    have hsplit : acc ++ (k, v) :: ps = (acc ++ [(k, v)]) ++ ps := by simp
    rw [List.foldl_cons]
    have hk : ∀ q ∈ acc, q.1 ≠ k ∧ goesBefore k q.1 = false := by
      intro q hq
      unfold OrderedKeys at hord
      rw [List.map_append, List.pairwise_append] at hord
      exact hord.2.2 q.1 (List.mem_map_of_mem _ hq) k (by simp)
    have hset : setProp acc k v = acc ++ [(k, v)] := by
      unfold setProp
      rw [lookupProp_eq_none_of_not_mem k acc (fun q hq => (hk q hq).1)]
      simp only [Option.isSome_none, Bool.false_eq_true, if_false]
      exact insertProp_append k v acc (fun q hq => (hk q hq).2)
    simp only
    rw [hset, ih (acc ++ [(k, v)]) (by rw [← hsplit]; exact hord), ← hsplit]

theorem readsBack_of_isJSON : ∀ v, isJSON v = true → ReadsBack v := by
  suffices h : ∀ n v, need v = n → isJSON v = true → ReadsBack v from fun v => h _ v rfl
  intro n
  induction n using Nat.strong_induction_on with
  | _ n ih =>
    intro v hn hj
    cases v with
    | null => exact readsBack_null
    | bool b => exact readsBack_bool b
    | num m => exact readsBack_num m
    | str s => exact readsBack_str s (by simpa [isJSON] using hj)
    | arr items props =>
      simp only [isJSON, Bool.and_eq_true, List.isEmpty_iff] at hj
      obtain ⟨hp, hitems⟩ := hj
      subst hp
      intro level rest fuel hfuel _
      obtain ⟨f, rfl⟩ : ∃ f, fuel = f + 1 := ⟨fuel - 1, by simp [need] at hfuel; omega⟩
      rw [parseValue_succ]
      cases items with
      | nil => simp [stringifyValue, lit_emptyArr, skipWs, isWs]
      | cons x xs =>
        have hrb : ∀ y ∈ x :: xs, ReadsBack y := by
          intro y hy
          have hlt := need_lt_of_mem_items (x :: xs) y hy
          exact ih (need y) (by rw [← hn]; simpa [need] using hlt) y rfl
            (isJSON_of_mem_items _ hitems y hy)
        simp only [stringifyValue, List.cons_append, List.append_assoc, List.nil_append]
        rw [skipWs_cons_of_not_ws 91 _ (by decide)]
        simp only [if_true]
        rw [skipWs_newline, skipWs_stringifyValue]
        obtain ⟨c, r, hhead, _, h93, _, _⟩ := stringifyValue_head (level + 1) x
        have hpe := parseElements_stringify (level + 1) level rest xs x [] f
          (stringifyValue (level + 1) x ++ (stringifyItems (level + 1) xs
            ++ (newline level ++ 93 :: rest)))
          hrb (skipWs_stringifyValue _ _ _) (by simp [need] at hfuel; omega)
        rw [List.nil_append] at hpe
        rw [← hpe]
        generalize stringifyItems (level + 1) xs ++ (newline level ++ 93 :: rest) = tail
        rw [hhead, List.cons_append, if_neg (by decide)]
        split
        · rename_i heq
          simp only [List.cons.injEq] at heq
          exact absurd heq.1 h93
        · rfl
    | obj ps =>
      simp only [isJSON, Bool.and_eq_true, decide_eq_true_eq] at hj
      obtain ⟨hord, hprops⟩ := hj
      intro level rest fuel hfuel _
      obtain ⟨f, rfl⟩ : ∃ f, fuel = f + 1 := ⟨fuel - 1, by simp [need] at hfuel; omega⟩
      rw [parseValue_succ]
      cases ps with
      | nil => simp [stringifyValue, lit_emptyObj, skipWs, isWs]
      | cons p ps =>
        obtain ⟨k, v⟩ := p
        have hrb : ∀ q ∈ (k, v) :: ps, validString q.1 = true ∧ ReadsBack q.2 := by
          intro q hq
          have hlt := need_lt_of_mem_props ((k, v) :: ps) q hq
          have hq2 := isJSON_of_mem_props _ hprops q hq
          exact ⟨hq2.1, ih (need q.2) (by rw [← hn]; simpa [need] using hlt) q.2 rfl hq2.2⟩
        simp only [stringifyValue, List.cons_append, List.append_assoc, List.nil_append]
        rw [skipWs_cons_of_not_ws 123 _ (by decide)]
        simp only [if_true]
        rw [skipWs_newline]
        have hq34 : ∀ t, skipWs (quote k ++ t) = quote k ++ t := by
          intro t
          simp only [quote, List.cons_append]
          exact skipWs_cons_of_not_ws 34 _ (by decide)
        rw [hq34]
        have hpm := parseMembers_stringify (level + 1) level rest ps k v [] f
          (quote k ++ 58 :: 32 :: (stringifyValue (level + 1) v
            ++ (stringifyMembers (level + 1) ps ++ (newline level ++ 125 :: rest))))
          hrb (hq34 _) (by simp [need] at hfuel; omega)
        rw [foldl_setProp_ordered _ [] (by simpa using hord), List.nil_append] at hpm
        rw [← hpm]
        generalize 58 :: 32 :: (stringifyValue (level + 1) v
            ++ (stringifyMembers (level + 1) ps ++ (newline level ++ 125 :: rest))) = tail
        simp only [quote, List.cons_append]

theorem need_le_length : ∀ v level, need v ≤ (stringifyValue level v).length := by
  suffices h : ∀ n v, need v = n → ∀ level, need v ≤ (stringifyValue level v).length from
    fun v => h _ v rfl
  intro n
  induction n using Nat.strong_induction_on with
  | _ n ih =>
    intro v hn level
    have hleaf : ∀ w : JSValue, need w = 1 → ∀ l, need w ≤ (stringifyValue l w).length := by
      intro w hw l
      obtain ⟨c, r, h, _⟩ := stringifyValue_head l w
      rw [hw, h, List.length_cons]
      omega
    cases v with
    | null => exact hleaf null (by simp [need]) level
    | bool b => exact hleaf (JSValue.bool b) (by simp [need]) level
    | num m => exact hleaf (num m) (by simp [need]) level
    | str s => exact hleaf (str s) (by simp [need]) level
    | arr items props =>
      cases items with
      | nil => exact hleaf (arr [] props) (by simp [need, needItems]) level
      | cons x xs =>
        have hsub : ∀ y ∈ x :: xs, ∀ l, need y ≤ (stringifyValue l y).length := by
          intro y hy l
          have hlt := need_lt_of_mem_items (x :: xs) y hy
          exact ih (need y) (by rw [← hn]; simpa [need] using hlt) y rfl l
        have hitems : ∀ (ys : List JSValue) (l : Nat),
            (∀ y ∈ ys, ∀ l, need y ≤ (stringifyValue l y).length) →
            needItems ys ≤ (stringifyItems l ys).length := by
          intro ys l
          induction ys with
          | nil => intro _; simp [needItems]
          | cons y ys ihy =>
            intro hy
            have h1 := hy y (by simp) l
            have h2 := ihy (fun z hz => hy z (by simp [hz]))
            simp only [needItems, stringifyItems, List.length_cons, List.length_append, newline,
              List.length_replicate]
            omega
        have h1 := hsub x (by simp) (level + 1)
        have h2 := hitems xs (level + 1) (fun z hz => hsub z (by simp [hz]))
        simp only [need, needItems, stringifyValue, List.length_cons, List.length_append,
          newline, List.length_replicate, List.length_nil]
        omega
    | obj ps =>
      cases ps with
      | nil => exact hleaf (obj []) (by simp [need, needProps]) level
      | cons p ps =>
        obtain ⟨k, v⟩ := p
        have hsub : ∀ q ∈ (k, v) :: ps, ∀ l, need q.2 ≤ (stringifyValue l q.2).length := by
          intro q hq l
          have hlt := need_lt_of_mem_props ((k, v) :: ps) q hq
          exact ih (need q.2) (by rw [← hn]; simpa [need] using hlt) q.2 rfl l
        have hprops : ∀ (qs : Props) (l : Nat),
            (∀ q ∈ qs, ∀ l, need q.2 ≤ (stringifyValue l q.2).length) →
            needProps qs ≤ (stringifyMembers l qs).length := by
          intro qs l
          induction qs with
          | nil => intro _; simp [needProps]
          | cons q qs ihq =>
            obtain ⟨k2, v2⟩ := q
            intro hq
            have h1 := hq (k2, v2) (by simp) l
            have h2 := ihq (fun z hz => hq z (by simp [hz]))
            simp only [needProps, stringifyMembers, List.length_cons, List.length_append,
              newline, List.length_replicate] at h1 ⊢
            omega
        have h1 := hsub (k, v) (by simp) (level + 1)
        have h2 := hprops ps (level + 1) (fun z hz => hsub z (by simp [hz]))
        simp only [need, needProps, stringifyValue, List.length_cons, List.length_append,
          newline, List.length_replicate, List.length_nil] at h1 ⊢
        omega

/-- The parser `JSON.parse` reads back what `JSON.stringify` writes for a JSON value. -/
theorem parse_stringify (v : JSValue) (h : isJSON v = true) :
    JSON.parse (JSON.stringify v) = some v := by
  have hrb := readsBack_of_isJSON v h 0 [] ((JSON.stringify v).length + 1)
    (by have := need_le_length v 0; unfold JSON.stringify; omega) endsNumber_nil
  rw [List.append_nil] at hrb
  unfold JSON.parse
  unfold JSON.stringify at hrb ⊢
  rw [hrb]
  rfl

/-! ## `compactState` keeps JSON values JSON -/

theorem isJSON_obj_iff (ps : Props) :
    isJSON (obj ps) = true ↔ OrderedKeys (ps.map Prod.fst) ∧ propsJSON ps = true := by
  simp [isJSON]

theorem map_fst_replaceProp (k : JSString) (v : JSValue) (ps : Props) :
    (replaceProp k v ps).map Prod.fst = ps.map Prod.fst := by
  induction ps with
  | nil => rfl
  | cons p ps ih =>
    obtain ⟨x, w⟩ := p
    by_cases hx : x = k
    · simp [replaceProp, hx]
    · simp [replaceProp, hx, ih]

theorem propsJSON_replaceProp (k : JSString) (v : JSValue) (ps : Props)
    (hk : validString k = true) (hv : isJSON v = true) (h : propsJSON ps = true) :
    propsJSON (replaceProp k v ps) = true := by
  induction ps with
  | nil => rfl
  | cons p ps ih =>
    obtain ⟨x, w⟩ := p
    simp only [propsJSON, Bool.and_eq_true] at h
    by_cases hx : x = k
    · simp [replaceProp, hx, propsJSON, hk, hv, h.2]
    · simp [replaceProp, hx, propsJSON, h.1.1, h.1.2, ih h.2]

theorem propsJSON_append (ps qs : Props) :
    propsJSON (ps ++ qs) = (propsJSON ps && propsJSON qs) := by
  induction ps with
  | nil => simp [propsJSON]
  | cons p ps ih =>
    obtain ⟨x, w⟩ := p
    simp [propsJSON, ih, Bool.and_assoc]

theorem not_mem_keys_of_lookupProp_none (k : JSString) (ps : Props)
    (h : lookupProp k ps = none) : ∀ a ∈ ps.map Prod.fst, a ≠ k := by
  induction ps with
  | nil => intro a ha; simp at ha
  | cons p ps ih =>
    obtain ⟨x, w⟩ := p
    by_cases hx : x = k
    · simp [lookupProp, hx] at h
    · simp only [lookupProp, hx, if_false] at h
      intro a ha
      simp only [List.map_cons, List.mem_cons] at ha
      rcases ha with rfl | ha
      · exact hx
      · exact ih h a ha

theorem goesBefore_of_not_index (k x : JSString) (hk : arrayIndex k = none) :
    goesBefore k x = false := by
  simp [goesBefore, hk]

/-- Assigning a property whose key is no array index keeps an object a JSON
object. -/
theorem isJSON_setProp (ps : Props) (k : JSString) (v : JSValue)
    (hk : validString k = true) (hidx : arrayIndex k = none) (hv : isJSON v = true)
    (h : isJSON (obj ps) = true) : isJSON (obj (setProp ps k v)) = true := by
  rw [isJSON_obj_iff] at h ⊢
  obtain ⟨hord, hjs⟩ := h
  unfold setProp
  by_cases hl : (lookupProp k ps).isSome = true
  · rw [if_pos hl, map_fst_replaceProp]
    exact ⟨hord, propsJSON_replaceProp k v ps hk hv hjs⟩
  · rw [if_neg hl]
    simp only [Bool.not_eq_true, Option.not_isSome, Option.isNone_iff_eq_none] at hl
    rw [insertProp_append k v ps (fun q _ => goesBefore_of_not_index k q.1 hidx)]
    constructor
    · unfold OrderedKeys at hord ⊢
      rw [List.map_append, List.pairwise_append]
      refine ⟨hord, by simp, ?_⟩
      intro a ha b hb
      simp only [List.map_cons, List.map_nil, List.mem_singleton] at hb
      subst hb
      exact ⟨not_mem_keys_of_lookupProp_none b ps hl a ha, goesBefore_of_not_index b a hidx⟩
    · rw [propsJSON_append, hjs]
      simp [propsJSON, hk, hv]

theorem propsJSON_filter (ps : Props) (f : JSString × JSValue → Bool)
    (h : propsJSON ps = true) : propsJSON (ps.filter f) = true := by
  induction ps with
  | nil => rfl
  | cons p ps ih =>
    obtain ⟨x, w⟩ := p
    simp only [propsJSON, Bool.and_eq_true] at h
    rw [List.filter_cons]
    split
    · simp [propsJSON, h.1.1, h.1.2, ih h.2]
    · exact ih h.2

theorem isJSON_deleteProp (ps : Props) (k : JSString) (h : isJSON (obj ps) = true) :
    isJSON (obj (deleteProp ps k)) = true := by
  rw [isJSON_obj_iff] at h ⊢
  obtain ⟨hord, hjs⟩ := h
  unfold deleteProp
  constructor
  · unfold OrderedKeys at hord ⊢
    exact hord.sublist ((List.filter_sublist ps).map Prod.fst)
  · exact propsJSON_filter ps _ hjs

theorem isJSON_lookupProp (ps : Props) (k : JSString) (v : JSValue)
    (h : propsJSON ps = true) (hl : lookupProp k ps = some v) : isJSON v = true := by
  induction ps with
  | nil => simp [lookupProp] at hl
  | cons p ps ih =>
    obtain ⟨x, w⟩ := p
    simp only [propsJSON, Bool.and_eq_true] at h
    by_cases hx : x = k
    · simp only [lookupProp, hx, if_true, Option.some.injEq] at hl
      rw [← hl]
      exact h.1.2
    · simp only [lookupProp, hx, if_false] at hl
      exact ih h.2 hl

theorem arrayIndex_natToStr (n : Nat) :
    arrayIndex (natToStr n) = if n < 4294967295 then some n else none := by
  obtain ⟨h1, h2, _, _, _⟩ := natToStr_spec n
  unfold arrayIndex
  rw [h1, h2]
  simp

theorem natToStr_injective (i j : Nat) (h : natToStr i = natToStr j) : i = j := by
  have hi := (natToStr_spec i).2.1
  have hj := (natToStr_spec j).2.1
  rw [← hi, ← hj, h]

theorem validString_natToStr (n : Nat) : validString (natToStr n) = true := by
  have h := (natToStr_spec n).1
  unfold validString
  rw [List.all_eq_true] at h ⊢
  intro c hc
  have := h c hc
  simp only [isDigit, Bool.and_eq_true, decide_eq_true_eq] at this
  simp only [decide_eq_true_eq]
  omega

theorem keys_indexed (vs : List JSValue) :
    ∀ i, ∀ k ∈ (indexed i vs).map Prod.fst, ∃ j, i ≤ j ∧ k = natToStr j := by
  induction vs with
  | nil => intro i k hk; simp [indexed] at hk
  | cons v vs ih =>
    intro i k hk
    simp only [indexed, List.map_cons, List.mem_cons] at hk
    rcases hk with rfl | hk
    · exact ⟨i, Nat.le_refl i, rfl⟩
    · obtain ⟨j, hj, rfl⟩ := ih (i + 1) k hk
      exact ⟨j, by omega, rfl⟩

theorem orderedKeys_indexed (vs : List JSValue) :
    ∀ i, OrderedKeys ((indexed i vs).map Prod.fst) := by
  induction vs with
  | nil => intro i; simp [indexed, OrderedKeys]
  | cons v vs ih =>
    intro i
    unfold OrderedKeys
    simp only [indexed, List.map_cons, List.pairwise_cons]
    refine ⟨?_, ih (i + 1)⟩
    intro k hk
    obtain ⟨j, hj, rfl⟩ := keys_indexed vs (i + 1) k hk
    constructor
    · intro heq
      have := natToStr_injective i j heq
      omega
    · unfold goesBefore
      rw [arrayIndex_natToStr, arrayIndex_natToStr]
      by_cases h1 : j < 4294967295
      · have h2 : i < 4294967295 := by omega
        simp [h1, h2]
        omega
      · simp [h1]

theorem propsJSON_indexed (vs : List JSValue) (h : allJSON vs = true) :
    ∀ i, propsJSON (indexed i vs) = true := by
  induction vs with
  | nil => intro i; rfl
  | cons v vs ih =>
    intro i
    simp only [allJSON, Bool.and_eq_true] at h
    simp only [indexed, propsJSON, validString_natToStr, h.1, ih h.2, Bool.and_self]

theorem allJSON_map_str (s : JSString) (h : validString s = true) :
    allJSON (s.map fun c => str [c]) = true := by
  induction s with
  | nil => rfl
  | cons c s ih =>
    simp only [validString, List.all_cons, Bool.and_eq_true, decide_eq_true_eq] at h
    simp only [List.map_cons, allJSON, isJSON, validString, List.all_cons, List.all_nil,
      Bool.and_true, Bool.and_eq_true, decide_eq_true_eq]
    exact ⟨h.1, ih (by simpa [validString] using h.2)⟩

theorem isJSON_spread (x : JSValue) (h : isJSON x = true) : isJSON (obj (spread x)) = true := by
  cases x with
  | null => rfl
  | bool b => rfl
  | num n => rfl
  | str s =>
    rw [isJSON_obj_iff]
    simp only [isJSON] at h
    exact ⟨orderedKeys_indexed _ 0, propsJSON_indexed _ (allJSON_map_str s h) 0⟩
  | arr items props =>
    simp only [isJSON, Bool.and_eq_true, List.isEmpty_iff] at h
    obtain ⟨hp, hitems⟩ := h
    subst hp
    rw [isJSON_obj_iff]
    simp only [spread, List.append_nil]
    exact ⟨orderedKeys_indexed _ 0, propsJSON_indexed _ hitems 0⟩
  | obj ps => exact h

theorem validString_take (n : Nat) (s : JSString) (h : validString s = true) :
    validString (s.take n) = true := by
  unfold validString at h ⊢
  rw [List.all_eq_true] at h ⊢
  intro c hc
  exact h c (List.mem_of_mem_take hc)

theorem isJSON_compactSticky (x : JSValue) (h : isJSON x = true) :
    isJSON (compactSticky x) = true := by
  have h0 := isJSON_spread x h
  unfold compactSticky
  simp only
  generalize spread x = t at h0
  have h1 : isJSON (obj (match lookupProp (lit "body") t with
      | some (str b) =>
        if b.length > 4000 then setProp t (lit "body") (str (b.take 4000)) else t
      | _ => t)) = true := by
    split
    · rename_i b hb
      split
      · have hbj := isJSON_lookupProp t _ _ ((isJSON_obj_iff t).mp h0).2 hb
        simp only [isJSON] at hbj
        exact isJSON_setProp t _ _ (by decide) (by decide)
          (by simp only [isJSON]; exact validString_take _ _ hbj) h0
      · exact h0
    · exact h0
  generalize (match lookupProp (lit "body") t with
      | some (str b) =>
        if b.length > 4000 then setProp t (lit "body") (str (b.take 4000)) else t
      | _ => t) = t1 at h1
  split
  · split
    · exact isJSON_deleteProp t1 _ h1
    · exact h1
  · exact h1

theorem allJSON_iff (vs : List JSValue) : allJSON vs = true ↔ ∀ v ∈ vs, isJSON v = true := by
  induction vs with
  | nil => simp [allJSON]
  | cons v vs ih => simp [allJSON, ih]

theorem allJSON_arrOf (o : Option JSValue) (h : ∀ v, o = some v → isJSON v = true) :
    allJSON (arrOf o) = true := by
  cases o with
  | none => rfl
  | some v =>
    cases v with
    | arr items props =>
      have := h _ rfl
      simp only [isJSON, Bool.and_eq_true] at this
      exact this.2
    | null => rfl
    | bool b => rfl
    | num n => rfl
    | str s => rfl
    | obj ps => rfl

theorem allJSON_sliceLast (n : Nat) (vs : List JSValue) (h : allJSON vs = true) :
    allJSON (sliceLast n vs) = true := by
  rw [allJSON_iff] at h ⊢
  intro v hv
  exact h v (List.mem_of_mem_drop hv)

theorem allJSON_map_compactSticky (vs : List JSValue) (h : allJSON vs = true) :
    allJSON (vs.map compactSticky) = true := by
  rw [allJSON_iff] at h ⊢
  intro v hv
  rw [List.mem_map] at hv
  obtain ⟨x, hx, rfl⟩ := hv
  exact isJSON_compactSticky x (h x hx)

theorem isJSON_arr (vs : List JSValue) (h : allJSON vs = true) : isJSON (arr vs []) = true := by
  simp [isJSON, h]

/-- The function `compactState` maps a JSON object to a JSON object. -/
theorem isJSON_compactState (ps : Props) (h : isJSON (obj ps) = true) :
    ∃ qs, compactState (obj ps) = obj qs ∧ isJSON (obj qs) = true := by
  have hjs := ((isJSON_obj_iff ps).mp h).2
  have hst : allJSON (sliceLast MAX_ITEMS (arrOf (lookupProp (lit "stickies") ps))) = true :=
    allJSON_sliceLast _ _ (allJSON_arrOf _ (fun v hv => isJSON_lookupProp ps _ v hjs hv))
  have e1 := isJSON_setProp ps (lit "stickies")
    (arr (sliceLast MAX_ITEMS (arrOf (lookupProp (lit "stickies") ps))) [])
    (by decide) (by decide) (isJSON_arr _ hst) h
  generalize hps1 : setProp ps (lit "stickies")
    (arr (sliceLast MAX_ITEMS (arrOf (lookupProp (lit "stickies") ps))) []) = ps1 at e1
  have hjs1 := ((isJSON_obj_iff ps1).mp e1).2
  have hnt : allJSON (sliceLast MAX_ITEMS (arrOf (lookupProp (lit "notes") ps1))) = true :=
    allJSON_sliceLast _ _ (allJSON_arrOf _ (fun v hv => isJSON_lookupProp ps1 _ v hjs1 hv))
  have e2 := isJSON_setProp ps1 (lit "notes")
    (arr (sliceLast MAX_ITEMS (arrOf (lookupProp (lit "notes") ps1))) [])
    (by decide) (by decide) (isJSON_arr _ hnt) e1
  generalize hps2 : setProp ps1 (lit "notes")
    (arr (sliceLast MAX_ITEMS (arrOf (lookupProp (lit "notes") ps1))) []) = ps2 at e2
  have e3 := isJSON_setProp ps2 (lit "stickies")
    (arr ((sliceLast MAX_ITEMS (arrOf (lookupProp (lit "stickies") ps))).map compactSticky) [])
    (by decide) (by decide) (isJSON_arr _ (allJSON_map_compactSticky _ hst)) e2
  generalize hps3 : setProp ps2 (lit "stickies")
    (arr ((sliceLast MAX_ITEMS (arrOf (lookupProp (lit "stickies") ps))).map compactSticky) [])
      = ps3 at e3
  have hbv : beforeVersion (obj ps) = obj ps3 := by
    simp only [beforeVersion, isObjectValue, if_true, getNamed, setNamed, hps1, hps2, hps3]
  rw [compactState_unfold, hbv]
  have e4 := isJSON_setProp ps3 (lit "version") (num 1) (by decide) (by decide) rfl e3
  simp only [getNamed, setNamed]
  split
  · exact ⟨_, rfl, e4⟩
  · exact ⟨_, rfl, e4⟩
  · exact ⟨_, rfl, e3⟩

/-! ## C3: encoding and decoding a state -/

theorem stringify_obj_head (qs : Props) : ∃ r, JSON.stringify (obj qs) = 123 :: r := by
  unfold JSON.stringify
  cases qs with
  | nil => exact ⟨[125], by simp [stringifyValue, lit_emptyObj]⟩
  | cons p qs =>
    obtain ⟨k, v⟩ := p
    exact ⟨_, by simp only [stringifyValue, List.cons_append]; rfl⟩

theorem decodeState_stringify (qs : Props) (h : isJSON (obj qs) = true) :
    decodeState (JSON.stringify (obj qs)) = some (compactState (obj qs)) := by
  obtain ⟨r, hr⟩ := stringify_obj_head qs
  have h1 : stripBOM (JSON.stringify (obj qs)) = JSON.stringify (obj qs) := by
    rw [hr]
    simp [stripBOM]
  have h2 : orNullText (JSON.stringify (obj qs)) = JSON.stringify (obj qs) := by
    rw [hr]
    simp [orNullText]
  unfold decodeState
  rw [h1, h2, parse_stringify (obj qs) h]
  rfl

theorem decode_encode_object (ps : Props) (h : isJSON (obj ps) = true) :
    decodeState (encodeState (obj ps)) = some (compactState (obj ps)) := by
  obtain ⟨qs, hqs, hj⟩ := isJSON_compactState ps h
  have he : encodeState (obj ps) = JSON.stringify (obj qs) := by
    simp only [encodeState, orEmptyObject, truthy, if_true, hqs]
  rw [he, decodeState_stringify qs hj, hqs]
  have := compactState_idem (obj ps)
  rw [hqs] at this
  rw [this]

/-- C3: for every JSON object `s`, `compactState (compactState s) = compactState s`,
and decoding (strip a BOM, `JSON.parse`, `compactState`) the text that
`writeStateSafe` encodes for `s` (`JSON.stringify(compactState(s), null, 2)`) gives
exactly `compactState s`. -/
theorem decodeState_encodeState (ps : Props) (h : isJSON (obj ps) = true) :
    compactState (compactState (obj ps)) = compactState (obj ps) ∧
    decodeState (encodeState (obj ps)) = some (compactState (obj ps)) :=
  ⟨compactState_idem _, decode_encode_object ps h⟩

theorem compactState_sampleState : compactState sampleState = sampleCompact := by decide

/-- C3 at a small state: its normal form, and the round trip through the text. -/
theorem decodeState_encodeState_sampleState :
    compactState sampleState = sampleCompact ∧
    compactState (compactState sampleState) = compactState sampleState ∧
    decodeState (encodeState sampleState) = some (compactState sampleState) :=
  ⟨compactState_sampleState, decodeState_encodeState _ (by decide)⟩

/-! ## UTF-8 of well-formed text -/

theorem wellFormed_append (a b : JSString) (ha : WellFormed a) (hb : WellFormed b) :
    WellFormed (a ++ b) := by
  induction ha with
  | nil => exact hb
  | unit c s h1 h2 h3 _ ih => exact WellFormed.unit c _ h1 h2 h3 ih
  | pair h l s h1 h2 _ ih => exact WellFormed.pair h l _ h1 h2 ih

theorem wellFormed_ascii (s : JSString) (h : ∀ c ∈ s, c < 128) : WellFormed s := by
  induction s with
  | nil => exact WellFormed.nil
  | cons c s ih =>
    have hc := h c (by simp)
    refine WellFormed.unit c s (by omega) ?_ ?_ (ih (fun d hd => h d (by simp [hd])))
    · simp [isHighSurrogate]; omega
    · simp [isLowSurrogate]; omega

theorem utf8DecodeFrom_start_unit (c : Nat) (rest : List Nat) (h1 : c < 65536)
    (h2 : isHighSurrogate c = false) (h3 : isLowSurrogate c = false) :
    ∃ bytes, (∀ paired s, paired = false →
        utf8EncodeFrom paired (c :: s) = bytes ++ utf8EncodeFrom false s) ∧
      utf8DecodeFrom DecoderState.start (bytes ++ rest)
        = c :: utf8DecodeFrom DecoderState.start rest := by
  simp only [isHighSurrogate, isLowSurrogate, Bool.and_eq_false_iff, decide_eq_false_iff_not,
    not_le] at h2 h3
  have hh : isHighSurrogate c = false := by
    simp [isHighSurrogate]; omega
  have hl : isLowSurrogate c = false := by
    simp [isLowSurrogate]; omega
  by_cases a1 : c < 0x80
  · refine ⟨[c], ?_, ?_⟩
    · intro paired s hp
      subst hp
      simp [utf8EncodeFrom, hh, hl, a1]
    · simp [utf8DecodeFrom, decodeStep, leadByte, DecoderState.start, a1]
  · by_cases a2 : c < 0x800
    · refine ⟨[0xC0 + c / 64, 0x80 + c % 64], ?_, ?_⟩
      · intro paired s hp
        subst hp
        simp [utf8EncodeFrom, hh, hl, a1, a2]
      · have b1 : ¬ (0xC0 + c / 64 < 0x80) := by omega
        have b2 : 0xC2 ≤ 0xC0 + c / 64 ∧ 0xC0 + c / 64 ≤ 0xDF := by omega
        have b3 : 0x80 ≤ 0x80 + c % 64 ∧ 0x80 + c % 64 ≤ 0xBF := by omega
        have b4 : (0xC0 + c / 64 - 0xC0) * 64 + (0x80 + c % 64 - 0x80) = c := by omega
        have b5 : c < 0x10000 := by omega
        simp only [List.cons_append, List.nil_append, utf8DecodeFrom, decodeStep, leadByte,
          DecoderState.start, if_true, if_neg b1, if_pos b2, if_pos b3, b4, codeUnits,
          if_pos b5, one_ne_zero, if_false, List.append_nil, List.singleton_append]
        rfl
    · refine ⟨[0xE0 + c / 4096, 0x80 + c / 64 % 64, 0x80 + c % 64], ?_, ?_⟩
      · intro paired s hp
        subst hp
        simp [utf8EncodeFrom, hh, hl, a1, a2]
      · have b1 : ¬ (0xE0 + c / 4096 < 0x80) := by omega
        have b2 : ¬ (0xC2 ≤ 0xE0 + c / 4096 ∧ 0xE0 + c / 4096 ≤ 0xDF) := by omega
        have b3 : 0xE0 ≤ 0xE0 + c / 4096 ∧ 0xE0 + c / 4096 ≤ 0xEF := by omega
        have b4 : (if 0xE0 + c / 4096 = 0xE0 then 0xA0 else 0x80) ≤ 0x80 + c / 64 % 64 ∧
            0x80 + c / 64 % 64 ≤ (if 0xE0 + c / 4096 = 0xED then 0x9F else 0xBF) := by
          split_ifs <;> omega
        have b5 : 0x80 ≤ 0x80 + c % 64 ∧ 0x80 + c % 64 ≤ 0xBF := by omega
        have b6 : ((0xE0 + c / 4096 - 0xE0) * 64 + (0x80 + c / 64 % 64 - 0x80)) * 64
            + (0x80 + c % 64 - 0x80) = c := by omega
        have b7 : c < 0x10000 := by omega
        simp only [List.cons_append, List.nil_append, utf8DecodeFrom, decodeStep, leadByte,
          DecoderState.start, if_true, if_neg b1, if_neg b2, if_pos b3, if_pos b4, if_pos b5,
          b6, codeUnits, if_pos b7, if_false, List.append_nil, List.singleton_append,
          Nat.reduceSub, Nat.reduceEqDiff, OfNat.ofNat_ne_zero, OfNat.ofNat_ne_one,
          one_ne_zero]
        rfl

theorem utf8DecodeFrom_start_pair (h l : Nat) (rest : List Nat)
    (hh : isHighSurrogate h = true) (hl : isLowSurrogate l = true) :
    ∃ bytes, (∀ s, utf8EncodeFrom false (h :: l :: s) = bytes ++ utf8EncodeFrom false s) ∧
      utf8DecodeFrom DecoderState.start (bytes ++ rest)
        = h :: l :: utf8DecodeFrom DecoderState.start rest := by
  have h2 := hh
  have h3 := hl
  simp only [isHighSurrogate, isLowSurrogate, Bool.and_eq_true, decide_eq_true_eq] at h2 h3
  refine ⟨[0xF0 + (0x10000 + (h - 0xD800) * 1024 + (l - 0xDC00)) / 262144,
    0x80 + (0x10000 + (h - 0xD800) * 1024 + (l - 0xDC00)) / 4096 % 64,
    0x80 + (0x10000 + (h - 0xD800) * 1024 + (l - 0xDC00)) / 64 % 64,
    0x80 + (0x10000 + (h - 0xD800) * 1024 + (l - 0xDC00)) % 64], ?_, ?_⟩
  · intro s
    simp [utf8EncodeFrom, hh, hl, nextIsLow]
  · generalize hcp : 0x10000 + (h - 0xD800) * 1024 + (l - 0xDC00) = cp
    have c1 : 0x10000 ≤ cp ∧ cp < 0x110000 := by omega
    have b1 : ¬ (0xF0 + cp / 262144 < 0x80) := by omega
    have b2 : ¬ (0xC2 ≤ 0xF0 + cp / 262144 ∧ 0xF0 + cp / 262144 ≤ 0xDF) := by omega
    have b3 : ¬ (0xE0 ≤ 0xF0 + cp / 262144 ∧ 0xF0 + cp / 262144 ≤ 0xEF) := by omega
    have b4 : 0xF0 ≤ 0xF0 + cp / 262144 ∧ 0xF0 + cp / 262144 ≤ 0xF4 := by omega
    have b5 : (if 0xF0 + cp / 262144 = 0xF0 then 0x90 else 0x80) ≤ 0x80 + cp / 4096 % 64 ∧
        0x80 + cp / 4096 % 64 ≤ (if 0xF0 + cp / 262144 = 0xF4 then 0x8F else 0xBF) := by
      split_ifs <;> omega
    have b6 : 0x80 ≤ 0x80 + cp / 64 % 64 ∧ 0x80 + cp / 64 % 64 ≤ 0xBF := by omega
    have b7 : 0x80 ≤ 0x80 + cp % 64 ∧ 0x80 + cp % 64 ≤ 0xBF := by omega
    have b8 : (((0xF0 + cp / 262144 - 0xF0) * 64 + (0x80 + cp / 4096 % 64 - 0x80)) * 64
        + (0x80 + cp / 64 % 64 - 0x80)) * 64 + (0x80 + cp % 64 - 0x80) = cp := by omega
    have b9 : ¬ cp < 0x10000 := by omega
    have b10 : 0xD800 + (cp - 0x10000) / 1024 = h := by omega
    have b11 : 0xDC00 + (cp - 0x10000) % 1024 = l := by omega
    simp only [List.cons_append, List.nil_append, utf8DecodeFrom, decodeStep, leadByte,
      DecoderState.start, if_true, if_neg b1, if_neg b2, if_neg b3, if_pos b4, if_pos b5,
      if_pos b6, if_pos b7, b8, codeUnits, if_neg b9, b10, b11, if_false, List.append_nil,
      List.singleton_append, Nat.reduceSub, Nat.reduceEqDiff, OfNat.ofNat_ne_zero,
      OfNat.ofNat_ne_one, one_ne_zero]
    rfl

/-- Reading with `'utf8'` what was written with `'utf8'` gives the text back when
the text is well-formed UTF-16. -/
theorem utf8Decode_utf8Encode (s : JSString) (h : WellFormed s) :
    utf8Decode (utf8Encode s) = s := by
  unfold utf8Decode utf8Encode
  induction h with
  | nil => simp [utf8EncodeFrom, utf8DecodeFrom, DecoderState.start]
  | unit c s h1 h2 h3 _ ih =>
    obtain ⟨bytes, he, hd⟩ := utf8DecodeFrom_start_unit c (utf8EncodeFrom false s) h1 h2 h3
    rw [he false s rfl, hd, ih]
  | pair h l s h1 h2 _ ih =>
    obtain ⟨bytes, he, hd⟩ := utf8DecodeFrom_start_pair h l (utf8EncodeFrom false s) h1 h2
    rw [he s, hd, ih]

theorem wellFormed_cons_ascii (c : Nat) (s : JSString) (hc : c < 128) (hs : WellFormed s) :
    WellFormed (c :: s) :=
  WellFormed.unit c s (by omega) (by simp [isHighSurrogate]; omega)
    (by simp [isLowSurrogate]; omega) hs

theorem hexDigit_lt (n : Nat) (h : n < 16) : hexDigit n < 128 := by
  unfold hexDigit
  split <;> omega

theorem wellFormed_escapeUnit (c : Nat) (s : JSString) (hc : c < 65536)
    (hs : WellFormed s) : WellFormed (escapeUnit c ++ s) := by
  unfold escapeUnit
  split_ifs with h8 h9 h10 h12 h13 h34 h92 hesc
  all_goals first
    | exact wellFormed_cons_ascii _ _ (by decide) (wellFormed_cons_ascii _ _ (by decide) hs)
    | skip
  · unfold unicodeEscape
    exact wellFormed_cons_ascii _ _ (by decide) (wellFormed_cons_ascii _ _ (by decide)
      (wellFormed_cons_ascii _ _ (hexDigit_lt _ (Nat.mod_lt _ (by decide)))
        (wellFormed_cons_ascii _ _ (hexDigit_lt _ (Nat.mod_lt _ (by decide)))
          (wellFormed_cons_ascii _ _ (hexDigit_lt _ (Nat.mod_lt _ (by decide)))
            (wellFormed_cons_ascii _ _ (hexDigit_lt _ (Nat.mod_lt _ (by decide))) hs)))))
  · simp only [Bool.or_eq_true, decide_eq_true_eq, not_or, Bool.not_eq_true] at hesc
    exact WellFormed.unit c s hc hesc.1.2 hesc.2 hs

theorem wellFormed_quoteFrom (tail : JSString) (ht : WellFormed tail) :
    ∀ n (s : JSString), s.length ≤ n → validString s = true →
      WellFormed (quoteFrom false s ++ tail) := by
  intro n
  induction n with
  | zero =>
    intro s hlen _
    have : s = [] := List.length_eq_zero.mp (by omega)
    subst this
    exact ht
  | succ n ih =>
    intro s hlen hv
    cases s with
    | nil => exact ht
    | cons c r =>
      have hvc : c < 65536 ∧ validString r = true := by
        simpa [validString] using hv
      have hr : r.length ≤ n := by simp at hlen; omega
      unfold quoteFrom
      simp only [Bool.false_and, Bool.false_eq_true, if_false]
      by_cases h2 : (isHighSurrogate c && nextIsLow r) = true
      · rw [if_pos h2]
        simp only [Bool.and_eq_true] at h2
        cases r with
        | nil => simp [nextIsLow] at h2
        | cons d r2 =>
          have hd : isLowSurrogate d = true := h2.2
          have hvd : validString r2 = true := by
            have := hvc.2
            simp only [validString, List.all_cons, Bool.and_eq_true] at this
            exact this.2
          unfold quoteFrom
          simp only [Bool.true_and, hd, if_true, List.cons_append]
          exact WellFormed.pair c d _ h2.1 hd (ih r2 (by simp at hr; omega) hvd)
      · rw [if_neg h2, List.append_assoc]
        exact wellFormed_escapeUnit c _ hvc.1 (ih r hr hvc.2)

theorem wellFormed_quote (s tail : JSString) (hs : validString s = true)
    (ht : WellFormed tail) : WellFormed (quote s ++ tail) := by
  unfold quote
  simp only [List.cons_append, List.append_assoc, List.nil_append]
  exact wellFormed_cons_ascii 34 _ (by decide)
    (wellFormed_quoteFrom _ (wellFormed_cons_ascii 34 _ (by decide) ht) s.length s
      (Nat.le_refl _) hs)

theorem wellFormed_ascii_append (a tail : JSString) (ha : ∀ c ∈ a, c < 128)
    (ht : WellFormed tail) : WellFormed (a ++ tail) :=
  wellFormed_append a tail (wellFormed_ascii a ha) ht

theorem newline_ascii (level : Nat) : ∀ c ∈ newline level, c < 128 := by
  intro c hc
  simp only [newline, List.mem_cons, List.mem_replicate] at hc
  rcases hc with rfl | ⟨_, rfl⟩ <;> decide

theorem natToStr_ascii (n : Nat) : ∀ c ∈ natToStr n, c < 128 := by
  have h := (natToStr_spec n).1
  rw [List.all_eq_true] at h
  intro c hc
  have := h c hc
  simp only [isDigit, Bool.and_eq_true, decide_eq_true_eq] at this
  omega

theorem intToStr_ascii (n : Int) : ∀ c ∈ intToStr n, c < 128 := by
  cases n with
  | ofNat m => exact natToStr_ascii m
  | negSucc m =>
    intro c hc
    simp only [intToStr, List.mem_cons] at hc
    rcases hc with rfl | hc
    · decide
    · exact natToStr_ascii _ c hc

theorem wellFormed_stringifyValue :
    ∀ v, isJSON v = true → ∀ level tail, WellFormed tail →
      WellFormed (stringifyValue level v ++ tail) := by
  suffices h : ∀ n v, need v = n → isJSON v = true → ∀ level tail, WellFormed tail →
      WellFormed (stringifyValue level v ++ tail) from fun v => h _ v rfl
  intro n
  induction n using Nat.strong_induction_on with
  | _ n ih =>
    intro v hn hj level tail ht
    cases v with
    | null =>
      exact wellFormed_ascii_append _ _ (by simp only [stringifyValue]; decide) ht
    | bool b =>
      cases b
      · exact wellFormed_ascii_append _ _ (by simp only [stringifyValue]; decide) ht
      · exact wellFormed_ascii_append _ _ (by simp only [stringifyValue]; decide) ht
    | num m =>
      exact wellFormed_ascii_append _ _ (by simp only [stringifyValue]; exact intToStr_ascii m) ht
    | str s =>
      simp only [stringifyValue]
      exact wellFormed_quote s tail (by simpa [isJSON] using hj) ht
    | arr items props =>
      simp only [isJSON, Bool.and_eq_true] at hj
      cases items with
      | nil => exact wellFormed_ascii_append _ _ (by simp only [stringifyValue]; decide) ht
      | cons x xs =>
        have hsub : ∀ y ∈ x :: xs, ∀ l t, WellFormed t →
            WellFormed (stringifyValue l y ++ t) := by
          intro y hy l t
          have hlt := need_lt_of_mem_items (x :: xs) y hy
          exact ih (need y) (by rw [← hn]; simpa [need] using hlt) y rfl
            (isJSON_of_mem_items _ hj.2 y hy) l t
        have hitems : ∀ (ys : List JSValue) (l : Nat) (t : JSString),
            (∀ y ∈ ys, ∀ l t, WellFormed t → WellFormed (stringifyValue l y ++ t)) →
            WellFormed t → WellFormed (stringifyItems l ys ++ t) := by
          intro ys l t
          induction ys with
          | nil => intro _ h; exact h
          | cons y ys ihy =>
            intro hy h
            simp only [stringifyItems, List.cons_append, List.append_assoc]
            exact wellFormed_cons_ascii 44 _ (by decide)
              (wellFormed_ascii_append _ _ (newline_ascii l)
                (hy y (by simp) l _ (ihy (fun z hz => hy z (by simp [hz])) h)))
        simp only [stringifyValue, List.cons_append, List.append_assoc]
        exact wellFormed_cons_ascii 91 _ (by decide)
          (wellFormed_ascii_append _ _ (newline_ascii _)
            (hsub x (by simp) _ _
              (hitems xs _ _ (fun z hz => hsub z (by simp [hz]))
                (wellFormed_ascii_append _ _ (newline_ascii _)
                  (wellFormed_cons_ascii 93 _ (by decide) ht)))))
    | obj ps =>
      simp only [isJSON, Bool.and_eq_true] at hj
      cases ps with
      | nil => exact wellFormed_ascii_append _ _ (by simp only [stringifyValue]; decide) ht
      | cons p ps =>
        obtain ⟨k, v⟩ := p
        have hsub : ∀ q ∈ (k, v) :: ps, validString q.1 = true ∧ ∀ l t, WellFormed t →
            WellFormed (stringifyValue l q.2 ++ t) := by
          intro q hq
          have hlt := need_lt_of_mem_props ((k, v) :: ps) q hq
          have hq2 := isJSON_of_mem_props _ hj.2 q hq
          exact ⟨hq2.1, fun l t =>
            ih (need q.2) (by rw [← hn]; simpa [need] using hlt) q.2 rfl hq2.2 l t⟩
        have hmembers : ∀ (qs : Props) (l : Nat) (t : JSString),
            (∀ q ∈ qs, validString q.1 = true ∧ ∀ l t, WellFormed t →
              WellFormed (stringifyValue l q.2 ++ t)) →
            WellFormed t → WellFormed (stringifyMembers l qs ++ t) := by
          intro qs l t
          induction qs with
          | nil => intro _ h; exact h
          | cons q qs ihq =>
            obtain ⟨k2, v2⟩ := q
            intro hq h
            simp only [stringifyMembers, List.cons_append, List.append_assoc]
            exact wellFormed_cons_ascii 44 _ (by decide)
              (wellFormed_ascii_append _ _ (newline_ascii l)
                (wellFormed_quote k2 _ (hq (k2, v2) (by simp)).1
                  (wellFormed_cons_ascii 58 _ (by decide)
                    (wellFormed_cons_ascii 32 _ (by decide)
                      ((hq (k2, v2) (by simp)).2 l _
                        (ihq (fun z hz => hq z (by simp [hz])) h))))))
        simp only [stringifyValue, List.cons_append, List.append_assoc]
        exact wellFormed_cons_ascii 123 _ (by decide)
          (wellFormed_ascii_append _ _ (newline_ascii _)
            (wellFormed_quote k _ (hsub (k, v) (by simp)).1
              (wellFormed_cons_ascii 58 _ (by decide)
                (wellFormed_cons_ascii 32 _ (by decide)
                  ((hsub (k, v) (by simp)).2 _ _
                    (hmembers ps _ _ (fun z hz => hsub z (by simp [hz]))
                      (wellFormed_ascii_append _ _ (newline_ascii _)
                        (wellFormed_cons_ascii 125 _ (by decide) ht))))))))

theorem wellFormed_stringify (v : JSValue) (h : isJSON v = true) :
    WellFormed (JSON.stringify v) := by
  have := wellFormed_stringifyValue v h 0 [] WellFormed.nil
  rw [List.append_nil] at this
  exact this

/-! ## C4: the size of the document `writeStateSafe` leaves -/

theorem writeStateSafe_files (st : JSValue) (w : World) :
    (writeStateSafe st w).files STATE_PATH = some (utf8Encode (encodeState st)) ∧
    (writeStateSafe st w).now = w.now := by
  have n3 := tmp_ne_STATE_PATH
  simp [writeStateSafe, writeFileSync, renameSync, encodeState, n3, Ne.symm n3]

theorem readStateSafe_large (w : World) (bytes : List Nat)
    (hf : w.files STATE_PATH = some bytes) (hsz : bytes.length > MAX_STATE_BYTES) :
    readStateSafe w = (defaultState, rotateState (lit "oversize") w) := by
  simp [readStateSafe, existsSync, statSize, hf, hsz]

theorem readStateSafe_small (w : World) (bytes : List Nat)
    (hf : w.files STATE_PATH = some bytes) (hsz : bytes.length ≤ MAX_STATE_BYTES) :
    readStateSafe w =
      match decodeState (utf8Decode bytes) with
      | none => (defaultState, rotateState (lit "parsefail") w)
      | some state => (state, w) := by
  have hsz2 : ¬ bytes.length > MAX_STATE_BYTES := by omega
  simp only [readStateSafe, existsSync, statSize, readFileSync, hf, Option.isSome_some, if_true,
    Option.map_some', hsz2, if_false, decodeState]
  cases JSON.parse (orNullText (stripBOM (utf8Decode bytes))) <;> rfl

theorem length_escapeUnit (c : Nat) : 1 ≤ (escapeUnit c).length := by
  unfold escapeUnit
  split_ifs <;> simp [unicodeEscape]

theorem length_quoteFrom (s : JSString) : ∀ paired, s.length ≤ (quoteFrom paired s).length := by
  induction s with
  | nil => intro _; simp [quoteFrom]
  | cons c r ih =>
    intro paired
    unfold quoteFrom
    split_ifs
    · have := ih false
      simp only [List.length_cons]
      omega
    · have := ih true
      simp only [List.length_cons]
      omega
    · have := ih false
      have := length_escapeUnit c
      simp only [List.length_cons, List.length_append]
      omega

theorem length_utf8EncodeFrom (s : JSString) :
    ∀ paired, s.length ≤ (utf8EncodeFrom paired s).length + (if paired = true then 1 else 0) := by
  induction s with
  | nil => intro _; simp [utf8EncodeFrom]
  | cons c r ih =>
    intro paired
    have i1 := ih false
    have i2 := ih true
    simp only [Bool.false_eq_true, if_false, if_true, Nat.add_zero] at i1 i2
    unfold utf8EncodeFrom
    by_cases h1 : (paired && isLowSurrogate c) = true
    · rw [if_pos h1]
      simp only [Bool.and_eq_true] at h1
      simp only [h1.1, if_true, List.length_cons]
      omega
    · rw [if_neg h1]
      have hfin : ∀ k : Nat, (c :: r).length ≤ k + 1 →
          (c :: r).length ≤ k + 1 + (if paired = true then 1 else 0) := by
        intro k hk
        omega
      by_cases h2 : (isHighSurrogate c && nextIsLow r) = true
      · rw [if_pos h2]
        cases r with
        | nil => simp [nextIsLow] at h2
        | cons d r2 =>
          simp only [List.length_cons, List.length_append, List.length_nil] at i2 ⊢
          omega
      · rw [if_neg h2]
        split_ifs <;>
          (simp only [List.length_cons, List.length_append, List.length_nil]; omega)

theorem length_utf8Encode (s : JSString) : s.length ≤ (utf8Encode s).length := by
  have := length_utf8EncodeFrom s false
  simpa [utf8Encode] using this

theorem compactState_background (b : JSString) :
    compactState (obj [(lit "background", str b)])
      = obj [(lit "background", str b), (lit "stickies", arr [] []), (lit "notes", arr [] []),
          (lit "version", num 1)] := by
  rfl

theorem length_encodeState_background (b : JSString) :
    b.length ≤ (utf8Encode (encodeState (obj [(lit "background", str b)]))).length := by
  refine Nat.le_trans ?_ (length_utf8Encode _)
  have hq := length_quoteFrom b false
  simp only [encodeState, orEmptyObject, truthy, if_true, compactState_background,
    JSON.stringify, stringifyValue, quote, List.length_cons, List.length_append]
  omega

theorem wellFormed_encodeState (ps : Props) (h : isJSON (obj ps) = true) :
    WellFormed (encodeState (obj ps)) := by
  obtain ⟨qs, hqs, hj⟩ := isJSON_compactState ps h
  have he : encodeState (obj ps) = JSON.stringify (obj qs) := by
    simp only [encodeState, orEmptyObject, truthy, if_true, hqs]
  rw [he]
  exact wellFormed_stringify _ hj

theorem length_bigState :
    (utf8Encode (encodeState bigState)).length > MAX_STATE_BYTES := by
  have h := length_encodeState_background (List.replicate (MAX_STATE_BYTES + 1) 97)
  rw [List.length_replicate] at h
  unfold bigState
  omega

theorem compactState_bigState_ne : compactState bigState ≠ defaultState := by
  intro h
  have h1 := congrArg (fun s => getNamed s (lit "theme")) h
  simp only [getNamed_compactState_other _ _ (show lit "theme" ≠ lit "stickies" by decide)
    (show lit "theme" ≠ lit "notes" by decide) (show lit "theme" ≠ lit "version" by decide)]
    at h1
  revert h1
  decide

/-- C4, as stated, fails: `writeStateSafe` writes a state whose `background` has
`MAX_STATE_BYTES + 1` characters as it is; the document left at `STATE_PATH` is
larger than `MAX_STATE_BYTES`, and the following `readStateSafe` returns the default
state, not `compactState` of the state saved. -/
theorem writeStateSafe_oversize_document :
    (∃ doc, (writeStateSafe bigState emptyWorld).files STATE_PATH = some doc ∧
      doc.length > MAX_STATE_BYTES) ∧
    (readStateSafe (writeStateSafe bigState emptyWorld)).1 = defaultState ∧
    compactState bigState ≠ defaultState := by
  have hf := (writeStateSafe_files bigState emptyWorld).1
  refine ⟨⟨_, hf, length_bigState⟩, ?_, compactState_bigState_ne⟩
  rw [readStateSafe_large _ _ hf length_bigState]

/-- C4, amended: the byte ceiling is applied when the state is read, not when it is
written. For every state `s` that is a JSON object, `writeStateSafe(s)` leaves at
`STATE_PATH` the UTF-8 bytes of `JSON.stringify(compactState(s), null, 2)` whatever
their number; when they are at most `MAX_STATE_BYTES`, the following
`readStateSafe` returns `compactState(s)` and leaves the files as they are; when
they are more, it returns `defaultState()`, the document is then under
`STATE_PATH.oversize.<now>.bak` and `STATE_PATH` holds the serialised defaults. -/
theorem writeStateSafe_then_readStateSafe (ps : Props) (w : World)
    (h : isJSON (obj ps) = true) :
    (writeStateSafe (obj ps) w).files STATE_PATH
      = some (utf8Encode (encodeState (obj ps))) ∧
    ((utf8Encode (encodeState (obj ps))).length ≤ MAX_STATE_BYTES →
      readStateSafe (writeStateSafe (obj ps) w)
        = (compactState (obj ps), writeStateSafe (obj ps) w)) ∧
    ((utf8Encode (encodeState (obj ps))).length > MAX_STATE_BYTES →
      (readStateSafe (writeStateSafe (obj ps) w)).1 = defaultState ∧
      (readStateSafe (writeStateSafe (obj ps) w)).2.files (rotatedPath (lit "oversize") w.now)
        = some (utf8Encode (encodeState (obj ps))) ∧
      (readStateSafe (writeStateSafe (obj ps) w)).2.files STATE_PATH
        = some (utf8Encode (JSON.stringify defaultState))) := by
  obtain ⟨hf, hnow⟩ := writeStateSafe_files (obj ps) w
  refine ⟨hf, ?_, ?_⟩
  · intro hsz
    rw [readStateSafe_small _ _ hf hsz, utf8Decode_utf8Encode _ (wellFormed_encodeState ps h),
      decode_encode_object ps h]
  · intro hsz
    rw [readStateSafe_large _ _ hf hsz]
    have hr := rotateState_files (lit "oversize") _ _ hf
    rw [hnow] at hr
    exact ⟨rfl, hr.1, hr.2.1⟩

set_option maxRecDepth 100000 in
theorem length_sampleState :
    (utf8Encode (encodeState sampleState)).length ≤ MAX_STATE_BYTES := by
  decide

/-- C4 at a small state saved into an empty directory: the document is written and
read back as `compactState` of the state. -/
theorem writeStateSafe_then_readStateSafe_sampleState :
    (writeStateSafe sampleState emptyWorld).files STATE_PATH
      = some (utf8Encode (encodeState sampleState)) ∧
    readStateSafe (writeStateSafe sampleState emptyWorld)
      = (sampleCompact, writeStateSafe sampleState emptyWorld) :=
  have h := writeStateSafe_then_readStateSafe _ emptyWorld
    (show isJSON sampleState = true by decide)
  ⟨h.1, by rw [← compactState_sampleState]; exact h.2.1 length_sampleState⟩

/-! ## The asset lister -/

theorem relOf_ne_nil (d : JSString) (ds : List JSString) (h : d ≠ []) : relOf (d :: ds) ≠ [] := by
  cases ds with
  | nil => simpa [relOf] using h
  | cons e es => simp [relOf, h]

theorem relOf_append (above : List JSString) (name : JSString)
    (h : ∀ d ∈ above, d ≠ []) :
    relOf (above ++ [name])
      = if relOf above ≠ [] then joinPath (relOf above) name else name := by
  induction above with
  | nil => simp [relOf]
  | cons d ds ih =>
    have hd : d ≠ [] := h d (List.mem_cons_self _ _)
    rw [if_pos (relOf_ne_nil d ds hd)]
    cases ds with
    | nil => simp [relOf, joinPath]
    | cons e es =>
      have ih2 := ih (fun x hx => h x (List.mem_cons_of_mem _ hx))
      have he : e ≠ [] := h e (by simp)
      rw [if_pos (relOf_ne_nil e es he)] at ih2
      show d ++ lit "\\" ++ relOf (e :: es ++ [name]) = _
      simp only [List.cons_append] at ih2 ⊢
      rw [ih2]
      simp [relOf, joinPath, List.append_assoc]

theorem joinPath_dirOf (above : List JSString) (name : JSString)
    (h : ∀ d ∈ above, d ≠ []) :
    joinPath (dirOf above) name = joinPath STAND_DIR (relOf (above ++ [name])) := by
  rw [relOf_append above name h]
  unfold dirOf
  cases above with
  | nil => simp [relOf]
  | cons d ds =>
    have hd : d ≠ [] := h d (List.mem_cons_self _ _)
    rw [if_pos (relOf_ne_nil d ds hd), if_neg (by simp)]
    simp [joinPath, List.append_assoc]

theorem properName_ne_nil (name : JSString) (h : properName name = true) : name ≠ [] := by
  unfold properName at h
  simp only [Bool.and_eq_true, decide_eq_true_eq] at h
  exact h.1.1.1

mutual
theorem walkEntries_spec (fileUrl : JSString → JSString) (above : List JSString)
    (habove : ∀ d ∈ above, d ≠ []) :
    ∀ entries : List Entry, properEntries entries = true →
      walkEntries fileUrl (dirOf above) (relOf above) entries
        = ((filesOf above entries).filter (fun f => isImageName f.2)).map (itemOf fileUrl)
  | [], _ => by simp [walkEntries, filesOf]
  | ent :: rest, h => by
    rw [properEntries, Bool.and_eq_true] at h
    rw [walkEntries, filesOf, List.filter_append, List.map_append,
      walkEntry_spec fileUrl above habove ent h.1, walkEntries_spec fileUrl above habove rest h.2]
theorem walkEntry_spec (fileUrl : JSString → JSString) (above : List JSString)
    (habove : ∀ d ∈ above, d ≠ []) :
    ∀ ent : Entry, properEntry ent = true →
      walkEntry fileUrl (dirOf above) (relOf above) ent
        = ((filesOfEntry above ent).filter (fun f => isImageName f.2)).map (itemOf fileUrl)
  | Entry.file name, _ => by
    rw [walkEntry, filesOfEntry]
    by_cases hi : isImageName name = true
    · simp [hi, itemOf, joinPath_dirOf above name habove]
    · simp [hi]
  | Entry.dir name entries, h => by
    rw [properEntry, Bool.and_eq_true] at h
    have hn := properName_ne_nil name h.1
    have habove2 : ∀ d ∈ above ++ [name], d ≠ [] := by
      intro d hd
      rcases List.mem_append.1 hd with hd | hd
      · exact habove d hd
      · simp at hd; subst hd; exact hn
    have hw := walkEntries_spec fileUrl (above ++ [name]) habove2 entries h.2
    rw [walkEntry, filesOfEntry, ← hw]
    have hdir : dirOf (above ++ [name]) = joinPath (dirOf above) name := by
      rw [joinPath_dirOf above name habove]; simp [dirOf]
    rw [hdir, relOf_append above name habove]
end

/-- C11: for every directory tree under the asset root (entries with file names),
`listStand` (a total function: the walk is a structural recursion over the tree)
returns, in the order of the walk, exactly one item per file at any depth whose
`path.extname`, lower-cased, is in the allow-list, and nothing for the other files
and for the directories; the item has the file name, the absolute path below
`STAND_DIR`, its URL, and as `rel` the path of the parent directory relative to the
root (the empty string directly in the root). A missing root gives the empty list. -/
theorem listStand_items (fileUrl : JSString → JSString) (root : List Entry)
    (h : properEntries root = true) :
    listStand fileUrl (some root)
        = ((filesOf [] root).filter (fun f => isImageName f.2)).map (itemOf fileUrl)
      ∧ listStand fileUrl none = [] := by
  refine ⟨?_, rfl⟩
  have := walkEntries_spec fileUrl [] (by simp) root h
  simpa [listStand, dirOf, relOf] using this

set_option maxRecDepth 100000 in
theorem scenarioStand_images :
    ((filesOf [] scenarioStand).filter (fun f => isImageName f.2)).map (itemOf plainFileUrl)
      = [{ name := lit "a.png", path := lit "D:\\Echo\\stand\\a.png",
           url := lit "file:///D:/Echo/stand/a.png", rel := [] },
         { name := lit "b.jpg", path := lit "D:\\Echo\\stand\\sub\\b.jpg",
           url := lit "file:///D:/Echo/stand/sub/b.jpg", rel := lit "sub" }] := by
  decide

theorem properEntries_scenarioStand : properEntries scenarioStand = true := by
  decide

/-- C11 at the tree `a.png`, `sub/b.jpg`, `c.txt`: exactly two items, the second
with `rel` equal to `sub`. -/
theorem listStand_items_scenario :
    listStand plainFileUrl (some scenarioStand)
      = [{ name := lit "a.png", path := lit "D:\\Echo\\stand\\a.png",
           url := lit "file:///D:/Echo/stand/a.png", rel := [] },
         { name := lit "b.jpg", path := lit "D:\\Echo\\stand\\sub\\b.jpg",
           url := lit "file:///D:/Echo/stand/sub/b.jpg", rel := lit "sub" }]
      ∧ listStand plainFileUrl none = [] :=
  have h := listStand_items plainFileUrl scenarioStand properEntries_scenarioStand
  ⟨h.1.trans scenarioStand_images, h.2⟩

/-! ## The stand scale of the renderer -/

theorem clampScale_range (value : JSString) : 40 ≤ clampScale value ∧ clampScale value ≤ 200 := by
  unfold clampScale
  constructor
  · exact le_max_left _ _
  · exact max_le (by decide) (min_le_left _ _)

/-- The slider handler clamps: whatever the text of the slider, after the `input`
handler the scale of a stand object is an integer from 40 to 200. -/
theorem standScaleInput_clamped (value : JSString) (roomState : JSValue) (ps : Props)
    (h : getNamed roomState (lit "stand") = some (obj ps)) :
    ∃ v : Int, standScale (standScaleInput value roomState) = some (num v)
      ∧ 40 ≤ v ∧ v ≤ 200 := by
  refine ⟨clampScale value, ?_, clampScale_range value⟩
  have ho : isObjectValue roomState = true := by
    cases roomState <;> simp [getNamed] at h <;> rfl
  unfold standScaleInput assignStand standScale
  rw [h]
  simp only [List.foldl]
  rw [getNamed_setNamed_self _ _ _ ho]
  simp only [Option.bind]
  exact getNamed_setNamed_self _ _ _ rfl

theorem standScaleInput_clamped_initial :
    getNamed initialRoomState (lit "stand") = some (obj [
        (lit "visible", bool true), (lit "current", str []), (lit "x", num 480),
        (lit "y", num 280), (lit "scale", num 100), (lit "mirror", bool false)])
      ∧ ∃ v : Int, standScale (standScaleInput (lit "500") initialRoomState) = some (num v)
          ∧ 40 ≤ v ∧ v ≤ 200 :=
  ⟨by decide, standScaleInput_clamped (lit "500") initialRoomState [
      (lit "visible", bool true), (lit "current", str []), (lit "x", num 480),
      (lit "y", num 280), (lit "scale", num 100), (lit "mirror", bool false)] (by decide)⟩

/-- C13 fails at a `stand.set` record: from the initial `roomState` (scale 100), the
record `standSet500` of the log, which carries the numeric scale 500, leaves
`roomState.stand.scale` at 500, outside 40..200, at whatever time it arrives. -/
theorem onAppend_standSet_unclamped (now : Nat) :
    standScale initialRoomState = some (num 100)
      ∧ standScale (onAppend standSet500 now initialRoomState) = some (num 500) := by
  constructor
  · decide
  · rfl

/-- The merge of a snapshot does not clamp either: the stand of the snapshot
replaces the one of `roomState` as it is. -/
theorem mergeState_unclamped :
    standScale (mergeState wideSnapshot initialRoomState) = some (num 1000) := by
  decide

/-! ## The handlers under failing file-system calls -/

theorem run_pure_eq {α : Type} (a : α) : (pure a : Run α) = Run.pure a := rfl

theorem run_bind_eq {α β : Type} (m : Run α) (f : α → Run β) : (m >>= f) = Run.bind m f := rfl

theorem returns_pure {α : Type} (a : α) : Returns (Run.pure a) := fun s => ⟨a, s, rfl⟩

theorem returns_bind {α β : Type} (m : Run α) (f : α → Run β) (hm : Returns m)
    (hf : ∀ a, Returns (f a)) : Returns (Run.bind m f) := by
  intro s
  obtain ⟨a, s1, h1⟩ := hm s
  obtain ⟨b, s2, h2⟩ := hf a s1
  exact ⟨b, s2, by simp [Run.bind, h1, h2]⟩

theorem returns_attempt {α : Type} (body : Run α) (handler : Thrown → Run α)
    (hh : ∀ e, Returns (handler e)) : Returns (attempt body handler) := by
  intro s
  unfold attempt
  rcases hb : body s with ⟨r, s1⟩
  cases r with
  | ok a => exact ⟨a, s1, rfl⟩
  | error e => exact hh e s1

/-- A `try` whose body returns gives what the body gives. -/
theorem attempt_of_returns {α : Type} (body : Run α) (handler : Thrown → Run α) (s : Sys)
    (a : α) (s1 : Sys) (h : body s = (Except.ok a, s1)) :
    attempt body handler s = (Except.ok a, s1) := by
  simp [attempt, h]

theorem rotateStateM_returns (reason : JSString) : Returns (rotateStateM reason) :=
  returns_attempt _ _ fun _ => returns_pure ()

theorem writeStateSafeM_returns (st : JSValue) : Returns (writeStateSafeM st) :=
  returns_attempt _ _ fun _ => rotateStateM_returns _

theorem readStateSafeM_returns : Returns readStateSafeM :=
  returns_attempt _ _ fun _ =>
    returns_bind _ _ (rotateStateM_returns _) fun _ => returns_pure _

/-- The handler of `room:getState` returns a state under every outcome of its
file-system calls. -/
theorem roomGetState_returns : Returns roomGetState := readStateSafeM_returns

theorem gives_pure {α : Type} (a : α) (P : α → Prop) (h : P a) : Gives (Run.pure a) P := by
  intro s b s1 hb
  simp only [Run.pure, Prod.mk.injEq, Except.ok.injEq] at hb
  exact hb.1 ▸ h

theorem gives_bind {α β : Type} (m : Run α) (f : α → Run β) (P : β → Prop)
    (hf : ∀ a, Gives (f a) P) : Gives (Run.bind m f) P := by
  intro s b s2 hb
  unfold Run.bind at hb
  rcases hm : m s with ⟨r, s1⟩
  rw [hm] at hb
  cases r with
  | ok a => exact hf a s1 b s2 hb
  | error e => simp at hb

/-- A `try` whose `catch` returns a result made from the error: the statement
returns, with what the body gives or with that result. -/
theorem attempt_reports {α : Type} (body : Run α) (g : Thrown → α) (P : α → Prop)
    (hb : Gives body P) (s : Sys) :
    ∃ v s1, attempt body (fun e => Run.pure (g e)) s = (Except.ok v, s1)
      ∧ (P v ∨ ∃ e, v = g e) := by
  unfold attempt
  rcases h : body s with ⟨r, s1⟩
  cases r with
  | ok a => exact ⟨a, s1, rfl, Or.inl (hb s a s1 h)⟩
  | error e => exact ⟨g e, s1, rfl, Or.inr ⟨e, rfl⟩⟩

/-- The handler of `chat:send` returns under every outcome of its file-system
calls, and what it returns is `{ ok: true }` or `{ ok: false, error }`. -/
theorem chatSend_returns (text : Option JSString) (random : JSString) (s : Sys) :
    ∃ v s1, chatSend text random s = (Except.ok v, s1)
      ∧ (v = okReply ∨ ∃ e, v = failReply e) := by
  unfold chatSend
  simp only [run_bind_eq, run_pure_eq]
  apply attempt_reports _ failReply (fun v => v = okReply)
  exact gives_bind _ _ _ fun _ => gives_bind _ _ _ fun _ => gives_bind _ _ _ fun _ =>
    gives_pure _ _ rfl

/-- The handler of `room:saveState` returns `{ ok: true }` under every outcome of
its file-system calls: `writeStateSafe` catches what they throw. -/
theorem roomSaveState_returns (st : JSValue) (s : Sys) :
    ∃ s1, roomSaveState st s = (Except.ok okReply, s1) := by
  obtain ⟨u, s1, h⟩ := writeStateSafeM_returns (orEmptyObject st) s
  refine ⟨s1, ?_⟩
  unfold roomSaveState
  apply attempt_of_returns
  simp [run_bind_eq, run_pure_eq, Run.bind, h, Run.pure]

theorem fsCall_noFaults {α : Type} (op : World → Except Thrown (α × World)) (w : World) :
    fsCall op ⟨w, []⟩
      = match op w with
        | Except.ok (a, w1) => (Except.ok a, ⟨w1, []⟩)
        | Except.error e => (Except.error e, ⟨w, []⟩) := by
  unfold fsCall
  cases h : op w with
  | ok p => simp
  | error e => simp

theorem fsCall_fault {α : Type} (op : World → Except Thrown (α × World)) (w : World)
    (e : Thrown) (rest : List (Option Thrown)) :
    fsCall op ⟨w, some e :: rest⟩ = (Except.error e, ⟨w, rest⟩) := rfl

mutual
theorem walkEntriesM_noFaults (fileUrl : JSString → JSString) (w : World) :
    ∀ (entries : List Entry) (dir rel : JSString),
      walkEntriesM fileUrl dir rel entries ⟨w, []⟩
        = (Except.ok (walkEntries fileUrl dir rel entries), ⟨w, []⟩)
  | [], dir, rel => by simp [walkEntriesM, walkEntries, Run.pure]
  | ent :: rest, dir, rel => by
    rw [walkEntriesM, walkEntries]
    simp [Run.bind, walkEntryM_noFaults fileUrl w ent dir rel,
      walkEntriesM_noFaults fileUrl w rest dir rel, Run.pure]
theorem walkEntryM_noFaults (fileUrl : JSString → JSString) (w : World) :
    ∀ (ent : Entry) (dir rel : JSString),
      walkEntryM fileUrl dir rel ent ⟨w, []⟩
        = (Except.ok (walkEntry fileUrl dir rel ent), ⟨w, []⟩)
  | Entry.file name, dir, rel => by simp [walkEntryM, walkEntry, Run.pure]
  | Entry.dir name entries, dir, rel => by
    rw [walkEntryM, walkEntry]
    simp only [Run.bind, readdirSyncM, fsCall_noFaults]
    exact walkEntriesM_noFaults fileUrl w entries _ _
end

/-- When no file-system call throws, `listStand` returns the listing of the
directory tree. -/
theorem listStandM_noFaults (fileUrl : JSString → JSString) (root : Option (List Entry))
    (w : World) :
    listStandM fileUrl root ⟨w, []⟩ = (Except.ok (listStand fileUrl root), ⟨w, []⟩) := by
  cases root with
  | none => rfl
  | some entries =>
    simp only [listStandM, listStand, Run.bind, readdirSyncM, fsCall_noFaults]
    exact walkEntriesM_noFaults fileUrl w entries _ _

/-- When the first `readdirSync` throws, `listStand` throws. -/
theorem listStandM_fault (fileUrl : JSString → JSString) (entries : List Entry) (w : World)
    (e : Thrown) (rest : List (Option Thrown)) :
    listStandM fileUrl (some entries) ⟨w, some e :: rest⟩ = (Except.error e, ⟨w, rest⟩) := by
  simp only [listStandM, Run.bind, readdirSyncM, fsCall_fault]

/-- A `try` whose `catch` lists the asset directory again: the statement returns
what the body gives or `{ ok: false, items, error }`, or else it throws what
`listStand` throws in the `catch`. -/
theorem attempt_relists (fileUrl : JSString → JSString) (root : Option (List Entry))
    (body : Run JSValue) (P : JSValue → Prop) (hb : Gives body P) (s : Sys) :
    (∃ v s1, attempt body (fun e => Run.bind (listStandM fileUrl root) fun items =>
          Run.pure (failItems items e)) s = (Except.ok v, s1)
        ∧ (P v ∨ ∃ items e, v = failItems items e))
      ∨ ∃ e s1 s2, attempt body (fun e => Run.bind (listStandM fileUrl root) fun items =>
            Run.pure (failItems items e)) s = (Except.error e, s2)
          ∧ listStandM fileUrl root s1 = (Except.error e, s2) := by
  unfold attempt
  rcases h : body s with ⟨r, s1⟩
  cases r with
  | ok a => exact Or.inl ⟨a, s1, rfl, Or.inl (hb s a s1 h)⟩
  | error e =>
    rcases hl : listStandM fileUrl root s1 with ⟨r2, s2⟩
    cases r2 with
    | ok items =>
      exact Or.inl ⟨failItems items e, s2, by simp [Run.bind, hl, Run.pure],
        Or.inr ⟨items, e, rfl⟩⟩
    | error e2 => exact Or.inr ⟨e2, s1, s2, by simp [Run.bind, hl], hl⟩

/-- The handler of `stand:delete` returns `{ ok: true, items }`, or
`{ ok: false, items, error }` when a call of its `try` threw, unless `listStand`
throws in the `catch`: that exception goes to the caller. -/
theorem standDelete_outcome (fileUrl : JSString → JSString) (root : Option (List Entry))
    (filename : JSString) (s : Sys) :
    (∃ v s1, standDelete fileUrl root filename s = (Except.ok v, s1)
        ∧ ((∃ items, v = okItems items) ∨ ∃ items e, v = failItems items e))
      ∨ ∃ e s1 s2, standDelete fileUrl root filename s = (Except.error e, s2)
          ∧ listStandM fileUrl root s1 = (Except.error e, s2) := by
  unfold standDelete
  simp only [run_bind_eq, run_pure_eq]
  apply attempt_relists fileUrl root _ (fun v => ∃ items, v = okItems items)
  refine gives_bind _ _ _ fun b => ?_
  split <;>
    exact gives_bind _ _ _ fun _ => gives_bind _ _ _ fun items => gives_pure _ _ ⟨items, rfl⟩

/-- The handler of `stand:import` returns `{ ok: true, items }`, or
`{ ok: false, items, error }` when the dialog or a copy failed, unless `listStand`
throws in the `catch`: that exception goes to the caller. -/
theorem standImport_outcome (fileUrl : JSString → JSString) (root : Option (List Entry))
    (dialog : Except Thrown (Bool × List JSString)) (s : Sys) :
    (∃ v s1, standImport fileUrl root dialog s = (Except.ok v, s1)
        ∧ ((∃ items, v = okItems items) ∨ ∃ items e, v = failItems items e))
      ∨ ∃ e s1 s2, standImport fileUrl root dialog s = (Except.error e, s2)
          ∧ listStandM fileUrl root s1 = (Except.error e, s2) := by
  unfold standImport
  simp only [run_bind_eq, run_pure_eq]
  apply attempt_relists fileUrl root _ (fun v => ∃ items, v = okItems items)
  split <;> refine gives_bind _ _ _ fun res => ?_ <;> split
  all_goals first
    | exact gives_bind _ _ _ fun items => gives_pure _ _ ⟨items, rfl⟩
    | exact gives_bind _ _ _ fun _ => gives_bind _ _ _ fun items => gives_pure _ _ ⟨items, rfl⟩

theorem writeFileSyncM_noFaults (p text : JSString) (w : World) :
    writeFileSyncM p text ⟨w, []⟩ = (Except.ok (), ⟨writeFileSync w p text, []⟩) := rfl

theorem renameSyncM_noFaults (a b : JSString) (w : World) :
    renameSyncM a b ⟨w, []⟩
      = if (renameSync w a b).1 = true then (Except.ok (), ⟨(renameSync w a b).2, []⟩)
        else (Except.error enoent, ⟨w, []⟩) := by
  unfold renameSyncM
  rw [fsCall_noFaults]
  rcases h : renameSync w a b with ⟨r, w1⟩
  cases r <;> simp

theorem renameSync_fails (a b : JSString) (w : World) (h : (renameSync w a b).1 = false) :
    (renameSync w a b).2 = w := by
  unfold renameSync at h ⊢
  cases hf : w.files a with
  | none => rfl
  | some bytes => simp [hf] at h

/-- When no file-system call throws by a fault, `rotateState` does to the files
what the plain model of the store does. -/
theorem rotateStateM_noFaults (reason : JSString) (w : World) :
    rotateStateM reason ⟨w, []⟩ = (Except.ok (), ⟨rotateState reason w, []⟩) := by
  unfold rotateStateM rotateState attempt
  simp only [run_bind_eq, run_pure_eq, Run.bind, nowM, existsSyncM]
  by_cases hex : existsSync w STATE_PATH = true
  · simp only [hex, if_true, renameSyncM_noFaults, Run.bind]
    rcases hr : renameSync w STATE_PATH (rotatedPath reason w.now) with ⟨r, w1⟩
    cases r
    · have := renameSync_fails _ _ _ (by rw [hr])
      rw [hr] at this
      simp only at this
      subst this
      simp [Run.pure]
    · simp only [if_true, writeFileSyncM_noFaults, renameSyncM_noFaults, Run.bind]
      rcases hr2 : renameSync (writeFileSync w1 (STATE_PATH ++ lit ".tmp")
        (JSON.stringify defaultState)) (STATE_PATH ++ lit ".tmp") STATE_PATH with ⟨r2, w2⟩
      cases r2
      · have := renameSync_fails _ _ _ (by rw [hr2])
        rw [hr2] at this
        simp only at this
        subst this
        simp [Run.pure]
      · simp [Run.pure]
  · simp only [hex, Bool.false_eq_true, if_false, Run.pure, writeFileSyncM_noFaults,
      renameSyncM_noFaults, Run.bind]
    rcases hr2 : renameSync (writeFileSync w (STATE_PATH ++ lit ".tmp")
      (JSON.stringify defaultState)) (STATE_PATH ++ lit ".tmp") STATE_PATH with ⟨r2, w2⟩
    cases r2
    · have := renameSync_fails _ _ _ (by rw [hr2])
      rw [hr2] at this
      simp only at this
      subst this
      simp [Run.pure]
    · simp [Run.pure]

/-- When no file-system call throws by a fault, `writeStateSafe` does to the files
what the plain model of the store does. -/
theorem writeStateSafeM_noFaults (st : JSValue) (w : World) :
    writeStateSafeM st ⟨w, []⟩ = (Except.ok (), ⟨writeStateSafe st w, []⟩) := by
  unfold writeStateSafeM writeStateSafe attempt
  simp only [run_bind_eq, run_pure_eq, Run.bind, ensureDirM, fsCall_noFaults,
    writeFileSyncM_noFaults, renameSyncM_noFaults]
  rcases hr : renameSync (writeFileSync w (STATE_PATH ++ lit ".tmp")
    (JSON.stringify (compactState (orEmptyObject st)))) (STATE_PATH ++ lit ".tmp")
    STATE_PATH with ⟨r, w1⟩
  cases r
  · have := renameSync_fails _ _ _ (by rw [hr])
    rw [hr] at this
    simp only at this
    subst this
    simp [rotateStateM_noFaults]
  · simp

/-- When no file-system call throws by a fault, `readStateSafe` returns the state
and leaves the files that the plain model of the store gives. -/
theorem readStateSafeM_noFaults (w : World) :
    readStateSafeM ⟨w, []⟩ = (Except.ok (readStateSafe w).1, ⟨(readStateSafe w).2, []⟩) := by
  unfold readStateSafeM readStateSafe attempt
  simp only [run_bind_eq, run_pure_eq, Run.bind, existsSyncM]
  by_cases hex : existsSync w STATE_PATH = true
  · simp only [hex, if_true, statSyncM, readFileSyncM, fsCall_noFaults, Run.bind]
    cases hs : statSize w STATE_PATH with
    | none => simp [Run.bind, rotateStateM_noFaults, Run.pure]
    | some size =>
      by_cases hsz : size > MAX_STATE_BYTES
      · simp [hsz, Run.bind, rotateStateM_noFaults, Run.pure]
      · simp only [hsz, if_false, Run.bind, fsCall_noFaults]
        cases hrd : readFileSync w STATE_PATH with
        | none => simp [Run.bind, rotateStateM_noFaults, Run.pure]
        | some raw =>
          cases hp : JSON.parse (orNullText (stripBOM raw)) with
          | none => simp [Run.bind, rotateStateM_noFaults, Run.pure, throwM, hp]
          | some parsed => simp [Run.pure, hp]
  · simp [hex, Run.bind, writeStateSafeM_noFaults, Run.pure]

/-- The handler of `room:getEnv` has no `try`: when the directory `DECOR` is gone
the error of `readdirSync` goes to the caller instead of a value, and so does
whatever else `readdirSync` throws. -/
theorem roomGetEnv_propagates (fileUrl : JSString → JSString) (w : World)
    (decor : Option (List JSString)) (e : Thrown) (rest : List (Option Thrown)) :
    roomGetEnv fileUrl none ⟨w, []⟩ = (Except.error enoent, ⟨w, []⟩)
      ∧ roomGetEnv fileUrl decor ⟨w, some e :: rest⟩ = (Except.error e, ⟨w, rest⟩) :=
  ⟨rfl, rfl⟩

/-- The handler of `stand:list` has no `try` either: what `readdirSync` throws goes
to the caller. -/
theorem standList_propagates (fileUrl : JSString → JSString) (entries : List Entry)
    (w : World) (e : Thrown) (rest : List (Option Thrown)) :
    standList fileUrl (some entries) ⟨w, some e :: rest⟩ = (Except.error e, ⟨w, rest⟩) := by
  unfold standList
  simp only [run_bind_eq, Run.bind, listStandM_fault]

/-- The `catch` of `stand:delete` lists the directory again: when `unlinkSync`
throws and then `readdirSync` throws, the second error goes to the caller. -/
theorem standDelete_propagates (fileUrl : JSString → JSString) (entries : List Entry)
    (e1 e2 : Thrown) (rest : List (Option Thrown)) :
    standDelete fileUrl (some entries) (lit "a.png") ⟨homeWorld, some e1 :: some e2 :: rest⟩
      = (Except.error e2, ⟨homeWorld, rest⟩) := by
  unfold standDelete attempt
  simp only [run_bind_eq, run_pure_eq, Run.bind, existsSyncM]
  have hex : existsSync homeWorld (pathJoin STAND_DIR (lit "a.png")) = true := by decide
  simp only [hex, if_true, unlinkSyncM, fsCall_fault, Run.bind, listStandM_fault]

/-- When only `unlinkSync` throws, `stand:delete` reports it: `ok` is `false`, with
the items and the text of the error. -/
theorem standDelete_reports (fileUrl : JSString → JSString) (root : Option (List Entry))
    (e : Thrown) :
    standDelete fileUrl root (lit "a.png") ⟨homeWorld, [some e]⟩
      = (Except.ok (failItems (listStand fileUrl root) e), ⟨homeWorld, []⟩) := by
  unfold standDelete attempt
  simp only [run_bind_eq, run_pure_eq, Run.bind, existsSyncM]
  have hex : existsSync homeWorld (pathJoin STAND_DIR (lit "a.png")) = true := by decide
  simp only [hex, if_true, unlinkSyncM, fsCall_fault, Run.bind, listStandM_noFaults, Run.pure]

/-- C12 fails at a save whose write fails: when `writeFileSync` of the temporary
file throws `eperm`, `writeStateSafe` catches the error and rotates, so the `catch`
of the handler of `room:saveState` never runs: the handler returns `{ ok: true }`,
not a result with `ok` equal to `false` and the error text, and the state document
holds the default state instead of the state saved. -/
theorem roomSaveState_absorbs :
    (roomSaveState sampleState ⟨homeWorld, [none, some eperm]⟩).1 = Except.ok okReply
      ∧ (roomSaveState sampleState ⟨homeWorld, [none, some eperm]⟩).2.world.files STATE_PATH
          = some (utf8Encode (JSON.stringify defaultState)) := by
  constructor
  · obtain ⟨s1, h⟩ := roomSaveState_returns sampleState ⟨homeWorld, [none, some eperm]⟩
    rw [h]
  · unfold roomSaveState attempt writeStateSafeM attempt
    simp only [run_bind_eq, run_pure_eq, Run.bind, ensureDirM, writeFileSyncM]
    have h1 : fsCall (fun w => (Except.ok ((), w) : Except Thrown (Unit × World)))
        ⟨homeWorld, [none, some eperm]⟩ = (Except.ok (), ⟨homeWorld, [some eperm]⟩) := rfl
    simp only [h1, fsCall_fault, rotateStateM_noFaults, Run.pure]
    exact (rotateState_files (lit "writefail") homeWorld _ rfl).2.1

/-- The handler of `chat:send` reports a failed write: when `writeFileSync` throws
`e`, it returns `{ ok: false, error }` with the text of `e`, and the files are as
before. -/
theorem chatSend_reports (text : Option JSString) (random : JSString) (w : World)
    (e : Thrown) (rest : List (Option Thrown)) :
    chatSend text random ⟨w, none :: some e :: rest⟩
      = (Except.ok (failReply e), ⟨w, rest⟩) := rfl

/-- When no call throws, the handler of `chat:send` writes the text to a new file of
the inbox queue and returns `{ ok: true }`. -/
theorem chatSend_writes (text : Option JSString) (random : JSString) (w : World) :
    chatSend text random ⟨w, []⟩
      = (Except.ok okReply,
          ⟨writeFileSync w (joinPath INBOXQ (natToStr w.now ++ lit "-" ++ random ++ lit ".txt"))
            (text.getD []), []⟩) := rfl

/-- When no call throws, the handler of `room:saveState` does what `writeStateSafe`
does and returns `{ ok: true }`. -/
theorem roomSaveState_noFaults (st : JSValue) (w : World) :
    roomSaveState st ⟨w, []⟩
      = (Except.ok okReply, ⟨writeStateSafe (orEmptyObject st) w, []⟩) := by
  unfold roomSaveState
  apply attempt_of_returns
  simp [run_bind_eq, run_pure_eq, Run.bind, writeStateSafeM_noFaults, Run.pure]

theorem pathJoin_traversal :
    pathJoin STAND_DIR (lit "..\\ui\\state.json") = STATE_PATH := by
  decide

/-- The path of `stand:delete` is normalised by `path.join`: the file name
`..\ui\state.json` leaves the asset directory, and the handler unlinks the state
document. -/
theorem standDelete_traversal (fileUrl : JSString → JSString) (root : Option (List Entry)) :
    standDelete fileUrl root (lit "..\\ui\\state.json") ⟨homeWorld, []⟩
        = (Except.ok (okItems (listStand fileUrl root)),
            ⟨{ homeWorld with files := fun q => if q = STATE_PATH then none
                                                else homeWorld.files q }, []⟩) := by
  unfold standDelete attempt
  simp only [run_bind_eq, run_pure_eq, Run.bind, existsSyncM, pathJoin_traversal]
  have hex : existsSync homeWorld STATE_PATH = true := by decide
  simp only [hex, if_true, unlinkSyncM, fsCall_noFaults, Run.bind, listStandM_noFaults,
    Run.pure]
  have hf : homeWorld.files STATE_PATH
      = some (utf8Encode (JSON.stringify defaultState)) := rfl
  simp only [hf, listStandM_noFaults]

/-- The allow-list test on names with capitals and on a dot-file: `A.PNG` and
`b.JpEg` pass, `.png` (no extension for `path.extname`) and `c.txt` do not. -/
theorem isImageName_examples :
    isImageName (lit "A.PNG") = true ∧ isImageName (lit "b.JpEg") = true
      ∧ isImageName (lit ".png") = false ∧ isImageName (lit "c.txt") = false := by
  decide

end Echo
